import Mathlib

/-!
# gofig: a shallow embedding of the INI configuration store

The development follows the Go sources `gofig.go`, `option.go` and `section.go`.

* Go strings are modelled as lists of Unicode code points (`GoString`).  Every
  index the sources use (`line[0:1]`, `line[lenLine-1:]`, `option[1:optLen-1]`)
  is compared against, or cut next to, a one-byte ASCII character, so that on
  well-formed UTF-8 text cutting at code points and cutting at bytes agree.
* Go maps are modelled as association lists with at most one binding per key
  that is ever looked at (`mapGet` returns the first, `mapSet` overwrites the
  first, `mapDelete` removes all of them).
* A runtime failure of a slice expression (a Go panic) is modelled by `none`
  (`slice`, `conformOption`, `SetString`) or by `Result.panic`.
* A pointer receiver that is mutated becomes explicit state passing.
-/

namespace Gofig

/-! ## Strings -/

/-- A Go string, as the list of its code points. -/
abbrev GoString := List Char

/-- The single quote character. -/
def squote : Char := Char.ofNat 39

/-- The double quote character. -/
def dquote : Char := Char.ofNat 34

/-- Go `unicode.IsSpace`: the Unicode White_Space property. -/
def isSpace (c : Char) : Bool :=
  let n := c.toNat
  (9 ≤ n && n ≤ 13) || n == 32 || n == 0x85 || n == 0xA0 || n == 0x1680 ||
  (0x2000 ≤ n && n ≤ 0x200A) || n == 0x2028 || n == 0x2029 || n == 0x202F ||
  n == 0x205F || n == 0x3000

/-- Go `strings.TrimSpace`: `TrimRightFunc (TrimLeftFunc s IsSpace) IsSpace`. -/
def TrimSpace (s : GoString) : GoString :=
  ((s.dropWhile isSpace).reverse.dropWhile isSpace).reverse

/-- The Go slice expression `s[lo:hi]`; `none` is the runtime failure
"slice bounds out of range", raised unless `lo ≤ hi ≤ len s`. -/
def slice (s : GoString) (lo hi : Nat) : Option GoString :=
  if lo ≤ hi ∧ hi ≤ s.length then some ((s.take hi).drop lo) else none

/-- Go `strings.Contains s sep` for a one-character separator. -/
def Contains (s : GoString) (sep : Char) : Bool :=
  s.any (fun c => c == sep)

/-- Go `strings.Split s sep` for a one-character separator. -/
def Split (s : GoString) (sep : Char) : List GoString :=
  s.splitOn sep

/-- Go `strings.SplitN s sep 2` for a one-character separator: the text before
the first separator and the text after it, or the whole string alone when
there is no separator. -/
def SplitN2 (s : GoString) (sep : Char) : List GoString :=
  match s.dropWhile (fun c => c != sep) with
  | [] => [s]
  | _ :: after => [s.takeWhile (fun c => c != sep), after]

/-! ## Maps -/

/-- Go `m[k]` with the comma-ok form: the first binding of `k`. -/
def mapGet {β : Type} : List (GoString × β) → GoString → Option β
  | [], _ => none
  | (k', v) :: t, k => if k' = k then some v else mapGet t k

/-- Go `m[k] = v`: overwrite the binding of `k`, or add one. -/
def mapSet {β : Type} : List (GoString × β) → GoString → β → List (GoString × β)
  | [], k, v => [(k, v)]
  | (k', v') :: t, k, v => if k' = k then (k, v) :: t else (k', v') :: mapSet t k v

/-- Go `delete(m, k)`. -/
def mapDelete {β : Type} : List (GoString × β) → GoString → List (GoString × β)
  | [], _ => []
  | (k', v) :: t, k => if k' = k then mapDelete t k else (k', v) :: mapDelete t k

/-! ## The configuration store (`gofig.go`, `section.go`, `option.go`) -/

/-- `ConfigOption` is a single map level for key => value pair. -/
abbrev ConfigOption := List (GoString × GoString)

/-- The `Configuration` struct.  `Sections` is a Go `int`; it only ever moves
by one, so no wrap-around is modelled. -/
structure Configuration where
  ConfigMap : List (GoString × ConfigOption)
  Sections : Int
  OnDefaultAddToSection : Bool
  IsLoaded : Bool
  IsCache : Bool
  ignoreCache : Bool
  ConfigFile : GoString
  cacheFile : GoString
  deriving DecidableEq, Repr

/-- Outcome of a Go call returning `(T, error)`: a value, an error carrying its
message, or a runtime failure. -/
inductive Result (α : Type) where
  | ok (value : α)
  | error (msg : GoString)
  | panic
  deriving DecidableEq, Repr

/-- `conformSectionName` of `section.go`. -/
def conformSectionName (sectionName : GoString) : GoString :=
  TrimSpace sectionName

/-- `conformOption` of `option.go`.  The slice expressions are evaluated where
the source evaluates them; the result is `none` when one of them fails. -/
def conformOption (option : GoString) : Option GoString :=
  let option := TrimSpace option
  let optLen := option.length
  if optLen > 0 then
    match slice option 0 1 with
    | none => none
    | some first =>
      if first = [squote] ∨ first = [dquote] then
        match slice option (optLen - 1) optLen with
        | none => none
        | some last => if first = last then slice option 1 (optLen - 1) else some option
      else some option
  else some option

/-- `IsSection`: the name is looked up as given. -/
def IsSection (config : Configuration) (sectionName : GoString) : Bool :=
  (mapGet config.ConfigMap sectionName).isSome

/-- `GetSection`: the map of a section, if the conformed name is bound. -/
def GetSection (config : Configuration) (sectionName : GoString) : Option ConfigOption :=
  mapGet config.ConfigMap (conformSectionName sectionName)

/-- `AddSection`: the new configuration and the section map it returns. -/
def AddSection (config : Configuration) (sectionName : GoString) :
    Configuration × ConfigOption :=
  let sectionName := conformSectionName sectionName
  match mapGet config.ConfigMap sectionName with
  | some mm => (config, mm)
  | none =>
    ({ config with ConfigMap := mapSet config.ConfigMap sectionName [],
                   Sections := config.Sections + 1 }, [])

/-- `DeleteSection`. -/
def DeleteSection (config : Configuration) (sectionName : GoString) : Configuration :=
  let sectionName := conformSectionName sectionName
  match mapGet config.ConfigMap sectionName with
  | some _ =>
    { config with ConfigMap := mapDelete config.ConfigMap sectionName,
                  Sections := config.Sections - 1 }
  | none => config

/-- Store `mm` as the map of the (conformed) section a previous `AddSection`
returned: the writes Go performs through the shared map reference. -/
def putSection (config : Configuration) (sectionName : GoString) (mm : ConfigOption) :
    Configuration :=
  { config with ConfigMap := mapSet config.ConfigMap (conformSectionName sectionName) mm }

/-- `DeleteOption`: the section name is looked up as given. -/
def DeleteOption (config : Configuration) (sectionName optionName : GoString) :
    Configuration :=
  match mapGet config.ConfigMap sectionName with
  | some mm => { config with ConfigMap := mapSet config.ConfigMap sectionName (mapDelete mm optionName) }
  | none => config

/-- `MergeOptions`: the source is looked up after the target has been added.
Go leaves the order of `range` over a map open; the entries are visited here
from the last to the first. -/
def MergeOptions (config : Configuration) (targetSection sourceSection : GoString) :
    Configuration :=
  let (config, ts) := AddSection config targetSection
  match GetSection config sourceSection with
  | some ss => putSection config targetSection (ss.foldr (fun e ts => mapSet ts e.1 e.2) ts)
  | none => config

/-- `SetString`; `none` when a `conformOption` call fails at run time. -/
def SetString (config : Configuration) (sectionName optionName value : GoString) :
    Option Configuration :=
  let (config, mm) := AddSection config sectionName
  match conformOption optionName, conformOption value with
  | some o, some v => some (putSection config sectionName (mapSet mm o v))
  | _, _ => none

/-- `IsOption`: both names are looked up as given. -/
def IsOption (config : Configuration) (sectionName optionName : GoString) : Bool :=
  match mapGet config.ConfigMap sectionName with
  | some mm => (mapGet mm optionName).isSome
  | none => false

/-- Message of the section-not-found error of `GetString`. -/
def sectionNotFound (sectionName : GoString) : GoString :=
  "Section ".toList ++ [squote] ++ sectionName ++ [squote] ++ " not found".toList

/-- Message of the option-not-found error of `GetString`. -/
def optionNotFound (optionName : GoString) : GoString :=
  "Option ".toList ++ [squote] ++ optionName ++ [squote] ++ " not found".toList

/-- `GetString`.  The source reads the configuration and never writes to it,
so the call is a function of the configuration alone. -/
def GetString (config : Configuration) (sectionName optionName : GoString) :
    Result GoString :=
  match GetSection config sectionName with
  | none => .error (sectionNotFound sectionName)
  | some mm =>
    match mapGet mm optionName with
    | none => .error (optionNotFound optionName)
    | some value => .ok value

/-- `GetStringWithDefault`: the returned string and the configuration after
the call; `none` when a `SetString` fails at run time. -/
def GetStringWithDefault (config : Configuration) (sectionName optionName defaultValue : GoString) :
    Option (GoString × Configuration) :=
  match GetString config sectionName optionName with
  | .ok value => some (value, config)
  | _ =>
    match SetString config "_default".toList sectionName optionName with
    | none => none
    | some config =>
      if config.OnDefaultAddToSection then
        match SetString config sectionName optionName defaultValue with
        | none => none
        | some config => some (defaultValue, config)
      else some (defaultValue, config)

/-- `NewConfigurationWithCache`. -/
def NewConfigurationWithCache (file : GoString) : Configuration :=
  (AddSection
    { ConfigMap := [], Sections := 0, OnDefaultAddToSection := false, IsLoaded := false,
      IsCache := false, ignoreCache := false, ConfigFile := [], cacheFile := file }
    "_default".toList).1

/-- `NewConfiguration`. -/
def NewConfiguration : Configuration :=
  NewConfigurationWithCache []

/-- `SetAddOnDefault`. -/
def SetAddOnDefault (config : Configuration) (flag : Bool) : Configuration :=
  { config with OnDefaultAddToSection := flag }

/-- The loop of `GetSectionNames`: `names[i] = name; i++` for every name that
is not empty.  The index stays below the length of `names`, which is the
number of names visited, so the assignment never fails. -/
def fillNames : List GoString → List GoString → Nat → List GoString
  | [], names, _ => names
  | name :: rest, names, i =>
    if name ≠ [] then fillNames rest (names.set i name) (i + 1)
    else fillNames rest names i

/-- `GetSectionNames`: a slice of `len(config.ConfigMap)` empty strings, filled
from the front with the section names that are not empty. -/
def GetSectionNames (config : Configuration) : List GoString :=
  fillNames (config.ConfigMap.map Prod.fst)
    (List.replicate config.ConfigMap.length []) 0

/-! ## `strconv`, as the typed accessors call it -/

/-- The errors a `strconv.NumError` carries. -/
inductive NumErr where
  | ErrSyntax
  | ErrRange
  deriving DecidableEq, Repr

/-- A Go `error`: one made by `errors.New`, or a `*strconv.NumError` with the
name of the function, the input and the error it carries. -/
inductive GoError where
  | text (msg : GoString)
  | num (fn input : GoString) (kind : NumErr)
  deriving DecidableEq, Repr

/-- The largest `uint64`. -/
def maxUint64 : Nat := 2 ^ 64 - 1

/-- Conversion `int64(u)` of a `uint64`, and the wrap-around of `int64`
arithmetic: the representative of `x` modulo `2^64` in the `int64` range. -/
def toInt64 (x : Int) : Int :=
  (x + 2 ^ 63) % 2 ^ 64 - 2 ^ 63

/-- The character of a decimal digit. -/
def digitChar (d : Nat) : Char :=
  Char.ofNat (48 + d)

/-- The digit loop of `strconv.formatBits` in base 10: `for u >= 10` the last
digit is written in front of what has been written, then the first digit.
The first argument bounds the number of turns; `u` turns are always enough. -/
def formatBits : Nat → Nat → GoString → GoString
  | 0, u, acc => digitChar (u % 10) :: acc
  | fuel + 1, u, acc =>
    if u < 10 then digitChar u :: acc
    else formatBits fuel (u / 10) (digitChar (u % 10) :: acc)

/-- `strconv.FormatInt(i, 10)` of an `int64`. -/
def FormatInt (i : Int) : GoString :=
  if i < 0 then '-' :: formatBits i.natAbs i.natAbs []
  else formatBits i.natAbs i.natAbs []

/-- `lower(c)` of `strconv`: `c | ('x' - 'X')`. -/
def lower (c : Nat) : Nat :=
  c ||| 32

/-- The value of a digit in the loop of `ParseUint`, if the character is a
digit or a letter. -/
def digitValue (c : Char) : Option Nat :=
  if 48 ≤ c.toNat ∧ c.toNat ≤ 57 then some (c.toNat - 48)
  else if 97 ≤ lower c.toNat ∧ lower c.toNat ≤ 122 then some (lower c.toNat - 97 + 10)
  else none

/-- The loop of `strconv.ParseUint` for bit size 64, called with base 0: the
number read so far and whether an underscore was met, or the value and the
error the loop returns with. -/
def parseUintLoop (base : Nat) : List Char → Nat → Bool → Except (Nat × NumErr) (Nat × Bool)
  | [], n, underscores => .ok (n, underscores)
  | c :: cs, n, underscores =>
    if c = '_' then parseUintLoop base cs n true
    else
      match digitValue c with
      | none => .error (0, .ErrSyntax)
      | some d =>
        if d ≥ base then .error (0, .ErrSyntax)
        else if n ≥ maxUint64 / base + 1 then .error (maxUint64, .ErrRange)
        else
          let n := (n * base) % 2 ^ 64
          let n1 := (n + d) % 2 ^ 64
          if n1 < n ∨ n1 > maxUint64 then .error (maxUint64, .ErrRange)
          else parseUintLoop base cs n1 underscores

/-- The loop of `strconv.underscoreOK`; `saw` is the kind of the last
character seen. -/
def underscoreLoop (hex : Bool) : List Char → Char → Bool
  | [], saw => saw != '_'
  | c :: cs, saw =>
    if (48 ≤ c.toNat ∧ c.toNat ≤ 57) ∨
        (hex = true ∧ 97 ≤ lower c.toNat ∧ lower c.toNat ≤ 102) then
      underscoreLoop hex cs '0'
    else if c = '_' then
      if saw != '0' then false else underscoreLoop hex cs '_'
    else if saw = '_' then false
    else underscoreLoop hex cs '!'

/-- `strconv.underscoreOK`. -/
def underscoreOK (s : GoString) : Bool :=
  let s :=
    match s with
    | c :: rest => if c = '-' ∨ c = '+' then rest else s
    | [] => s
  match s with
  | c0 :: c1 :: rest =>
    if c0 = '0' ∧ (lower c1.toNat = 98 ∨ lower c1.toNat = 111 ∨ lower c1.toNat = 120) then
      underscoreLoop (decide (lower c1.toNat = 120)) rest '0'
    else underscoreLoop false s '^'
  | _ => underscoreLoop false s '^'

/-- `strconv.ParseUint(s, 0, 64)`: the value and the error it returns. -/
def ParseUint (s : GoString) : Nat × Option NumErr :=
  match s with
  | [] => (0, some .ErrSyntax)
  | c0 :: rest =>
    let baseAndDigits : Nat × GoString :=
      if c0 = '0' then
        match rest with
        | c1 :: rest2 =>
          if s.length ≥ 3 ∧ lower c1.toNat = 98 then (2, rest2)
          else if s.length ≥ 3 ∧ lower c1.toNat = 111 then (8, rest2)
          else if s.length ≥ 3 ∧ lower c1.toNat = 120 then (16, rest2)
          else (8, rest)
        | [] => (8, rest)
      else (10, s)
    match parseUintLoop baseAndDigits.1 baseAndDigits.2 0 false with
    | .error (value, kind) => (value, some kind)
    | .ok (n, underscores) =>
      if underscores = true ∧ underscoreOK s = false then (0, some .ErrSyntax)
      else (n, none)

/-- `strconv.ParseInt(s, 0, 64)`: the value and the error it returns. -/
def ParseInt (s : GoString) : Int × Option GoError :=
  match s with
  | [] => (0, some (.num "ParseInt".toList s .ErrSyntax))
  | c0 :: rest =>
    let neg : Bool := decide (c0 = '-')
    let digits : GoString := if c0 = '+' ∨ c0 = '-' then rest else s
    match ParseUint digits with
    | (_, some .ErrSyntax) => (0, some (.num "ParseInt".toList s .ErrSyntax))
    | (un, _) =>
      if neg = false ∧ un ≥ 2 ^ 63 then
        (2 ^ 63 - 1, some (.num "ParseInt".toList s .ErrRange))
      else if neg = true ∧ un > 2 ^ 63 then
        (-(2 ^ 63), some (.num "ParseInt".toList s .ErrRange))
      else if neg = true then (toInt64 (-(toInt64 un)), none)
      else (toInt64 un, none)

/-- `strconv.ParseBool`. -/
def ParseBool (str : GoString) : Bool × Option GoError :=
  if str = "1".toList ∨ str = "t".toList ∨ str = "T".toList ∨ str = "true".toList ∨
      str = "TRUE".toList ∨ str = "True".toList then (true, none)
  else if str = "0".toList ∨ str = "f".toList ∨ str = "F".toList ∨ str = "false".toList ∨
      str = "FALSE".toList ∨ str = "False".toList then (false, none)
  else (false, some (.num "ParseBool".toList str .ErrSyntax))

/-! ## The typed accessors (`option.go`) -/

/-- `GetInt`; `none` only if `GetString` failed at run time, which it never
does. -/
def GetInt (config : Configuration) (sectionName optionName : GoString) :
    Option (Int × Option GoError) :=
  match GetString config sectionName optionName with
  | .ok mm => some (ParseInt mm)
  | .error msg => some (0, some (.text msg))
  | .panic => none

/-- `GetIntWithDefault`: the pair it returns and the configuration after the
call; `none` when `GetStringWithDefault` fails at run time. -/
def GetIntWithDefault (config : Configuration) (sectionName optionName : GoString)
    (defaultValue : Int) : Option ((Int × Option GoError) × Configuration) :=
  let i := FormatInt defaultValue
  match GetStringWithDefault config sectionName optionName i with
  | none => none
  | some (mm, config) => some (ParseInt mm, config)

/-- `GetBool`; `none` only if `GetString` failed at run time, which it never
does. -/
def GetBool (config : Configuration) (sectionName optionName : GoString) :
    Option (Bool × Option GoError) :=
  match GetString config sectionName optionName with
  | .ok mm => some (ParseBool mm)
  | .error msg => some (false, some (.text msg))
  | .panic => none

/-- `GetBoolWithDefault`: the pair it returns and the configuration after the
call.  The source calls `GetString` and `ParseBool` only; the configuration it
was given is the one it leaves. -/
def GetBoolWithDefault (config : Configuration) (sectionName optionName : GoString)
    (defaultValue : Bool) : Option ((Bool × Option GoError) × Configuration) :=
  match GetString config sectionName optionName with
  | .ok mm => some (ParseBool mm, config)
  | .error _ => some ((defaultValue, none), config)
  | .panic => none

/-! ## The cache check (`gofig.go`) -/

/-- What `os.Stat` tells about a file, as far as the source looks at it: its
size and its modification time, as an instant on a line of integer ticks. -/
structure FileInfo where
  Size : Int
  ModTime : Int
  deriving DecidableEq, Repr

/-- `isCacheFileNewer`, the two results of `os.Stat` being given: `none` is a
stat that returns an error.  `Time.After` is true for a strictly later
instant. -/
def isCacheFileNewer (fileStat cacheStat : Option FileInfo) : Bool :=
  match fileStat, cacheStat with
  | some fileInfo, some cacheInfo =>
    if cacheInfo.Size = 0 then false
    else decide (cacheInfo.ModTime > fileInfo.ModTime)
  | _, _ => false

/-! ## Sequences of calls -/

/-- A call of a public operation of the store. -/
inductive Op where
  | addSection (sectionName : GoString)
  | deleteSection (sectionName : GoString)
  | setString (sectionName optionName value : GoString)
  | deleteOption (sectionName optionName : GoString)
  | mergeOptions (targetSection sourceSection : GoString)
  | setAddOnDefault (flag : Bool)
  | getString (sectionName optionName : GoString)
  | getInt (sectionName optionName : GoString)
  | getBool (sectionName optionName : GoString)
  | getStringWithDefault (sectionName optionName defaultValue : GoString)
  | getIntWithDefault (sectionName optionName : GoString) (defaultValue : Int)
  | getBoolWithDefault (sectionName optionName : GoString) (defaultValue : Bool)
  deriving DecidableEq, Repr

/-- The configuration a call leaves; `none` when the call fails at run time. -/
def Op.apply (config : Configuration) : Op → Option Configuration
  | .addSection n => some (AddSection config n).1
  | .deleteSection n => some (DeleteSection config n)
  | .setString s o v => SetString config s o v
  | .deleteOption s o => some (DeleteOption config s o)
  | .mergeOptions t s => some (MergeOptions config t s)
  | .setAddOnDefault flag => some (SetAddOnDefault config flag)
  | .getString _ _ => some config
  | .getInt _ _ => some config
  | .getBool _ _ => some config
  | .getStringWithDefault s o d => (GetStringWithDefault config s o d).map Prod.snd
  | .getIntWithDefault s o d => (GetIntWithDefault config s o d).map Prod.snd
  | .getBoolWithDefault s o d => (GetBoolWithDefault config s o d).map Prod.snd

/-- The configuration a sequence of calls leaves. -/
def runOps : List Op → Configuration → Option Configuration
  | [], config => some config
  | op :: rest, config =>
    match op.apply config with
    | some config => runOps rest config
    | none => none

/-! ## Reading a document (`configFromReader`) -/

/-- `bufio.MaxScanTokenSize`: a line that does not fit a buffer of this many
bytes together with its newline ends the scan (`Scan` returns false with
`ErrTooLong`, which `configFromReader` never inspects). -/
def MaxScanTokenSize : Nat := 64 * 1024

/-- `dropCR` of `bufio`: drop one trailing carriage return. -/
def dropCR (data : GoString) : GoString :=
  match data.getLast? with
  | some c => if c = '\r' then data.dropLast else data
  | none => data

/-- The texts `scanner.Text()` yields over the calls of `scanner.Scan()` of a
`bufio.Scanner` with the default `ScanLines` split function.  `cur` is the
current line read so far, in reverse, and `n` its number of bytes. -/
def scanLines : GoString → GoString → Nat → List GoString
  | [], cur, _ => if cur = [] then [] else [dropCR cur.reverse]
  | c :: cs, cur, n =>
    if c = '\n' then dropCR cur.reverse :: scanLines cs [] 0
    else if MaxScanTokenSize ≤ n + c.utf8Size then []
    else scanLines cs (c :: cur) (n + c.utf8Size)

/-- The variables the loop of `configFromReader` updates. -/
structure LoopState where
  config : Configuration
  section_ : GoString
  deriving DecidableEq, Repr

/-- The loop `for i, name := range strings.Split(section, ":")`, from index `i`. -/
def cascadeLoop : List GoString → Nat → LoopState → LoopState
  | [], _, st => st
  | name :: rest, i, st =>
    let sectionName := TrimSpace name
    if i = 0 then cascadeLoop rest (i + 1) { st with section_ := sectionName }
    else cascadeLoop rest (i + 1)
      { st with config := MergeOptions st.config st.section_ sectionName }

/-- One iteration of the loop of `configFromReader` on the text of a line. -/
def processLine (st : LoopState) (text : GoString) : Result LoopState :=
  let line := TrimSpace text
  let lenLine := line.length
  if lenLine > 0 then
    match slice line 0 1 with
    | none => .panic
    | some first =>
      if first ≠ ['#'] ∧ first ≠ [';'] then
        if first = ['['] then
          match slice line (lenLine - 1) lenLine with
          | none => .panic
          | some last =>
            if last ≠ [']'] then
              .error ("Invalid section marker in line: ".toList ++ line)
            else
              match slice line 1 (lenLine - 1) with
              | none => .panic
              | some body =>
                let section_ := TrimSpace body
                if Contains section_ ':' then
                  .ok (cascadeLoop (Split section_ ':') 0 { st with section_ := section_ })
                else .ok { st with section_ := section_ }
        else
          match SplitN2 line '=' with
          | [key, value] =>
            match SetString st.config st.section_ key value with
            | some config => .ok { st with config := config }
            | none => .panic
          | _ => .error ("Invalid key/value pair in line: ".toList ++ line)
      else .ok st
  else .ok st

/-- The loop `for scanner.Scan()` over the texts the scanner yields. -/
def scanLoop : List GoString → LoopState → Result LoopState
  | [], st => .ok st
  | text :: rest, st =>
    match processLine st text with
    | .ok st => scanLoop rest st
    | .error msg => .error msg
    | .panic => .panic

/-- `configFromReader` on the content of the reader.  `SaveCache` only writes
a file and leaves the configuration as it is. -/
def configFromReader (reader cacheName : GoString) : Result Configuration :=
  match scanLoop (scanLines reader [] 0)
      { config := NewConfigurationWithCache cacheName, section_ := "default".toList } with
  | .ok st => .ok { st.config with IsLoaded := true }
  | .error msg => .error msg
  | .panic => .panic

/-- `NewConfigurationFromIniString`. -/
def NewConfigurationFromIniString (input : GoString) : Result Configuration :=
  if input = [] then .error "String cannot be empty".toList
  else configFromReader input []

/-- The document `testdata_set1` of `gofig_test.go`. -/
def testdata_set1 : GoString :=
  "\n; comment 1\n       # another comment\n[begin]\na=1\nb=  2\nc=".toList ++
  [dquote] ++ "  3".toList ++ [dquote] ++
  "\n\n[  middle   ]\n  key1 = value 1\n\n# Begining of the end\n[end]\nkey2 = value 2\n".toList

/-- The document `testdata_cascade` of `gofig_test.go`. -/
def testdata_cascade : GoString :=
  "\n[one]\na=1\nb=2\n\n[two]\nc=3\nd=4\n\n# Test an inherited value\n[three:two:one]\ne=5".toList

/-! ## Reference definitions, vocabulary of the claims, and test documents -/

/-- Conform as the specification words it: trim, then remove the first and the
last character when the trimmed text has at least two characters, begins with
a quote character and ends with that same character. -/
def conformRef (s : GoString) : GoString :=
  let t := TrimSpace s
  if 2 ≤ t.length ∧ (t.head? = some squote ∨ t.head? = some dquote) ∧ t.getLast? = t.head?
  then t.tail.dropLast else t

/-- The value a configuration holds for an option of the section stored under
`name`, if any. -/
def held (config : Configuration) (name optionName : GoString) : Option GoString :=
  (mapGet config.ConfigMap name).bind (fun mm => mapGet mm optionName)

/-- The configuration `NewConfigurationFromIniString` returns for a document,
or the empty store when it returns none. -/
def parsed (input : GoString) : Configuration :=
  match NewConfigurationFromIniString input with
  | .ok config => config
  | _ => NewConfiguration

/-- The state in which `configFromReader` enters its loop for
`NewConfigurationFromIniString`. -/
def initialState : LoopState :=
  { config := NewConfigurationWithCache [], section_ := "default".toList }

/-- A line the reader skips: blank after trimming, or a comment (first
character `#` or `;`). -/
def isIgnoredLine (text : GoString) : Bool :=
  match TrimSpace text with
  | [] => true
  | c :: _ => c == '#' || c == ';'

/-- An assignment line: after trimming it is not empty, does not begin with
`#`, `;` or `[`, and contains `=`. -/
def isAssignmentLine (text : GoString) : Bool :=
  match TrimSpace text with
  | [] => false
  | c :: _ => c != '#' && c != ';' && c != '[' && Contains (TrimSpace text) '='

/-- The text of an assignment line before its first `=`. -/
def keyText (text : GoString) : GoString :=
  (TrimSpace text).takeWhile (fun c => c != '=')

/-- The text of an assignment line after its first `=`. -/
def valueText (text : GoString) : GoString :=
  ((TrimSpace text).dropWhile (fun c => c != '=')).drop 1

/-- The target of an inheritance header: for a line of the form `[body]` whose
body contains `:`, the trimmed text before the first `:`. -/
def cascadeTarget (text : GoString) : Option GoString :=
  match TrimSpace text with
  | [] => none
  | c :: rest =>
    if c = '[' ∧ rest.getLast? = some ']' ∧ Contains (TrimSpace rest.dropLast) ':' then
      some (TrimSpace ((TrimSpace rest.dropLast).takeWhile (fun c => c != ':')))
    else none

/-- The value the parents of an inheritance header give an option: that of the
rightmost parent holding it. -/
def cascadeValue (config : Configuration) : List GoString → GoString → Option GoString
  | [], _ => none
  | p :: ps, o =>
    match cascadeValue config ps o with
    | some v => some v
    | none => held config (TrimSpace p) o

/-- The state of the loop of `configFromReader` after the given lines, or the
initial state when they are not read through. -/
def stateAfter (lines : List GoString) : LoopState :=
  match scanLoop lines initialState with
  | .ok st => st
  | _ => initialState

/-- The lines of `testdata_cascade` before its inheritance header. -/
def cascadePreamble : List GoString :=
  (scanLines testdata_cascade [] 0).take 10

/-- A one-section document: two comment lines, the header `[ begin ]`, four
assignments (the option `a` is assigned twice, one value holds `=`), and a
blank line. -/
def oneSectionDocument : GoString :=
  "; comment\n  # another\n[ begin ]\na=1\nb =  u=v\n\n a = 5\nc=x\n".toList

/-- The example document of the package comment of `gofig.go`: section `db`,
then section `testdb` inheriting from `db` and assigning `host` again. -/
def packageExample : GoString :=
  "; Comment\n# Also a comment. Blank lines will also be ignored\n#\n[ db ]\ndb=".toList ++
  [dquote] ++ "postgres".toList ++ [dquote] ++
  "\nhost = remotehost\n#\n[testdb : db ]\nhost=localhost\n#\n".toList

/-- A document in which the child section assigns the inherited option twice. -/
def duplicateAssignmentDocument : GoString :=
  "[p]\nk=w\n[c:p]\nk=v\nk=z".toList

/-- A document in which the header `[c:p]` comes before section `p` and once
more after it. -/
def remergeDocument : GoString :=
  "[c:p]\n[p]\na=1\n[c:p]".toList

/-- A document in which the header `[c:p]` comes before section `p`. -/
def forwardDocument : GoString :=
  "[c:p]\nx=1\n[p]\na=1".toList

/-- A malformed line: after trimming it is not empty, does not begin with `#`
or `;`, and either begins with `[` without ending with `]`, or does not begin
with `[` and contains no `=`. -/
def isMalformedLine (text : GoString) : Bool :=
  match TrimSpace text with
  | [] => false
  | c :: rest =>
    if c = '#' ∨ c = ';' then false
    else if c = '[' then (c :: rest).getLast? != some ']'
    else !Contains (c :: rest) '='

/-- The message of the error a malformed line is reported with: it carries the
trimmed text of the line. -/
def malformedMessage (text : GoString) : GoString :=
  if (TrimSpace text).head? = some '[' then
    "Invalid section marker in line: ".toList ++ TrimSpace text
  else "Invalid key/value pair in line: ".toList ++ TrimSpace text

/-- Number of bytes of the UTF-8 encoding of a string: Go `len`. -/
def byteLen (s : GoString) : Nat :=
  (s.map Char.utf8Size).sum

/-- The text made of the given lines, each closed by a newline. -/
def unlines (lines : List GoString) : GoString :=
  (lines.map (fun l => l ++ ['\n'])).flatten

/-- A line met in state `st` writes option `o` of the section stored under `n`:
it is an inheritance header with target `n`, or an assignment line of option
`o` met while `n` is the active section. -/
def writesOption (st : LoopState) (text n o : GoString) : Bool :=
  decide (cascadeTarget text = some n) ||
  (isAssignmentLine text && decide (TrimSpace st.section_ = n) &&
    decide (conformOption (keyText text) = some o))

/-- No line of a run of lines, read from state `st`, writes option `o` of the
section stored under `n`. -/
def untouched : LoopState → List GoString → GoString → GoString → Bool
  | _, [], _, _ => true
  | st, text :: rest, n, o =>
    !writesOption st text n o &&
    match processLine st text with
    | .ok st' => untouched st' rest n o
    | _ => true

/-- The names of the sections of a configuration: the keys of `ConfigMap`. -/
def sectionKeys (config : Configuration) : List GoString :=
  config.ConfigMap.map Prod.fst

/-- A section name that is not the empty string. -/
def isNamed (name : GoString) : Bool :=
  decide (name ≠ [])

/-- A configuration that represents a Go value: the keys of a Go map are
distinct. -/
def distinctKeys (config : Configuration) : Prop :=
  (sectionKeys config).Nodup

/-- The keys of a map after a write under `k`: `k` is added when it is not a
key yet. -/
def addName (names : List GoString) (k : GoString) : List GoString :=
  if k ∈ names then names else names ++ [k]

/-- The section name a header line puts in force: for a line of the form
`[body]`, the target of the inheritance header when the body contains `:`, and
the trimmed body otherwise. -/
def headerName (text : GoString) : Option GoString :=
  match TrimSpace text with
  | [] => none
  | c :: rest =>
    if c = '[' ∧ rest.getLast? = some ']' then
      match cascadeTarget text with
      | some n => some n
      | none => some (TrimSpace rest.dropLast)
    else none

/-- The section names a run of lines gives content to, in the order of the
lines: the target of every inheritance header, and the section in force at
every assignment line.  `active` is the section in force before the first
line. -/
def sectionsWritten : GoString → List GoString → List GoString
  | _, [] => []
  | active, text :: rest =>
    match headerName text with
    | some n => (cascadeTarget text).toList ++ sectionsWritten n rest
    | none => (if isAssignmentLine text then [active] else []) ++ sectionsWritten active rest

/-- The section names the headers of a run of lines name. -/
def headerNames (lines : List GoString) : List GoString :=
  lines.filterMap headerName

/-- The `Sections` field counts the sections of a configuration, whose names
are distinct. -/
def sectionsCounted (config : Configuration) : Prop :=
  distinctKeys config ∧ config.Sections = (sectionKeys config).length

/-- A text that trims to one quote character, single or double. -/
def isLoneQuote (s : GoString) : Bool :=
  decide (TrimSpace s = [squote]) || decide (TrimSpace s = [dquote])

/-- An assignment line whose key or whose value trims to one quote character. -/
def hasLoneQuote (text : GoString) : Bool :=
  isAssignmentLine text && (isLoneQuote (keyText text) || isLoneQuote (valueText text))

/-- A comment line of 65536 bytes: `;` followed by 65535 times `x`. -/
def longComment : GoString :=
  ';' :: List.replicate 65535 'x'

/-- The lines of a one-section document in which a comment line of 65536 bytes
stands between two assignments of the option `a`. -/
def longLineLines : List GoString :=
  ["[s]".toList, "a=1".toList, longComment, "a=2".toList]

/-- The lines of a document in which a comment line of 65536 bytes stands
between the header `[c:p]` and the assignment `k=v`. -/
def longLineCascadeLines : List GoString :=
  ["[p]".toList, "k=w".toList, "[c:p]".toList, longComment, "k=v".toList]

/-- The lines of a document in which a comment line of 65536 bytes stands
between the header `[a]` and the assignment `x=1`. -/
def longLineHeaderLines : List GoString :=
  ["[a]".toList, longComment, "x=1".toList]

/-! ## Strings: basic facts -/

theorem slice_zero_one (a : Char) (r : GoString) : slice (a :: r) 0 1 = some [a] := by
  simp [slice]

theorem slice_last (t : GoString) (h : t ≠ []) :
    slice t (t.length - 1) t.length = some [t.getLast h] := by
  obtain ⟨l, a, rfl⟩ : ∃ l a, t = l ++ [a] :=
    ⟨t.dropLast, t.getLast h, (List.dropLast_append_getLast h).symm⟩
  have e : List.take (l.length + 1) (l ++ [a]) = l ++ [a] :=
    List.take_of_length_le (by simp)
  simp [slice, e]

theorem slice_middle (t : GoString) (h : 2 ≤ t.length) :
    slice t 1 (t.length - 1) = some t.tail.dropLast := by
  have h1 : 1 ≤ t.length - 1 := by omega
  simp only [slice, h1, true_and, Nat.sub_le, if_true]
  congr 1
  rw [← List.dropLast_eq_take, List.drop_one]
  cases t with
  | nil => simp at h
  | cons a r =>
    cases r with
    | nil => simp at h
    | cons b r2 => simp [List.dropLast]

theorem slice_middle_none (a : Char) : slice [a] 1 0 = none := by
  simp [slice]

theorem conformOption_of_trim (s t : GoString) (ht : TrimSpace s = t)
    (h1 : t ≠ [squote]) (h2 : t ≠ [dquote]) :
    conformOption s = some (conformRef s) := by
  unfold conformOption conformRef
  simp only [ht]
  cases t with
  | nil => simp
  | cons a r =>
    have hne : a :: r ≠ [] := by simp
    rw [slice_zero_one]
    cases r with
    | nil =>
      have ha1 : a ≠ squote := fun e => h1 (by rw [e])
      have ha2 : a ≠ dquote := fun e => h2 (by rw [e])
      simp [ha1, ha2]
    | cons b r2 =>
      have hlen : 2 ≤ (a :: b :: r2).length := by simp
      have hlast : (a :: b :: r2).getLast? = some ((a :: b :: r2).getLast hne) :=
        List.getLast?_eq_getLast _ hne
      simp only [hlen, true_and, hlast, List.head?_cons, Option.some.injEq,
        List.cons.injEq, and_true, List.length_cons, gt_iff_lt, Nat.zero_lt_succ, if_true]
      by_cases hq : a = squote ∨ a = dquote
      · have hsl := slice_last _ hne
        have hsm := slice_middle _ hlen
        simp only [List.length_cons] at hsl hsm
        rw [if_pos hq, hsl]
        by_cases hl : a = (a :: b :: r2).getLast hne
        · simp only [List.cons.injEq, and_true]
          rw [if_pos hl, if_pos ⟨by simp, hq, hl.symm⟩]
          exact hsm
        · simp only [List.cons.injEq, and_true]
          rw [if_neg hl, if_neg (fun h => hl h.2.2.symm)]
      · rw [if_neg hq, if_neg (fun h => hq h.2.1)]

/-! ## Maps: basic facts -/

theorem mapGet_mapSet {β : Type} (m : List (GoString × β)) (k k' : GoString) (v : β) :
    mapGet (mapSet m k v) k' = if k = k' then some v else mapGet m k' := by
  induction m with
  | nil => simp [mapSet, mapGet]
  | cons e t ih =>
    obtain ⟨ke, ve⟩ := e
    by_cases h : ke = k
    · subst h
      by_cases h2 : ke = k' <;> simp [mapSet, mapGet, h2]
    · by_cases h2 : ke = k'
      · subst h2
        have h3 : ¬ k = ke := fun e => h e.symm
        simp [mapSet, mapGet, h, h3]
      · simp [mapSet, mapGet, h, h2, ih]

theorem mapGet_mapSet_self {β : Type} (m : List (GoString × β)) (k : GoString) (v : β) :
    mapGet (mapSet m k v) k = some v := by
  simp [mapGet_mapSet]

theorem mapGet_mapSet_ne {β : Type} (m : List (GoString × β)) (k k' : GoString) (v : β)
    (h : k ≠ k') : mapGet (mapSet m k v) k' = mapGet m k' := by
  simp [mapGet_mapSet, h]

theorem mapGet_mapDelete {β : Type} (m : List (GoString × β)) (k k' : GoString) :
    mapGet (mapDelete m k) k' = if k = k' then none else mapGet m k' := by
  induction m with
  | nil => simp [mapDelete, mapGet]
  | cons e t ih =>
    obtain ⟨ke, ve⟩ := e
    by_cases h : ke = k
    · subst h
      by_cases h2 : ke = k'
      · subst h2
        simpa [mapDelete] using ih
      · simp [mapDelete, mapGet, h2, ih]
    · by_cases h2 : ke = k'
      · subst h2
        have h3 : ¬ k = ke := fun e => h e.symm
        simp [mapDelete, mapGet, h, h3]
      · simp [mapDelete, mapGet, h, h2, ih]

/-! ## Trimming -/

theorem TrimSpace_eq (s : GoString) :
    TrimSpace s = (s.dropWhile isSpace).rdropWhile isSpace := rfl

theorem dropWhile_rdropWhile_of_fixed (p : Char → Bool) (l : List Char)
    (h : l.dropWhile p = l) : (l.rdropWhile p).dropWhile p = l.rdropWhile p := by
  cases l with
  | nil => simp
  | cons a t =>
    have hpa : p a = false := by
      by_contra hc
      have hc2 : p a = true := by simpa using hc
      have hlen := congrArg List.length h
      rw [List.dropWhile_cons_of_pos hc2] at hlen
      have := (List.dropWhile_suffix (l := t) p).length_le
      simp at hlen
      omega
    obtain ⟨u, hu⟩ := List.rdropWhile_prefix p (a :: t)
    cases hr : List.rdropWhile p (a :: t) with
    | nil => simp
    | cons b r =>
      rw [hr] at hu
      have hb : b = a := by
        simp at hu
        exact hu.1
      subst hb
      simp [List.dropWhile, hpa]

theorem TrimSpace_idem (s : GoString) : TrimSpace (TrimSpace s) = TrimSpace s := by
  rw [TrimSpace_eq s, TrimSpace_eq,
    dropWhile_rdropWhile_of_fixed _ _ (List.dropWhile_idempotent _ _),
    List.rdropWhile_idempotent]

theorem TrimSpace_nil : TrimSpace [] = [] := rfl

/-- A text that neither begins nor ends with white space is its own trimmed form. -/
theorem TrimSpace_of_ends (a b : Char) (m : GoString) (ha : isSpace a = false)
    (hb : isSpace b = false) : TrimSpace (a :: (m ++ [b])) = a :: (m ++ [b]) := by
  rw [TrimSpace_eq, List.dropWhile_cons_of_neg (by simp [ha])]
  have : a :: (m ++ [b]) = (a :: m) ++ [b] := rfl
  rw [this, List.rdropWhile_concat_neg _ _ _ (by simp [hb])]

theorem TrimSpace_singleton (a : Char) (ha : isSpace a = false) : TrimSpace [a] = [a] := by
  rw [TrimSpace_eq, List.dropWhile_cons_of_neg (by simp [ha])]
  exact List.rdropWhile_concat_neg _ [] _ (by simp [ha])

/-! ## The store: basic facts -/

theorem AddSection_snd (config : Configuration) (s : GoString) :
    (AddSection config s).2 = (mapGet config.ConfigMap (TrimSpace s)).getD [] := by
  unfold AddSection conformSectionName
  cases h : mapGet config.ConfigMap (TrimSpace s) <;> simp [h]

theorem AddSection_get (config : Configuration) (s n : GoString) :
    mapGet (AddSection config s).1.ConfigMap n =
      if TrimSpace s = n then some ((mapGet config.ConfigMap n).getD [])
      else mapGet config.ConfigMap n := by
  unfold AddSection conformSectionName
  cases h : mapGet config.ConfigMap (TrimSpace s) with
  | none =>
    by_cases hn : TrimSpace s = n
    · subst hn
      simp [mapGet_mapSet, h]
    · simp [mapGet_mapSet, hn, h]
  | some mm =>
    by_cases hn : TrimSpace s = n
    · subst hn
      simp [h]
    · simp [hn, h]

theorem AddSection_flag (config : Configuration) (s : GoString) :
    (AddSection config s).1.OnDefaultAddToSection = config.OnDefaultAddToSection := by
  unfold AddSection
  cases h : mapGet config.ConfigMap (conformSectionName s) <;> simp [h]

theorem putSection_get (config : Configuration) (s n : GoString) (mm : ConfigOption) :
    mapGet (putSection config s mm).ConfigMap n =
      if TrimSpace s = n then some mm else mapGet config.ConfigMap n := by
  simp [putSection, conformSectionName, mapGet_mapSet]

theorem SetString_eq (config : Configuration) (s o v co cv : GoString)
    (ho : conformOption o = some co) (hv : conformOption v = some cv) :
    SetString config s o v =
      some (putSection (AddSection config s).1 s (mapSet (AddSection config s).2 co cv)) := by
  simp [SetString, ho, hv]

theorem SetString_isSome (config : Configuration) (s o v : GoString) :
    (SetString config s o v).isSome = ((conformOption o).isSome && (conformOption v).isSome) := by
  unfold SetString
  cases conformOption o <;> cases conformOption v <;> simp

theorem held_SetString (config config' : Configuration) (s o v co cv : GoString)
    (ho : conformOption o = some co) (hv : conformOption v = some cv)
    (h : SetString config s o v = some config') (n k : GoString) :
    held config' n k = if TrimSpace s = n ∧ co = k then some cv else held config n k := by
  rw [SetString_eq config s o v co cv ho hv] at h
  injection h with h
  subst h
  unfold held
  rw [putSection_get, AddSection_snd]
  by_cases hn : TrimSpace s = n
  · subst hn
    by_cases hk : co = k
    · simp [hk, mapGet_mapSet]
    · simp only [if_true, Option.bind_some, mapGet_mapSet, hk, if_false, and_false]
      cases mapGet config.ConfigMap (TrimSpace s) <;> simp [mapGet, mapGet_mapSet, hk]
  · simp [hn, AddSection_get]

theorem flag_SetString (config config' : Configuration) (s o v : GoString)
    (h : SetString config s o v = some config') :
    config'.OnDefaultAddToSection = config.OnDefaultAddToSection := by
  unfold SetString at h
  cases ho : conformOption o <;> cases hv : conformOption v <;> simp [ho, hv] at h
  subst h
  simp [putSection, AddSection_flag]

theorem GetString_ok_iff (config : Configuration) (s o v : GoString) :
    GetString config s o = .ok v ↔ held config (TrimSpace s) o = some v := by
  unfold GetString GetSection held conformSectionName
  cases mapGet config.ConfigMap (TrimSpace s) with
  | none => simp
  | some mm => cases h : mapGet mm o <;> simp [h]

theorem TrimSpace_default : TrimSpace "_default".toList = "_default".toList := by decide

/-! ## C6: `conformOption` against its reference definition -/

/-- C6.  For every string `s` whose trimmed form is not a single quote
character, `conformOption s` returns the reference value `conformRef s`: the
trimmed text without its first and last character when it has at least two
characters, begins with a quote character and ends with the same one, and the
trimmed text itself otherwise.  One layer only is removed and nothing is
trimmed again: the doubled quotes around `value` leave one pair, and the quoted
text with two leading blanks keeps its blanks. -/
theorem conformOption_reference (s : GoString)
    (h1 : TrimSpace s ≠ [squote]) (h2 : TrimSpace s ≠ [dquote]) :
    conformOption s = some (conformRef s) ∧
    conformOption ([dquote, dquote] ++ "value".toList ++ [dquote, dquote])
      = some ([dquote] ++ "value".toList ++ [dquote]) ∧
    conformOption ([dquote] ++ "  3".toList ++ [dquote]) = some "  3".toList :=
  ⟨conformOption_of_trim s _ rfl h1 h2, by decide, by decide⟩

/-- An instance: a quoted text with a blank in front of it. -/
theorem conformOption_reference_witness :
    TrimSpace (" ".toList ++ [squote] ++ "a b".toList ++ [squote]) ≠ [squote] ∧
    conformOption (" ".toList ++ [squote] ++ "a b".toList ++ [squote]) = some "a b".toList :=
  ⟨by decide,
   (conformOption_reference (" ".toList ++ [squote] ++ "a b".toList ++ [squote])
      (by decide) (by decide)).1.trans (by decide)⟩

/-! ## C7: writing an option and reading it back -/

/-- C7, as stated, fails: on the fresh store, after `SetString("s", " a", "1")`
the call `GetString("s", " a")` returns the option-not-found error, because the
option is stored under its conformed name `a` and looked up under the name as
given. -/
theorem SetString_GetString_raw_name :
    (SetString NewConfiguration "s".toList " a".toList "1".toList).map
      (fun config => GetString config "s".toList " a".toList)
      = some (.error (optionNotFound " a".toList)) := by decide

/-- C7, amended.  For every configuration, section name `s`, option name `o`
and value `v` on which `conformOption` returns (`co` and `cv`), `SetString(s,
o, v)` completes and afterwards `GetString(s, co)`, the lookup under the
conformed option name, succeeds and returns exactly `cv`, the conformed value.
In particular `GetString(s, o)` does when `o` is its own conformed form. -/
theorem SetString_GetString_roundtrip (config : Configuration) (s o v co cv : GoString)
    (ho : conformOption o = some co) (hv : conformOption v = some cv) :
    ∃ config', SetString config s o v = some config' ∧ GetString config' s co = .ok cv := by
  refine ⟨_, SetString_eq config s o v co cv ho hv, ?_⟩
  rw [GetString_ok_iff,
    held_SetString config _ s o v co cv ho hv (SetString_eq config s o v co cv ho hv)]
  simp

/-- An instance: an option name with a leading blank and a quoted value,
written to the fresh store and read back under the conformed name. -/
theorem SetString_GetString_roundtrip_witness :
    conformOption " a".toList = some "a".toList ∧
    conformOption (" ".toList ++ [dquote] ++ " 1".toList ++ [dquote]) = some " 1".toList ∧
    ∃ config', SetString NewConfiguration " s ".toList " a".toList
        (" ".toList ++ [dquote] ++ " 1".toList ++ [dquote]) = some config' ∧
      GetString config' " s ".toList "a".toList = .ok " 1".toList :=
  ⟨by decide, by decide,
   SetString_GetString_roundtrip NewConfiguration " s ".toList " a".toList
     (" ".toList ++ [dquote] ++ " 1".toList ++ [dquote]) "a".toList " 1".toList
     (by decide) (by decide)⟩

/-! ## C8: the error contract of `GetString` -/

theorem sectionNotFound_ne_optionNotFound (s o : GoString) :
    sectionNotFound s ≠ optionNotFound o := by
  simp [sectionNotFound, optionNotFound]

theorem sectionNotFound_text (s : GoString) :
    sectionNotFound s = "Section '".toList ++ s ++ "' not found".toList := by
  have e : "Section '".toList = "Section ".toList ++ [squote] := by decide
  have e2 : "' not found".toList = [squote] ++ " not found".toList := by decide
  rw [e, e2]
  simp [sectionNotFound]

theorem optionNotFound_text (o : GoString) :
    optionNotFound o = "Option '".toList ++ o ++ "' not found".toList := by
  have e : "Option '".toList = "Option ".toList ++ [squote] := by decide
  have e2 : "' not found".toList = [squote] ++ " not found".toList := by decide
  rw [e, e2]
  simp [optionNotFound]

/-- C8.  For every configuration and names `s`, `o`: `GetString(s, o)` returns
the error `Section '<s>' not found`, with the name as given in its message, if
and only if no section is stored under the trimmed name; it returns the error
`Option '<o>' not found` if and only if that section exists and has no option
`o`; and it returns a value without error exactly when the section exists and
holds `o`, and then the stored value.  It never fails at run time, and the
configuration the call leaves is the one it was given: `GetString` only reads
it. -/
theorem GetString_error_contract (config : Configuration) (s o : GoString) :
    (GetString config s o = .error ("Section '".toList ++ s ++ "' not found".toList) ↔
      mapGet config.ConfigMap (TrimSpace s) = none) ∧
    (GetString config s o = .error ("Option '".toList ++ o ++ "' not found".toList) ↔
      ∃ mm, mapGet config.ConfigMap (TrimSpace s) = some mm ∧ mapGet mm o = none) ∧
    (∀ value, GetString config s o = .ok value ↔
      ∃ mm, mapGet config.ConfigMap (TrimSpace s) = some mm ∧ mapGet mm o = some value) ∧
    GetString config s o ≠ .panic ∧
    (Op.getString s o).apply config = some config := by
  rw [← sectionNotFound_text, ← optionNotFound_text]
  refine ⟨?_, ?_, ?_, ?_, rfl⟩
  all_goals
    unfold GetString GetSection conformSectionName
    cases h : mapGet config.ConfigMap (TrimSpace s) with
    | none => simp [sectionNotFound_ne_optionNotFound]
    | some mm =>
      cases h2 : mapGet mm o with
      | none => simp [h2, (sectionNotFound_ne_optionNotFound s o).symm]
      | some value => simp [h2]

/-- Three instances on the configuration read from `testdata_set1`: a section
that is missing, an option missing from the section `begin`, named with blanks
around it, and an option that `begin` holds. -/
theorem GetString_error_contract_witness :
    GetString (parsed testdata_set1) " nowhere".toList "a".toList
      = .error "Section ' nowhere' not found".toList ∧
    GetString (parsed testdata_set1) " begin ".toList "nota".toList
      = .error "Option 'nota' not found".toList ∧
    GetString (parsed testdata_set1) " begin ".toList "a".toList = .ok "1".toList ∧
    (Op.getString " begin ".toList "a".toList).apply (parsed testdata_set1)
      = some (parsed testdata_set1) :=
  ⟨(GetString_error_contract (parsed testdata_set1) " nowhere".toList "a".toList).1.mpr
      (by decide),
    (GetString_error_contract (parsed testdata_set1) " begin ".toList "nota".toList).2.1.mpr
      ⟨[("a".toList, "1".toList), ("b".toList, "2".toList), ("c".toList, "  3".toList)],
        by decide, by decide⟩,
    ((GetString_error_contract (parsed testdata_set1) " begin ".toList "a".toList).2.2.1
      "1".toList).mpr
      ⟨[("a".toList, "1".toList), ("b".toList, "2".toList), ("c".toList, "  3".toList)],
        by decide, by decide⟩,
    (GetString_error_contract (parsed testdata_set1) " begin ".toList "a".toList).2.2.2.2⟩

/-! ## C9 and C10: `GetStringWithDefault` -/

/-- C9, at the failing input.  On the fresh store `GetStringWithDefault("begin",
o, "d")` with `o` the one-character string made of a double quote does not
return: `GetString` fails, the miss is recorded with `SetString("_default",
"begin", o)`, and `conformOption(o)` evaluates the slice `option[1:0]`. -/
theorem GetStringWithDefault_lone_quote :
    GetStringWithDefault NewConfiguration "begin".toList [dquote] "d".toList = none := by
  decide

/-- C10, as stated, fails: on the fresh store, after
`GetStringWithDefault("begin", " nota", "20")` the call `GetString("_default",
"begin")` returns `nota`, the conformed option name, and not the option name
` nota` that was queried.  And with `OnDefaultAddToSection` set, after
`GetStringWithDefault(" _default ", "_default", "d")`, whose section name trims
to `_default`, the call `GetString("_default", "_default")` returns `d`: the
default written to the section has replaced the recorded entry. -/
theorem default_miss_records_conformed_name :
    (GetStringWithDefault NewConfiguration "begin".toList " nota".toList "20".toList).map
      (fun r => GetString r.2 "_default".toList "begin".toList) = some (.ok "nota".toList) ∧
    "nota".toList ≠ " nota".toList ∧
    GetString (SetAddOnDefault NewConfiguration true) " _default ".toList "_default".toList
      = .error "Option '_default' not found".toList ∧
    conformOption " _default ".toList = some "_default".toList ∧
    (GetStringWithDefault (SetAddOnDefault NewConfiguration true) " _default ".toList
        "_default".toList "d".toList).map
      (fun r => GetString r.2 "_default".toList "_default".toList) = some (.ok "d".toList) := by
  decide

/-- C10, amended.  For every configuration and every `s`, `o`, `d` such that
`GetString(s, o)` fails, where `conformOption` returns `cs` for `s` and `co`
for `o` (and, when `OnDefaultAddToSection` is set, `conformOption(d)` returns
and the default written to section `s` does not land on the recorded entry,
that is `s` does not trim to `_default` or `co` is not `cs`):
`GetStringWithDefault(s, o, d)` returns `d` and afterwards
`GetString("_default", cs)` succeeds and returns `co`: the entry recorded is
`_default[conformOption(s)] = conformOption(o)`.  In particular
`GetString("_default", s)` returns `co` when `s` is its own conformed form. -/
theorem default_miss_recording (config : Configuration) (s o d cs co : GoString)
    (hfail : ∀ value, GetString config s o ≠ .ok value)
    (hs : conformOption s = some cs) (ho : conformOption o = some co)
    (hd : config.OnDefaultAddToSection = true →
      (conformOption d).isSome = true ∧ (TrimSpace s ≠ "_default".toList ∨ co ≠ cs)) :
    ∃ config', GetStringWithDefault config s o d = some (d, config') ∧
      GetString config' "_default".toList cs = .ok co := by
  have h1 := SetString_eq config "_default".toList s o cs co hs ho
  have hheld1 := held_SetString config _ "_default".toList s o cs co hs ho h1
    "_default".toList cs
  rw [TrimSpace_default] at hheld1
  simp only [and_self, if_true] at hheld1
  have hflag1 := flag_SetString config _ _ _ _ h1
  have key : ∀ r, (∀ value, r ≠ Result.ok value) →
      (match r with
        | .ok value => some (value, config)
        | _ =>
          match SetString config "_default".toList s o with
          | none => none
          | some config =>
            if config.OnDefaultAddToSection then
              match SetString config s o d with
              | none => none
              | some config => some (d, config)
            else some (d, config)) =
        (match SetString config "_default".toList s o with
          | none => none
          | some config =>
            if config.OnDefaultAddToSection then
              match SetString config s o d with
              | none => none
              | some config => some (d, config)
            else some (d, config)) := by
    intro r hr
    cases r with
    | ok value => exact absurd rfl (hr value)
    | error msg => rfl
    | panic => rfl
  unfold GetStringWithDefault
  rw [key _ hfail, h1]
  simp only [hflag1]
  by_cases hf : config.OnDefaultAddToSection = true
  · obtain ⟨hdsome, hne⟩ := hd hf
    obtain ⟨cd, hcd⟩ := Option.isSome_iff_exists.mp hdsome
    have h2 := SetString_eq
      (putSection (AddSection config "_default".toList).1 "_default".toList
        (mapSet (AddSection config "_default".toList).2 cs co)) s o d co cd ho hcd
    have hheld2 := held_SetString _ _ s o d co cd ho hcd h2 "_default".toList cs
    rw [hheld1] at hheld2
    have hcond : ¬ (TrimSpace s = "_default".toList ∧ co = cs) := by
      rintro ⟨ha, hb⟩
      rcases hne with h | h
      · exact h ha
      · exact h hb
    rw [if_neg hcond] at hheld2
    rw [if_pos hf, h2]
    refine ⟨_, rfl, ?_⟩
    rw [GetString_ok_iff, TrimSpace_default]
    exact hheld2
  · rw [if_neg hf]
    refine ⟨_, rfl, ?_⟩
    rw [GetString_ok_iff, TrimSpace_default]
    exact hheld1

/-- An instance, the one of the test suite: the miss of `nota` in `begin` on
`testdata_set1` is recorded as `_default[begin] = nota`. -/
theorem default_miss_recording_witness :
    (∀ value, GetString (parsed testdata_set1) "begin".toList "nota".toList ≠ .ok value) ∧
    ∃ config', GetStringWithDefault (parsed testdata_set1) "begin".toList "nota".toList
        "20".toList = some ("20".toList, config') ∧
      GetString config' "_default".toList "begin".toList = .ok "nota".toList :=
  have hfail : ∀ value,
      GetString (parsed testdata_set1) "begin".toList "nota".toList ≠ .ok value := by
    intro value h
    have e : GetString (parsed testdata_set1) "begin".toList "nota".toList
        = .error (optionNotFound "nota".toList) := by decide
    rw [e] at h
    cases h
  ⟨hfail, default_miss_recording (parsed testdata_set1) "begin".toList "nota".toList
    "20".toList "begin".toList "nota".toList hfail (by decide) (by decide) (by decide)⟩

/-! ## One line of the document -/

theorem scanLoop_append (a b : List GoString) (st : LoopState) :
    scanLoop (a ++ b) st =
      match scanLoop a st with
      | .ok st' => scanLoop b st'
      | .error msg => .error msg
      | .panic => .panic := by
  induction a generalizing st with
  | nil => simp [scanLoop]
  | cons t rest ih =>
    simp only [List.cons_append, scanLoop]
    cases processLine st t with
    | ok st' => simpa using ih st'
    | error msg => rfl
    | panic => rfl

theorem processLine_ignored (st : LoopState) (text : GoString)
    (h : isIgnoredLine text = true) : processLine st text = .ok st := by
  unfold isIgnoredLine at h
  unfold processLine
  cases ht : TrimSpace text with
  | nil => simp
  | cons c r =>
    rw [ht] at h
    simp only [slice_zero_one, List.length_cons, gt_iff_lt, Nat.zero_lt_succ, if_true]
    have : c = '#' ∨ c = ';' := by simpa using h
    rcases this with e | e <;> simp [e]

theorem SplitN2_of_contains (t : GoString) (h : Contains t '=' = true) :
    SplitN2 t '=' =
      [t.takeWhile (fun c => c != '='), (t.dropWhile (fun c => c != '=')).drop 1] := by
  unfold SplitN2
  cases hd : t.dropWhile (fun c => c != '=') with
  | nil =>
    exfalso
    rw [List.dropWhile_eq_nil_iff] at hd
    unfold Contains at h
    rw [List.any_eq_true] at h
    obtain ⟨x, hx, hxe⟩ := h
    have := hd x hx
    simp at hxe
    simp [hxe] at this
  | cons a after => simp

theorem SplitN2_of_not_contains (t : GoString) (h : Contains t '=' = false) :
    SplitN2 t '=' = [t] := by
  unfold SplitN2
  have : t.dropWhile (fun c => c != '=') = [] := by
    rw [List.dropWhile_eq_nil_iff]
    intro x hx
    unfold Contains at h
    rw [List.any_eq_false] at h
    have := h x hx
    simpa using this
  rw [this]

theorem processLine_assignment (st : LoopState) (text : GoString)
    (h : isAssignmentLine text = true) :
    processLine st text =
      match SetString st.config st.section_ (keyText text) (valueText text) with
      | some config => .ok { st with config := config }
      | none => .panic := by
  unfold isAssignmentLine at h
  unfold processLine keyText valueText
  cases ht : TrimSpace text with
  | nil => rw [ht] at h; simp at h
  | cons c r =>
    rw [ht] at h
    simp only [Bool.and_eq_true, bne_iff_ne, ne_eq] at h
    obtain ⟨⟨⟨h1, h2⟩, h3⟩, h4⟩ := h
    simp only [slice_zero_one, List.length_cons, gt_iff_lt, Nat.zero_lt_succ, if_true]
    rw [SplitN2_of_contains _ h4]
    simp [h1, h2, h3]

/-! ## Merging sections -/

theorem mapGet_merge (ss ts : ConfigOption) (o : GoString) :
    mapGet (ss.foldr (fun e ts => mapSet ts e.1 e.2) ts) o =
      match mapGet ss o with
      | some v => some v
      | none => mapGet ts o := by
  induction ss with
  | nil => simp [mapGet]
  | cons e r ih =>
    obtain ⟨k, v⟩ := e
    simp only [List.foldr_cons, mapGet_mapSet, mapGet]
    by_cases h : k = o
    · simp [h]
    · simp [h, ih]

theorem MergeOptions_get_ne (config : Configuration) (t s n : GoString)
    (hn : TrimSpace t ≠ n) :
    mapGet (MergeOptions config t s).ConfigMap n = mapGet config.ConfigMap n := by
  unfold MergeOptions
  simp only
  cases h : GetSection (AddSection config t).1 s with
  | none => simp [AddSection_get, hn]
  | some ss => simp [putSection_get, AddSection_get, hn]

theorem MergeOptions_isSome (config : Configuration) (t s : GoString) :
    (mapGet (MergeOptions config t s).ConfigMap (TrimSpace t)).isSome = true := by
  unfold MergeOptions
  simp only
  cases h : GetSection (AddSection config t).1 s with
  | none => simp [AddSection_get]
  | some ss => simp [putSection_get]

theorem held_MergeOptions (config : Configuration) (t s n o : GoString) :
    held (MergeOptions config t s) n o =
      if TrimSpace t = n then
        match held config (TrimSpace s) o with
        | some v => some v
        | none => held config n o
      else held config n o := by
  by_cases hn : TrimSpace t = n
  · subst hn
    rw [if_pos rfl]
    unfold MergeOptions
    simp only
    cases h : GetSection (AddSection config t).1 s with
    | none =>
      simp only [GetSection, conformSectionName, AddSection_get] at h
      unfold held
      simp only [AddSection_get, if_true]
      by_cases hts : TrimSpace t = TrimSpace s
      · simp [hts] at h
      · simp only [hts, if_false] at h
        rw [h]
        cases mapGet config.ConfigMap (TrimSpace t) <;> simp [mapGet]
    | some ss =>
      simp only [GetSection, conformSectionName, AddSection_get] at h
      unfold held
      simp only [putSection_get, if_true, Option.bind_some, mapGet_merge, AddSection_snd]
      by_cases hts : TrimSpace t = TrimSpace s
      · simp only [hts, if_true, Option.some.injEq] at h
        rw [← hts] at h
        rw [← hts, ← h]
        cases hm : mapGet config.ConfigMap (TrimSpace t) with
        | none => simp [mapGet]
        | some mm => cases hv : mapGet mm o <;> simp [hv, mapGet_merge]
      · simp only [hts, if_false] at h
        rw [h]
        cases hv : mapGet ss o with
        | some v => simp [mapGet_merge, hv]
        | none => cases mapGet config.ConfigMap (TrimSpace t) <;> simp [mapGet, mapGet_merge, hv]
  · rw [if_neg hn]
    unfold held
    rw [MergeOptions_get_ne config t s n hn]

/-! ## The inheritance loop -/

theorem cascadeLoop_succ (names : List GoString) (i : Nat) (st : LoopState) :
    cascadeLoop names (i + 1) st =
      { st with config :=
          names.foldl (fun c name => MergeOptions c st.section_ (TrimSpace name)) st.config } := by
  induction names generalizing i st with
  | nil => simp [cascadeLoop]
  | cons name rest ih =>
    simp only [cascadeLoop, Nat.succ_ne_zero, if_false, List.foldl_cons]
    rw [ih]

theorem cascadeLoop_zero (name : GoString) (rest : List GoString) (st : LoopState) :
    cascadeLoop (name :: rest) 0 st =
      { config := rest.foldl (fun c p => MergeOptions c (TrimSpace name) (TrimSpace p)) st.config,
        section_ := TrimSpace name } := by
  simp only [cascadeLoop, if_true]
  rw [cascadeLoop_succ]

theorem cascade_get_ne (tgt : GoString) (htgt : TrimSpace tgt = tgt) (ps : List GoString)
    (config : Configuration) (n : GoString) (hn : n ≠ tgt) :
    mapGet (ps.foldl (fun c p => MergeOptions c tgt (TrimSpace p)) config).ConfigMap n
      = mapGet config.ConfigMap n := by
  induction ps generalizing config with
  | nil => rfl
  | cons p r ih =>
    rw [List.foldl_cons, ih, MergeOptions_get_ne]
    rw [htgt]
    exact fun e => hn e.symm

theorem cascadeValue_congr (c1 c2 : Configuration) (ps : List GoString) (o : GoString)
    (h : ∀ p ∈ ps, held c1 (TrimSpace p) o = held c2 (TrimSpace p) o) :
    cascadeValue c1 ps o = cascadeValue c2 ps o := by
  induction ps with
  | nil => rfl
  | cons p r ih =>
    simp only [cascadeValue]
    rw [ih (fun q hq => h q (List.mem_cons_of_mem _ hq)), h p (List.mem_cons_self _ _)]

theorem held_cascade (tgt : GoString) (htgt : TrimSpace tgt = tgt) (ps : List GoString)
    (hps : ∀ p ∈ ps, TrimSpace p ≠ tgt) (config : Configuration) (o : GoString) :
    held (ps.foldl (fun c p => MergeOptions c tgt (TrimSpace p)) config) tgt o =
      match cascadeValue config ps o with
      | some v => some v
      | none => held config tgt o := by
  induction ps generalizing config with
  | nil => simp [cascadeValue]
  | cons p r ih =>
    rw [List.foldl_cons, ih (fun q hq => hps q (List.mem_cons_of_mem _ hq))]
    have hframe : ∀ q ∈ r, held (MergeOptions config tgt (TrimSpace p)) (TrimSpace q) o
        = held config (TrimSpace q) o := by
      intro q hq
      rw [held_MergeOptions, htgt, if_neg]
      exact fun e => hps q (List.mem_cons_of_mem _ hq) e.symm
    rw [cascadeValue_congr _ _ r o hframe, held_MergeOptions, htgt, if_pos rfl, TrimSpace_idem]
    simp only [cascadeValue]
    cases cascadeValue config r o with
    | some v => rfl
    | none => rfl

/-! ## Header lines -/

theorem processLine_header (st : LoopState) (text body : GoString)
    (h : TrimSpace text = '[' :: (body ++ [']'])) :
    processLine st text =
      if Contains (TrimSpace body) ':' then
        .ok (cascadeLoop (Split (TrimSpace body) ':') 0 { st with section_ := TrimSpace body })
      else .ok { st with section_ := TrimSpace body } := by
  unfold processLine
  simp only [h]
  have hne : '[' :: (body ++ [']']) ≠ [] := by simp
  have hlast : ('[' :: (body ++ [']'])).getLast hne = ']' := by
    simp [List.getLast_cons]
  have hmid : slice ('[' :: (body ++ [']'])) 1 (('[' :: (body ++ [']'])).length - 1)
      = some body := by
    rw [slice_middle _ (by simp)]
    simp
  rw [slice_zero_one, slice_last _ hne, hlast, hmid]
  simp

/-! ## Trimming and splitting a header body -/

theorem dropWhile_append_stop (p : Char → Bool) (x y : List Char) (c : Char)
    (hc : p c = false) : (x ++ c :: y).dropWhile p = x.dropWhile p ++ c :: y := by
  rw [List.dropWhile_append]
  cases h : x.dropWhile p with
  | nil => simp [List.dropWhile, hc]
  | cons a r => simp

theorem rdropWhile_append_stop (p : Char → Bool) (x y : List Char) (c : Char)
    (hc : p c = false) : (x ++ c :: y).rdropWhile p = x ++ c :: y.rdropWhile p := by
  unfold List.rdropWhile
  rw [List.reverse_append, List.reverse_cons, List.append_assoc, List.singleton_append,
    dropWhile_append_stop p _ _ c hc]
  simp

theorem dropWhile_rdropWhile_comm (p : Char → Bool) (x : List Char) :
    (x.rdropWhile p).dropWhile p = (x.dropWhile p).rdropWhile p := by
  have hsplit := List.takeWhile_append_dropWhile p x
  cases hd : x.dropWhile p with
  | nil =>
    have hall : ∀ a ∈ x, p a = true := by
      rw [List.dropWhile_eq_nil_iff] at hd
      exact hd
    have : x.rdropWhile p = [] := List.rdropWhile_eq_nil_iff.mpr hall
    rw [this]
    rfl
  | cons c B =>
    have hc : p c = false := by
      have := List.head?_dropWhile_not p x
      rw [hd] at this
      simpa using this
    rw [hd] at hsplit
    have e1 : x.rdropWhile p = x.takeWhile p ++ c :: B.rdropWhile p := by
      conv_lhs => rw [← hsplit]
      exact rdropWhile_append_stop p _ _ c hc
    have e2 : (c :: B).rdropWhile p = c :: B.rdropWhile p :=
      rdropWhile_append_stop p [] B c hc
    rw [e1, e2, dropWhile_append_stop p _ _ c hc]
    have : (x.takeWhile p).dropWhile p = [] := by
      rw [List.dropWhile_eq_nil_iff]
      intro a ha
      exact (List.mem_takeWhile_imp ha)
    rw [this]
    rfl

theorem TrimSpace_dropWhile (x : GoString) : TrimSpace (x.dropWhile isSpace) = TrimSpace x := by
  rw [TrimSpace_eq, TrimSpace_eq, List.dropWhile_idempotent]

theorem TrimSpace_rdropWhile (x : GoString) :
    TrimSpace (x.rdropWhile isSpace) = TrimSpace x := by
  rw [TrimSpace_eq, TrimSpace_eq, dropWhile_rdropWhile_comm, List.rdropWhile_idempotent]

theorem isSpace_colon : isSpace ':' = false := by decide

theorem Split_single (n : GoString) (h : ':' ∉ n) : Split n ':' = [n] := by
  unfold Split List.splitOn
  apply List.splitOnP_eq_single
  intro x hx hp
  have : x = ':' := by simpa using hp
  exact h (this ▸ hx)

theorem Split_first (n r : GoString) (h : ':' ∉ n) :
    Split (n ++ ':' :: r) ':' = n :: Split r ':' := by
  unfold Split List.splitOn
  apply List.splitOnP_first
  · intro x hx hp
    have : x = ':' := by simpa using hp
    exact h (this ▸ hx)
  · simp

theorem intercalate_cons_cons (n m : GoString) (r : List GoString) :
    List.intercalate [':'] (n :: m :: r) = n ++ ':' :: List.intercalate [':'] (m :: r) := by
  simp [List.intercalate, List.intersperse]

theorem Split_rdropWhile_join (ps : List GoString) (hne : ps ≠ []) (hcolon : ∀ n ∈ ps, ':' ∉ n) :
    (Split ((List.intercalate [':'] ps).rdropWhile isSpace) ':').map TrimSpace
      = ps.map TrimSpace := by
  induction ps with
  | nil => exact absurd rfl hne
  | cons p r ih =>
    cases r with
    | nil =>
      have hj : List.intercalate [':'] [p] = p := by simp [List.intercalate]
      rw [hj, Split_single]
      · simp [TrimSpace_rdropWhile]
      · intro hm
        exact hcolon p (List.mem_cons_self _ _) ((List.rdropWhile_prefix isSpace p).subset hm)
    | cons m r2 =>
      rw [intercalate_cons_cons, rdropWhile_append_stop _ _ _ _ isSpace_colon,
        Split_first _ _ (hcolon p (List.mem_cons_self _ _))]
      rw [List.map_cons, ih (by simp) (fun n hn => hcolon n (List.mem_cons_of_mem _ hn))]
      rfl

theorem Split_TrimSpace_join (c : GoString) (ps : List GoString) (hne : ps ≠ [])
    (hcolon : ∀ n ∈ c :: ps, ':' ∉ n) :
    ∃ rest, Split (TrimSpace (List.intercalate [':'] (c :: ps))) ':'
        = c.dropWhile isSpace :: rest ∧ rest.map TrimSpace = ps.map TrimSpace := by
  cases ps with
  | nil => exact absurd rfl hne
  | cons m r =>
    refine ⟨Split ((List.intercalate [':'] (m :: r)).rdropWhile isSpace) ':', ?_,
      Split_rdropWhile_join (m :: r) (by simp)
        (fun n hn => hcolon n (List.mem_cons_of_mem _ hn))⟩
    rw [intercalate_cons_cons, TrimSpace_eq, dropWhile_append_stop _ _ _ _ isSpace_colon,
      rdropWhile_append_stop _ _ _ _ isSpace_colon, Split_first]
    intro hm
    exact hcolon c (List.mem_cons_self _ _) ((List.dropWhile_suffix isSpace).subset hm)

theorem Contains_TrimSpace_join (c : GoString) (ps : List GoString) (hne : ps ≠ []) :
    Contains (TrimSpace (List.intercalate [':'] (c :: ps))) ':' = true := by
  cases ps with
  | nil => exact absurd rfl hne
  | cons m r =>
    rw [intercalate_cons_cons, TrimSpace_eq, dropWhile_append_stop _ _ _ _ isSpace_colon,
      rdropWhile_append_stop _ _ _ _ isSpace_colon]
    simp [Contains]

/-- An inheritance header merges its parents, from left to right, into the
section named first. -/
theorem processLine_cascade (st : LoopState) (text c : GoString) (ps : List GoString)
    (htext : TrimSpace text = '[' :: (List.intercalate [':'] (c :: ps) ++ [']']))
    (hne : ps ≠ []) (hcolon : ∀ n ∈ c :: ps, ':' ∉ n) :
    processLine st text = .ok
      { config := ps.foldl (fun cfg p => MergeOptions cfg (TrimSpace c) (TrimSpace p)) st.config,
        section_ := TrimSpace c } := by
  rw [processLine_header st text _ htext, if_pos (Contains_TrimSpace_join c ps hne)]
  obtain ⟨rest, hsplit, hrest⟩ := Split_TrimSpace_join c ps hne hcolon
  rw [hsplit, cascadeLoop_zero, TrimSpace_dropWhile]
  have hfold : ∀ (l : List GoString) (cfg : Configuration),
      l.foldl (fun cfg p => MergeOptions cfg (TrimSpace c) (TrimSpace p)) cfg
        = (l.map TrimSpace).foldl (fun cfg p => MergeOptions cfg (TrimSpace c) p) cfg := by
    intro l cfg
    rw [List.foldl_map]
  simp only [hfold, hrest]

/-! ## C3: what an inheritance header leaves in the new section -/

theorem cascadeValue_none (config : Configuration) (ps : List GoString) (o : GoString)
    (h : ∀ q ∈ ps, held config (TrimSpace q) o = none) : cascadeValue config ps o = none := by
  induction ps with
  | nil => rfl
  | cons p r ih =>
    simp only [cascadeValue]
    rw [ih (fun q hq => h q (List.mem_cons_of_mem _ hq)), h p (List.mem_cons_self _ _)]

theorem cascadeValue_rightmost (config : Configuration) (ps1 ps2 : List GoString)
    (p o v : GoString) (hp : held config (TrimSpace p) o = some v)
    (h2 : ∀ q ∈ ps2, held config (TrimSpace q) o = none) :
    cascadeValue config (ps1 ++ p :: ps2) o = some v := by
  induction ps1 with
  | nil =>
    simp only [List.nil_append, cascadeValue]
    rw [cascadeValue_none config ps2 o h2, hp]
  | cons x r ih =>
    simp only [List.cons_append, cascadeValue, List.append_eq]
    rw [ih]

theorem cascadeValue_isSome (config : Configuration) (ps : List GoString) (o : GoString) :
    (cascadeValue config ps o).isSome = true ↔
      ∃ p ∈ ps, (held config (TrimSpace p) o).isSome = true := by
  induction ps with
  | nil => simp [cascadeValue]
  | cons p r ih =>
    simp only [cascadeValue, List.mem_cons, exists_eq_or_imp]
    cases hc : cascadeValue config r o with
    | some v =>
      rw [hc] at ih
      simp only [Option.isSome_some, true_iff] at ih ⊢
      exact Or.inr ih
    | none =>
      rw [hc] at ih
      simp only [Option.isSome_none, Bool.false_eq_true, false_iff] at ih
      simp only [ih, or_false]

theorem cascade_isSome (tgt : GoString) (ps : List GoString) (hne : ps ≠ [])
    (config : Configuration) :
    (mapGet (ps.foldl (fun c p => MergeOptions c tgt (TrimSpace p)) config).ConfigMap
      (TrimSpace tgt)).isSome = true := by
  obtain ⟨l, a, rfl⟩ : ∃ l a, ps = l ++ [a] :=
    ⟨ps.dropLast, ps.getLast hne, (List.dropLast_append_getLast hne).symm⟩
  rw [List.foldl_append]
  exact MergeOptions_isSome _ _ _

theorem GetString_isOk_iff (config : Configuration) (s o : GoString) :
    (∃ v, GetString config s o = .ok v) ↔ (held config (TrimSpace s) o).isSome = true := by
  simp only [GetString_ok_iff, Option.isSome_iff_exists]

/-- C3.  For every document whose lines `pre` leave the sections `p1 .. pn`
defined and `c` undefined, right after the following header `[c : p1 : ... :
pn]` has been processed: `c` is the active section and is defined, it contains
exactly the union of the options of the parents (it holds an option if and only
if some parent does), and for every option the value is the one of the
rightmost parent in the header that holds it.  The test document
`testdata_cascade` is the witness: `[three:two:one]` after `one{a=1,b=2}` and
`two{c=3,d=4}`. -/
theorem cascade_header_union (pre : List GoString) (text c : GoString) (ps : List GoString)
    (st : LoopState)
    (hpre : scanLoop pre initialState = .ok st)
    (htext : TrimSpace text = '[' :: (List.intercalate [':'] (c :: ps) ++ [']']))
    (hne : ps ≠ []) (hcolon : ∀ n ∈ c :: ps, ':' ∉ n)
    (hparents : ∀ p ∈ ps, (GetSection st.config p).isSome = true)
    (hc : GetSection st.config c = none) :
    ∃ st', scanLoop (pre ++ [text]) initialState = .ok st' ∧
      st'.section_ = TrimSpace c ∧
      (GetSection st'.config c).isSome = true ∧
      (∀ o, (∃ v, GetString st'.config c o = .ok v) ↔
        ∃ p ∈ ps, ∃ w, GetString st.config p o = .ok w) ∧
      (∀ ps1 p ps2 o v, ps = ps1 ++ p :: ps2 → GetString st.config p o = .ok v →
        (∀ q ∈ ps2, ∀ w, GetString st.config q o ≠ .ok w) →
        GetString st'.config c o = .ok v) := by
  have hrun : scanLoop (pre ++ [text]) initialState = .ok
      { config := ps.foldl (fun cfg p => MergeOptions cfg (TrimSpace c) (TrimSpace p)) st.config,
        section_ := TrimSpace c } := by
    rw [scanLoop_append, hpre]
    simp only [scanLoop]
    rw [processLine_cascade st text c ps htext hne hcolon]
  have hdiff : ∀ p ∈ ps, TrimSpace p ≠ TrimSpace c := by
    intro p hp e
    have := hparents p hp
    unfold GetSection conformSectionName at this hc
    rw [e, hc] at this
    simp at this
  have habsent : ∀ o, held st.config (TrimSpace c) o = none := by
    intro o
    unfold GetSection conformSectionName at hc
    simp [held, hc]
  have hheld : ∀ o, held (ps.foldl (fun cfg p => MergeOptions cfg (TrimSpace c) (TrimSpace p))
      st.config) (TrimSpace c) o = cascadeValue st.config ps o := by
    intro o
    rw [held_cascade (TrimSpace c) (TrimSpace_idem c) ps hdiff, habsent]
    cases cascadeValue st.config ps o <;> rfl
  refine ⟨_, hrun, rfl, ?_, ?_, ?_⟩
  · have := cascade_isSome (TrimSpace c) ps hne st.config
    rw [TrimSpace_idem] at this
    exact this
  · intro o
    rw [GetString_isOk_iff]
    simp only [GetString_isOk_iff]
    rw [hheld, cascadeValue_isSome]
  · intro ps1 p ps2 o v hsplit hp h2
    rw [GetString_ok_iff] at hp ⊢
    rw [hheld, hsplit]
    apply cascadeValue_rightmost _ _ _ _ _ _ hp
    intro q hq
    have := h2 q hq
    cases hh : held st.config (TrimSpace q) o with
    | none => rfl
    | some w => exact absurd ((GetString_ok_iff _ _ _ _).mpr hh) (this w)

/-- An instance, the one of the test suite: `[three:two:one]` in `testdata_cascade`. -/
theorem cascade_header_union_witness :
    scanLoop cascadePreamble initialState = .ok (stateAfter cascadePreamble) ∧
    GetSection (stateAfter cascadePreamble).config "three".toList = none ∧
    ∃ st', scanLoop (cascadePreamble ++ ["[three:two:one]".toList]) initialState = .ok st' ∧
      GetString st'.config "three".toList "a".toList = .ok "1".toList ∧
      GetString st'.config "three".toList "b".toList = .ok "2".toList ∧
      GetString st'.config "three".toList "c".toList = .ok "3".toList ∧
      GetString st'.config "three".toList "d".toList = .ok "4".toList := by
  have hpre : scanLoop cascadePreamble initialState = .ok (stateAfter cascadePreamble) := by
    decide
  have hc : GetSection (stateAfter cascadePreamble).config "three".toList = none := by decide
  obtain ⟨st', hrun, _, _, _, hright⟩ :=
    cascade_header_union cascadePreamble "[three:two:one]".toList "three".toList
      ["two".toList, "one".toList] (stateAfter cascadePreamble) hpre (by decide) (by decide)
      (by decide) (by decide) hc
  refine ⟨hpre, hc, st', hrun, ?_, ?_, ?_, ?_⟩
  · exact hright ["two".toList] "one".toList [] _ _ rfl (by decide) (by simp)
  · exact hright ["two".toList] "one".toList [] _ _ rfl (by decide) (by simp)
  · refine hright [] "two".toList ["one".toList] _ _ rfl (by decide) ?_
    intro q hq w h
    rw [List.mem_singleton.mp hq] at h
    have e : GetString (stateAfter cascadePreamble).config "one".toList "c".toList
        = .error (optionNotFound "c".toList) := by decide
    rw [e] at h
    cases h
  · refine hright [] "two".toList ["one".toList] _ _ rfl (by decide) ?_
    intro q hq w h
    rw [List.mem_singleton.mp hq] at h
    have e : GetString (stateAfter cascadePreamble).config "one".toList "d".toList
        = .error (optionNotFound "d".toList) := by decide
    rw [e] at h
    cases h

/-! ## C1: a document the reader does not survive -/

/-- C1, at the failing input.  The three-character document made of `a`, `=`
and a double quote has one line; it is not empty, it does not begin with `#`,
`;` or `[`, and it contains `=`, so no line is malformed.  Yet
`NewConfigurationFromIniString` returns neither an error nor a configuration:
`SetString` conforms the value, a lone quote character, and `conformOption`
evaluates the slice `option[1:0]`. -/
theorem parse_lone_quote_value :
    isAssignmentLine ("a=".toList ++ [dquote]) = true ∧
    scanLines ("a=".toList ++ [dquote]) [] 0 = ["a=".toList ++ [dquote]] ∧
    NewConfigurationFromIniString ("a=".toList ++ [dquote]) = .panic := by
  decide

/-! ## Runs of lines -/

theorem scanLoop_cons_ok (t : GoString) (rest : List GoString) (st st' : LoopState)
    (h : scanLoop (t :: rest) st = .ok st') :
    ∃ st1, processLine st t = .ok st1 ∧ scanLoop rest st1 = .ok st' := by
  simp only [scanLoop] at h
  cases hp : processLine st t with
  | ok st1 => rw [hp] at h; exact ⟨st1, rfl, h⟩
  | error msg => rw [hp] at h; cases h
  | panic => rw [hp] at h; cases h

theorem scanLoop_append_ok (a b : List GoString) (st st' : LoopState)
    (h : scanLoop (a ++ b) st = .ok st') :
    ∃ st1, scanLoop a st = .ok st1 ∧ scanLoop b st1 = .ok st' := by
  rw [scanLoop_append] at h
  cases hp : scanLoop a st with
  | ok st1 => rw [hp] at h; exact ⟨st1, rfl, h⟩
  | error msg => rw [hp] at h; cases h
  | panic => rw [hp] at h; cases h

theorem scanLoop_ignored (lines : List GoString) (st : LoopState)
    (h : ∀ t ∈ lines, isIgnoredLine t = true) : scanLoop lines st = .ok st := by
  induction lines with
  | nil => rfl
  | cons t rest ih =>
    simp only [scanLoop]
    rw [processLine_ignored st t (h t (List.mem_cons_self _ _))]
    exact ih (fun u hu => h u (List.mem_cons_of_mem _ hu))

/-- Blank lines and comment lines can be removed from a document without
changing what the loop computes. -/
theorem scanLoop_filter_ignored (lines : List GoString) (st : LoopState) :
    scanLoop lines st = scanLoop (lines.filter (fun t => !isIgnoredLine t)) st := by
  induction lines generalizing st with
  | nil => rfl
  | cons t rest ih =>
    by_cases h : isIgnoredLine t = true
    · simp only [List.filter, h, Bool.not_true, scanLoop]
      rw [processLine_ignored st t h]
      exact ih st
    · have h' : isIgnoredLine t = false := by simpa using h
      simp only [List.filter, h', Bool.not_false, scanLoop]
      cases processLine st t with
      | ok st1 => exact ih st1
      | error msg => rfl
      | panic => rfl

/-- What an assignment line does when the loop survives it. -/
theorem processLine_assignment_ok (st st1 : LoopState) (l : GoString)
    (hl : isAssignmentLine l = true) (h : processLine st l = .ok st1) :
    ∃ ck cv, conformOption (keyText l) = some ck ∧ conformOption (valueText l) = some cv ∧
      st1.section_ = st.section_ ∧
      ∀ n k, held st1.config n k =
        if TrimSpace st.section_ = n ∧ ck = k then some cv else held st.config n k := by
  rw [processLine_assignment st l hl] at h
  cases hs : SetString st.config st.section_ (keyText l) (valueText l) with
  | none => rw [hs] at h; cases h
  | some config =>
    rw [hs] at h
    have hsome := SetString_isSome st.config st.section_ (keyText l) (valueText l)
    rw [hs] at hsome
    simp only [Option.isSome_some, Bool.true_eq, Bool.and_eq_true] at hsome
    obtain ⟨ck, hck⟩ := Option.isSome_iff_exists.mp hsome.1
    obtain ⟨cv, hcv⟩ := Option.isSome_iff_exists.mp hsome.2
    injection h with h
    subst h
    exact ⟨ck, cv, hck, hcv, rfl, fun n k => held_SetString _ _ _ _ _ ck cv hck hcv hs n k⟩

/-- A run of blank, comment and assignment lines keeps the active section and
touches only the options it assigns, in the active section. -/
theorem block_frame (block : List GoString) (st st' : LoopState)
    (hblock : ∀ t ∈ block, isIgnoredLine t = true ∨ isAssignmentLine t = true)
    (h : scanLoop block st = .ok st') :
    st'.section_ = st.section_ ∧
    ∀ n k, (n ≠ TrimSpace st.section_ ∨
        ∀ t ∈ block, isAssignmentLine t = true → conformOption (keyText t) ≠ some k) →
      held st'.config n k = held st.config n k := by
  induction block generalizing st with
  | nil =>
    simp only [scanLoop] at h
    injection h with h
    subst h
    exact ⟨rfl, fun _ _ _ => rfl⟩
  | cons t rest ih =>
    obtain ⟨st1, h1, h2⟩ := scanLoop_cons_ok t rest st st' h
    have hrest := ih st1 (fun u hu => hblock u (List.mem_cons_of_mem _ hu)) h2
    rcases hblock t (List.mem_cons_self _ _) with hi | ha
    · rw [processLine_ignored st t hi] at h1
      injection h1 with h1
      subst h1
      refine ⟨hrest.1, fun n k hnk => hrest.2 n k ?_⟩
      rcases hnk with hn | hk
      · exact Or.inl hn
      · exact Or.inr (fun u hu => hk u (List.mem_cons_of_mem _ hu))
    · obtain ⟨ck, cv, hck, _, hsec, hheld⟩ := processLine_assignment_ok st st1 t ha h1
      refine ⟨hrest.1.trans hsec, fun n k hnk => ?_⟩
      rw [hrest.2 n k, hheld n k, if_neg]
      · rintro ⟨e1, e2⟩
        rcases hnk with hn | hk
        · exact hn e1.symm
        · exact hk t (List.mem_cons_self _ _) ha (e2 ▸ hck)
      · rw [hsec]
        rcases hnk with hn | hk
        · exact Or.inl hn
        · exact Or.inr (fun u hu => hk u (List.mem_cons_of_mem _ hu))

/-- A successful `NewConfigurationFromIniString` is a run of the loop over the
lines of the input, followed by `IsLoaded = true`. -/
theorem parse_ok (input : GoString) (config : Configuration)
    (h : NewConfigurationFromIniString input = .ok config) :
    ∃ st, scanLoop (scanLines input [] 0) initialState = .ok st ∧
      config = { st.config with IsLoaded := true } := by
  unfold NewConfigurationFromIniString at h
  by_cases he : input = []
  · simp [he] at h
  · simp only [he, if_false, configFromReader] at h
    change (match scanLoop (scanLines input [] 0) initialState with
      | .ok st => Result.ok { st.config with IsLoaded := true }
      | .error msg => .error msg
      | .panic => .panic) = .ok config at h
    cases hs : scanLoop (scanLines input [] 0) initialState with
    | ok st =>
      rw [hs] at h
      injection h with h
      exact ⟨st, rfl, h.symm⟩
    | error msg => rw [hs] at h; cases h
    | panic => rw [hs] at h; cases h

theorem held_loaded (config : Configuration) (n k : GoString) :
    held { config with IsLoaded := true } n k = held config n k := rfl

/-! ## One section and its assignments, over the lines read -/

theorem mem_TrimSpace (c : Char) (s : GoString) (h : c ∈ TrimSpace s) : c ∈ s := by
  rw [TrimSpace_eq] at h
  exact (List.dropWhile_suffix isSpace).subset ((List.rdropWhile_prefix isSpace _).subset h)

theorem Contains_eq_false (s : GoString) (c : Char) (h : c ∉ s) : Contains s c = false := by
  unfold Contains
  rw [List.any_eq_false]
  intro x hx hxc
  have : x = c := by simpa using hxc
  exact h (this ▸ hx)

theorem processLine_plain_header (st : LoopState) (text s : GoString)
    (htext : TrimSpace text = '[' :: (s ++ [']'])) (hs : ':' ∉ s) :
    processLine st text = .ok { st with section_ := TrimSpace s } := by
  rw [processLine_header st text s htext,
    Contains_eq_false _ _ (fun h => hs (mem_TrimSpace _ _ h))]
  simp

/-- The assignments of a one-section document, over the lines read.  For every
document whose lines read (the lines the scanner yields: those before the first
line of 65536 bytes or more, if there is one) are blank and comment lines, then
one header `[s]` with no `:` in `s`, then assignment lines interleaved with
blank and comment lines, and which `NewConfigurationFromIniString` reads with
success: for every assignment line `l0` (key: the text before its first `=`),
if `l` is the last assignment line with the same conformed key (value: the text
after its first `=`), then `GetString(trim(s), conformOption(key l0))` returns
`conformOption(value l)`.  Blank and comment lines that are read have no
effect: the loop computes the same over the lines read and over the lines read
without them.  The
test document `testdata_set1` gives `begin.a = 1`, `begin.b = 2`, `begin.c` =
two blanks and `3`, `middle.key1 = value 1`, `end.key2 = value 2`. -/
theorem single_section_assignments (input : GoString) (pre body b1 b2 : List GoString)
    (hdr s l0 l : GoString) (config : Configuration)
    (hlines : scanLines input [] 0 = pre ++ hdr :: body)
    (hpre : ∀ t ∈ pre, isIgnoredLine t = true)
    (hhdr : TrimSpace hdr = '[' :: (s ++ [']'])) (hs : ':' ∉ s)
    (hbody : ∀ t ∈ body, isIgnoredLine t = true ∨ isAssignmentLine t = true)
    (hok : NewConfigurationFromIniString input = .ok config)
    (_hl0 : l0 ∈ body) (_hl0a : isAssignmentLine l0 = true)
    (hsplit : body = b1 ++ l :: b2) (hla : isAssignmentLine l = true)
    (hkey : conformOption (keyText l) = conformOption (keyText l0))
    (hlast : ∀ t ∈ b2, isAssignmentLine t = true →
      conformOption (keyText t) ≠ conformOption (keyText l0)) :
    (∃ ck cv, conformOption (keyText l0) = some ck ∧ conformOption (valueText l) = some cv ∧
      GetString config (TrimSpace s) ck = .ok cv) ∧
    scanLoop (scanLines input [] 0) initialState =
      scanLoop ((scanLines input [] 0).filter (fun t => !isIgnoredLine t)) initialState ∧
    NewConfigurationFromIniString testdata_set1 = .ok (parsed testdata_set1) ∧
    GetString (parsed testdata_set1) "begin".toList "a".toList = .ok "1".toList ∧
    GetString (parsed testdata_set1) "begin".toList "b".toList = .ok "2".toList ∧
    GetString (parsed testdata_set1) "begin".toList "c".toList = .ok "  3".toList ∧
    GetString (parsed testdata_set1) "middle".toList "key1".toList = .ok "value 1".toList ∧
    GetString (parsed testdata_set1) "end".toList "key2".toList = .ok "value 2".toList := by
  refine ⟨?_, scanLoop_filter_ignored _ _, by decide, by decide, by decide, by decide,
    by decide, by decide⟩
  obtain ⟨stF, hrun, hconfig⟩ := parse_ok input config hok
  rw [hlines, hsplit] at hrun
  obtain ⟨st0, h0, hrun⟩ := scanLoop_append_ok _ _ _ _ hrun
  rw [scanLoop_ignored pre initialState hpre] at h0
  injection h0 with h0
  subst h0
  obtain ⟨st1, h1, hrun⟩ := scanLoop_cons_ok _ _ _ _ hrun
  rw [processLine_plain_header initialState hdr s hhdr hs] at h1
  injection h1 with h1
  obtain ⟨st2, h2, hrun⟩ := scanLoop_append_ok _ _ _ _ hrun
  obtain ⟨st3, h3, hrun⟩ := scanLoop_cons_ok _ _ _ _ hrun
  have hb1 : ∀ t ∈ b1, isIgnoredLine t = true ∨ isAssignmentLine t = true :=
    fun t ht => hbody t (hsplit ▸ List.mem_append_left _ ht)
  have hb2 : ∀ t ∈ b2, isIgnoredLine t = true ∨ isAssignmentLine t = true :=
    fun t ht => hbody t (hsplit ▸ List.mem_append_right _ (List.mem_cons_of_mem _ ht))
  have hsec2 : st2.section_ = TrimSpace s := by
    rw [(block_frame b1 st1 st2 hb1 h2).1, ← h1]
  obtain ⟨ck, cv, hck, hcv, hsec3, hheld3⟩ := processLine_assignment_ok st2 st3 l hla h3
  have hF := (block_frame b2 st3 stF hb2 hrun).2 (TrimSpace s) ck
    (Or.inr (fun t ht hta => by
      have := hlast t ht hta
      rw [← hkey, hck] at this
      exact this))
  refine ⟨ck, cv, hkey ▸ hck, hcv, ?_⟩
  rw [GetString_ok_iff, hconfig, held_loaded, TrimSpace_idem, hF, hheld3, hsec2, TrimSpace_idem]
  simp

/-- An instance: a document with comments, one header, and an option assigned twice. -/
theorem single_section_assignments_witness :
    scanLines oneSectionDocument [] 0 =
      ["; comment".toList, "  # another".toList] ++
        "[ begin ]".toList ::
          (["a=1".toList, "b =  u=v".toList, [], " a = 5".toList, "c=x".toList]) ∧
    NewConfigurationFromIniString oneSectionDocument = .ok (parsed oneSectionDocument) ∧
    GetString (parsed oneSectionDocument) "begin".toList "a".toList = .ok "5".toList ∧
    GetString (parsed oneSectionDocument) "begin".toList "b".toList = .ok "u=v".toList := by
  have hlines : scanLines oneSectionDocument [] 0 =
      ["; comment".toList, "  # another".toList] ++
        "[ begin ]".toList ::
          (["a=1".toList, "b =  u=v".toList, [], " a = 5".toList, "c=x".toList]) := by decide
  have hok : NewConfigurationFromIniString oneSectionDocument
      = .ok (parsed oneSectionDocument) := by decide
  refine ⟨hlines, hok, ?_, ?_⟩
  · obtain ⟨⟨ck, cv, hck, hcv, hget⟩, _⟩ :=
      single_section_assignments oneSectionDocument
        ["; comment".toList, "  # another".toList]
        ["a=1".toList, "b =  u=v".toList, [], " a = 5".toList, "c=x".toList]
        ["a=1".toList, "b =  u=v".toList, []] ["c=x".toList]
        "[ begin ]".toList " begin ".toList "a=1".toList " a = 5".toList
        (parsed oneSectionDocument) hlines (by decide) (by decide) (by decide) (by decide)
        hok (by decide) (by decide) (by decide) (by decide) (by decide) (by decide)
    have e1 : conformOption (keyText "a=1".toList) = some "a".toList := by decide
    have e2 : conformOption (valueText " a = 5".toList) = some "5".toList := by decide
    rw [e1] at hck
    rw [e2] at hcv
    injection hck with hck
    injection hcv with hcv
    rw [← hck, ← hcv] at hget
    have e3 : TrimSpace " begin ".toList = "begin".toList := by decide
    rw [e3] at hget
    exact hget
  · obtain ⟨⟨ck, cv, hck, hcv, hget⟩, _⟩ :=
      single_section_assignments oneSectionDocument
        ["; comment".toList, "  # another".toList]
        ["a=1".toList, "b =  u=v".toList, [], " a = 5".toList, "c=x".toList]
        ["a=1".toList] [[], " a = 5".toList, "c=x".toList]
        "[ begin ]".toList " begin ".toList "b =  u=v".toList "b =  u=v".toList
        (parsed oneSectionDocument) hlines (by decide) (by decide) (by decide) (by decide)
        hok (by decide) (by decide) (by decide) (by decide) (by decide) (by decide)
    have e1 : conformOption (keyText "b =  u=v".toList) = some "b".toList := by decide
    have e2 : conformOption (valueText "b =  u=v".toList) = some "u=v".toList := by decide
    rw [e1] at hck
    rw [e2] at hcv
    injection hck with hck
    injection hcv with hcv
    rw [← hck, ← hcv] at hget
    have e3 : TrimSpace " begin ".toList = "begin".toList := by decide
    rw [e3] at hget
    exact hget

/-! ## Which section a line writes to -/

theorem Split_head (x : GoString) :
    ∃ rest, Split x ':' = x.takeWhile (fun c => c != ':') :: rest := by
  unfold Split List.splitOn
  induction x with
  | nil => exact ⟨[], rfl⟩
  | cons a r ih =>
    obtain ⟨rest, hrest⟩ := ih
    rw [List.splitOnP_cons]
    by_cases ha : a = ':'
    · subst ha
      exact ⟨List.splitOnP (fun x => x == ':') r, by simp⟩
    · refine ⟨rest, ?_⟩
      rw [hrest]
      have hb : (a != ':') = true := by simpa using ha
      simp [ha, List.takeWhile, hb]

/-- Every line is blank or a comment, or an assignment, or a header closed by
its bracket, or makes the loop return an error. -/
theorem line_cases (st : LoopState) (t : GoString) :
    isIgnoredLine t = true ∨ isAssignmentLine t = true ∨
      (∃ body, TrimSpace t = '[' :: (body ++ [']'])) ∨
      (∃ msg, processLine st t = .error msg) := by
  unfold isIgnoredLine isAssignmentLine processLine
  cases ht : TrimSpace t with
  | nil => exact Or.inl rfl
  | cons c r =>
    by_cases h1 : c = '#'
    · exact Or.inl (by simp [h1])
    by_cases h2 : c = ';'
    · exact Or.inl (by simp [h2])
    by_cases h3 : c = '['
    · subst h3
      have hne : '[' :: r ≠ [] := by simp
      by_cases hl : ('[' :: r).getLast hne = ']'
      · right; right; left
        cases r with
        | nil => simp at hl
        | cons b r2 =>
          refine ⟨(b :: r2).dropLast, ?_⟩
          have hne2 : b :: r2 ≠ [] := by simp
          have hl2 : (b :: r2).getLast hne2 = ']' := by
            rw [List.getLast_cons hne2] at hl
            exact hl
          rw [← hl2, List.dropLast_append_getLast hne2]
      · right; right; right
        refine ⟨"Invalid section marker in line: ".toList ++ '[' :: r, ?_⟩
        simp only [List.length_cons, gt_iff_lt, Nat.zero_lt_succ, if_true, slice_zero_one]
        have := slice_last ('[' :: r) hne
        simp only [List.length_cons, Nat.add_sub_cancel] at this
        simp [this, hl]
    · by_cases h4 : Contains (c :: r) '=' = true
      · right; left
        simp [h1, h2, h3, h4]
      · right; right; right
        refine ⟨"Invalid key/value pair in line: ".toList ++ c :: r, ?_⟩
        have h4' : Contains (c :: r) '=' = false := by simpa using h4
        simp only [List.length_cons, gt_iff_lt, Nat.zero_lt_succ, if_true, slice_zero_one]
        rw [SplitN2_of_not_contains _ h4']
        simp [h1, h2, h3]

theorem cascadeTarget_header (t body : GoString) (ht : TrimSpace t = '[' :: (body ++ [']'])) :
    cascadeTarget t =
      if Contains (TrimSpace body) ':' then
        some (TrimSpace ((TrimSpace body).takeWhile (fun c => c != ':')))
      else none := by
  unfold cascadeTarget
  rw [ht]
  simp

theorem isAssignmentLine_header (t body : GoString) (ht : TrimSpace t = '[' :: (body ++ [']'])) :
    isAssignmentLine t = false := by
  unfold isAssignmentLine
  rw [ht]
  simp

/-- A line the loop survives leaves an option of a section as it was, unless
the line is an inheritance header with that section as its target, or an
assignment of that option while that section is active. -/
theorem line_frame (st st' : LoopState) (t n o : GoString)
    (h : processLine st t = .ok st')
    (htarget : cascadeTarget t ≠ some n)
    (hassign : ¬ (isAssignmentLine t = true ∧ TrimSpace st.section_ = n ∧
      conformOption (keyText t) = some o)) :
    held st'.config n o = held st.config n o := by
  rcases line_cases st t with hi | ha | ⟨body, hb⟩ | ⟨msg, he⟩
  · rw [processLine_ignored st t hi] at h
    injection h with h
    rw [h]
  · obtain ⟨ck, cv, hck, _, _, hheld⟩ := processLine_assignment_ok st st' t ha h
    rw [hheld, if_neg]
    rintro ⟨e1, e2⟩
    exact hassign ⟨ha, e1, e2 ▸ hck⟩
  · rw [processLine_header st t body hb] at h
    rw [cascadeTarget_header t body hb] at htarget
    by_cases hc : Contains (TrimSpace body) ':' = true
    · rw [if_pos hc] at h htarget
      obtain ⟨rest, hrest⟩ := Split_head (TrimSpace body)
      rw [hrest, cascadeLoop_zero] at h
      injection h with h
      rw [← h]
      unfold held
      rw [cascade_get_ne _ (TrimSpace_idem _) rest _ n]
      exact fun e => htarget (by rw [e])
    · rw [if_neg hc] at h
      injection h with h
      rw [← h]
  · rw [he] at h
    cases h

/-! ## The outcome of reading a document, lone quotes apart -/

theorem processLine_malformed (st : LoopState) (t : GoString)
    (h : isMalformedLine t = true) : processLine st t = .error (malformedMessage t) := by
  unfold isMalformedLine at h
  unfold processLine malformedMessage
  cases ht : TrimSpace t with
  | nil => rw [ht] at h; simp at h
  | cons c r =>
    rw [ht] at h
    simp only [List.length_cons, gt_iff_lt, Nat.zero_lt_succ, if_true, slice_zero_one,
      List.head?_cons]
    by_cases h1 : c = '#'
    · simp [h1] at h
    by_cases h2 : c = ';'
    · simp [h2] at h
    by_cases h3 : c = '['
    · subst h3
      have hne : '[' :: r ≠ [] := by simp
      have hl : ('[' :: r).getLast hne ≠ ']' := by
        intro e
        have := List.getLast?_eq_getLast _ hne
        rw [e] at this
        simp [this] at h
      have hs := slice_last ('[' :: r) hne
      simp only [List.length_cons, Nat.add_sub_cancel] at hs
      simp [hs, hl]
    · have h4 : Contains (c :: r) '=' = false := by simpa [h1, h2, h3] using h
      rw [SplitN2_of_not_contains _ h4]
      simp [h1, h2, h3]

theorem wellformed_cases (t : GoString) (h : isMalformedLine t = false) :
    isIgnoredLine t = true ∨ isAssignmentLine t = true ∨
      (∃ body, TrimSpace t = '[' :: (body ++ [']'])) := by
  unfold isMalformedLine at h
  unfold isIgnoredLine isAssignmentLine
  cases ht : TrimSpace t with
  | nil => exact Or.inl rfl
  | cons c r =>
    rw [ht] at h
    by_cases h1 : c = '#'
    · exact Or.inl (by simp [h1])
    by_cases h2 : c = ';'
    · exact Or.inl (by simp [h2])
    by_cases h3 : c = '['
    · subst h3
      right; right
      have hne : '[' :: r ≠ [] := by simp
      have hl : ('[' :: r).getLast hne = ']' := by
        have := List.getLast?_eq_getLast _ hne
        simpa [this] using h
      cases r with
      | nil => simp at hl
      | cons b r2 =>
        refine ⟨(b :: r2).dropLast, ?_⟩
        have hne2 : b :: r2 ≠ [] := by simp
        have hl2 : (b :: r2).getLast hne2 = ']' := by
          rw [List.getLast_cons hne2] at hl
          exact hl
        rw [← hl2, List.dropLast_append_getLast hne2]
    · right; left
      have h4 : Contains (c :: r) '=' = true := by simpa [h1, h2, h3] using h
      simp [h1, h2, h3, h4]

theorem processLine_wellformed (st : LoopState) (t : GoString)
    (h : isMalformedLine t = false)
    (hq : isAssignmentLine t = true →
      (conformOption (keyText t)).isSome = true ∧ (conformOption (valueText t)).isSome = true) :
    ∃ st', processLine st t = .ok st' := by
  rcases wellformed_cases t h with hi | ha | ⟨body, hb⟩
  · exact ⟨st, processLine_ignored st t hi⟩
  · rw [processLine_assignment st t ha]
    have := SetString_isSome st.config st.section_ (keyText t) (valueText t)
    rw [(hq ha).1, (hq ha).2] at this
    obtain ⟨config, hc⟩ := Option.isSome_iff_exists.mp this
    rw [hc]
    exact ⟨_, rfl⟩
  · rw [processLine_header st t body hb]
    by_cases hc : Contains (TrimSpace body) ':' = true
    · rw [if_pos hc]; exact ⟨_, rfl⟩
    · rw [if_neg hc]; exact ⟨_, rfl⟩

/-- The loop over lines whose assignments do not hit the lone-quote failure of
`conformOption`: it stops with the error of the first malformed line, and runs
to the end when there is none. -/
theorem scanLoop_outcome (lines : List GoString) (st : LoopState)
    (hq : ∀ t ∈ lines, isAssignmentLine t = true →
      (conformOption (keyText t)).isSome = true ∧ (conformOption (valueText t)).isSome = true) :
    match lines.find? isMalformedLine with
    | some l => scanLoop lines st = .error (malformedMessage l)
    | none => ∃ st', scanLoop lines st = .ok st' := by
  induction lines generalizing st with
  | nil => exact ⟨st, rfl⟩
  | cons t rest ih =>
    by_cases hm : isMalformedLine t = true
    · simp only [List.find?, hm, scanLoop, processLine_malformed st t hm]
    · have hm' : isMalformedLine t = false := by simpa using hm
      obtain ⟨st1, h1⟩ := processLine_wellformed st t hm' (hq t (List.mem_cons_self _ _))
      simp only [List.find?, hm', scanLoop, h1]
      exact ih st1 (fun u hu => hq u (List.mem_cons_of_mem _ hu))

/-- The contract of `NewConfigurationFromIniString` away from the lone-quote
failure, over the lines read (the lines the scanner yields: those before the
first line of 65536 bytes or more, if there is one): for a non-empty input in
which the key and the value of every assignment line read can be conformed,
the result is the error of the first malformed line read if there is one, and
otherwise a configuration with `IsLoaded` set, without error. -/
theorem parse_outcome (input : GoString) (hne : input ≠ [])
    (hq : ∀ t ∈ scanLines input [] 0, isAssignmentLine t = true →
      (conformOption (keyText t)).isSome = true ∧ (conformOption (valueText t)).isSome = true) :
    match (scanLines input [] 0).find? isMalformedLine with
    | some l => NewConfigurationFromIniString input = .error (malformedMessage l)
    | none => ∃ config, NewConfigurationFromIniString input = .ok config ∧
        config.IsLoaded = true := by
  have h := scanLoop_outcome (scanLines input [] 0) initialState hq
  have hdef : NewConfigurationFromIniString input =
      match scanLoop (scanLines input [] 0) initialState with
      | .ok st => Result.ok { st.config with IsLoaded := true }
      | .error msg => .error msg
      | .panic => .panic := by
    simp only [NewConfigurationFromIniString, hne, if_false, configFromReader]
    rfl
  cases hf : (scanLines input [] 0).find? isMalformedLine with
  | some l =>
    rw [hf] at h
    simp only at h ⊢
    rw [hdef, h]
  | none =>
    rw [hf] at h
    simp only at h ⊢
    obtain ⟨st', hst⟩ := h
    exact ⟨_, by rw [hdef, hst], rfl⟩

/-! ## The scanner on a text made of short lines -/

theorem scanLines_line (l cur rest : GoString) (n : Nat) (hnl : '\n' ∉ l)
    (hshort : n + byteLen l < MaxScanTokenSize) :
    scanLines (l ++ '\n' :: rest) cur n = dropCR (cur.reverse ++ l) :: scanLines rest [] 0 := by
  induction l generalizing cur n with
  | nil => simp [scanLines]
  | cons c r ih =>
    have hc : c ≠ '\n' := fun e => hnl (e ▸ List.mem_cons_self _ _)
    have hr : '\n' ∉ r := fun h => hnl (List.mem_cons_of_mem _ h)
    have hlen : byteLen (c :: r) = c.utf8Size + byteLen r := by simp [byteLen]
    rw [hlen] at hshort
    have hfit : ¬ MaxScanTokenSize ≤ n + c.utf8Size := by omega
    simp only [List.cons_append, scanLines, hc, if_false, hfit, List.append_eq]
    rw [ih (c :: cur) (n + c.utf8Size) hr (by omega)]
    simp

/-- On a text whose lines are closed by newlines and shorter than the token
limit of the scanner, the scanner yields the lines, each without its trailing
carriage return if it has one. -/
theorem scanLines_unlines (lines : List GoString)
    (h : ∀ l ∈ lines, '\n' ∉ l ∧ byteLen l < MaxScanTokenSize) :
    scanLines (unlines lines) [] 0 = lines.map dropCR := by
  induction lines with
  | nil => rfl
  | cons l rest ih =>
    have hl := h l (List.mem_cons_self _ _)
    have e : unlines (l :: rest) = l ++ '\n' :: unlines rest := by
      simp [unlines]
    rw [e, scanLines_line l [] (unlines rest) 0 hl.1 (by omega),
      ih (fun u hu => h u (List.mem_cons_of_mem _ hu))]
    simp

/-- A line of `MaxScanTokenSize` bytes or more ends the scan: the lines after
it are not read. -/
theorem scanLines_long_line (l cur rest : GoString) (n : Nat) (hnl : '\n' ∉ l)
    (hlong : MaxScanTokenSize ≤ n + byteLen l) (hn : n < MaxScanTokenSize) :
    scanLines (l ++ rest) cur n = [] := by
  induction l generalizing cur n with
  | nil => simp [byteLen] at hlong; omega
  | cons c r ih =>
    have hc : c ≠ '\n' := fun e => hnl (e ▸ List.mem_cons_self _ _)
    have hr : '\n' ∉ r := fun h => hnl (List.mem_cons_of_mem _ h)
    have hlen : byteLen (c :: r) = c.utf8Size + byteLen r := by simp [byteLen]
    rw [hlen] at hlong
    simp only [List.cons_append, scanLines, hc, if_false, List.append_eq]
    by_cases hfit : MaxScanTokenSize ≤ n + c.utf8Size
    · simp [hfit]
    · simp only [hfit, if_false]
      exact ih (c :: cur) (n + c.utf8Size) hr (by omega) (by omega)

/-! ## A line the scanner does not take -/

theorem unlines_append_cons (pre post : List GoString) (l : GoString) :
    unlines (pre ++ l :: post) = unlines pre ++ (l ++ '\n' :: unlines post) := by
  simp [unlines]

/-- The scanner yields the lines before the first line of `MaxScanTokenSize`
bytes or more, and nothing of what follows. -/
theorem scanLines_truncated (pre post : List GoString) (l : GoString)
    (hpre : ∀ t ∈ pre, '\n' ∉ t ∧ byteLen t < MaxScanTokenSize)
    (hnl : '\n' ∉ l) (hlong : MaxScanTokenSize ≤ byteLen l) :
    scanLines (unlines (pre ++ l :: post)) [] 0 = pre.map dropCR := by
  induction pre with
  | nil =>
    have e : unlines ([] ++ l :: post) = l ++ '\n' :: unlines post := by
      simp [unlines]
    rw [e]
    exact scanLines_long_line l [] _ 0 hnl (by omega) (by decide)
  | cons t rest ih =>
    have ht := hpre t (List.mem_cons_self _ _)
    have e : unlines (t :: rest ++ l :: post) = t ++ '\n' :: unlines (rest ++ l :: post) := by
      simp [unlines]
    rw [e, scanLines_line t [] _ 0 ht.1 (by omega),
      ih (fun u hu => hpre u (List.mem_cons_of_mem _ hu))]
    simp

theorem longComment_newline : '\n' ∉ longComment := by
  unfold longComment
  intro h
  rcases List.mem_cons.mp h with h | h
  · exact absurd h (by decide)
  · exact absurd (List.eq_of_mem_replicate h) (by decide)

theorem byteLen_cons_replicate (c d : Char) (n : Nat) :
    byteLen (c :: List.replicate n d) = c.utf8Size + n * d.utf8Size := by
  unfold byteLen
  rw [List.map_cons, List.map_replicate, List.sum_cons, List.sum_replicate, smul_eq_mul]

theorem byteLen_longComment : byteLen longComment = 65536 := by
  have h := byteLen_cons_replicate ';' 'x' 65535
  have e1 : Char.utf8Size ';' = 1 := by decide
  have e2 : Char.utf8Size 'x' = 1 := by decide
  rw [e1, e2] at h
  exact h

theorem TrimSpace_longComment : TrimSpace longComment = longComment := by
  have e : longComment = ';' :: (List.replicate 65534 'x' ++ ['x']) := by
    unfold longComment
    rw [← List.replicate_succ']
  rw [e]
  exact TrimSpace_of_ends ';' 'x' _ (by decide) (by decide)

theorem isIgnoredLine_longComment : isIgnoredLine longComment = true := by
  unfold isIgnoredLine
  rw [TrimSpace_longComment]
  rfl

theorem unlines_ne_nil (l : GoString) (rest : List GoString) : unlines (l :: rest) ≠ [] := by
  simp [unlines]

/-- The configuration `NewConfigurationFromIniString` returns when the loop
runs to the end of the lines read. -/
theorem parse_of_scanLoop (input : GoString) (st : LoopState) (hne : input ≠ [])
    (h : scanLoop (scanLines input [] 0) initialState = .ok st) :
    NewConfigurationFromIniString input = .ok { st.config with IsLoaded := true } := by
  have hdef : NewConfigurationFromIniString input =
      match scanLoop (scanLines input [] 0) initialState with
      | .ok st => Result.ok { st.config with IsLoaded := true }
      | .error msg => .error msg
      | .panic => .panic := by
    simp only [NewConfigurationFromIniString, hne, if_false, configFromReader]
    rfl
  rw [hdef, h]

/-- A document with a line of `MaxScanTokenSize` bytes or more is read as the
document made of the lines before that line. -/
theorem parse_truncated (pre post : List GoString) (l : GoString) (st : LoopState)
    (hpre : ∀ t ∈ pre, '\n' ∉ t ∧ byteLen t < MaxScanTokenSize)
    (hnl : '\n' ∉ l) (hlong : MaxScanTokenSize ≤ byteLen l)
    (h : scanLoop (pre.map dropCR) initialState = .ok st) :
    NewConfigurationFromIniString (unlines (pre ++ l :: post))
      = .ok { st.config with IsLoaded := true } := by
  have hne : unlines (pre ++ l :: post) ≠ [] := by
    cases pre with
    | nil => exact unlines_ne_nil _ _
    | cons t rest => exact unlines_ne_nil _ _
  apply parse_of_scanLoop _ _ hne
  rw [scanLines_truncated pre post l hpre hnl hlong]
  exact h

/-! ## C2: a comment line the scanner does not take -/

/-- C2, at the failing input.  The document made of the lines `[s]`, `a=1`, a
comment line of 65536 bytes (`;` and 65535 times `x`) and `a=2`, each closed
by a newline, is one header followed by assignment and comment lines.  The
scanner yields the first two lines only, and `NewConfigurationFromIniString`
returns, without error, the configuration of the document `[s]`, `a=1`: in it
`GetString("s", "a")` returns `1`, while the last assignment line of option
`a` is `a=2` and the same document without the comment line gives `2`. -/
theorem long_comment_line_ends_reading :
    isIgnoredLine longComment = true ∧ byteLen longComment = 65536 ∧
    scanLines (unlines longLineLines) [] 0 = ["[s]".toList, "a=1".toList] ∧
    NewConfigurationFromIniString (unlines longLineLines)
      = .ok (parsed (unlines ["[s]".toList, "a=1".toList])) ∧
    GetString (parsed (unlines ["[s]".toList, "a=1".toList])) "s".toList "a".toList
      = .ok "1".toList ∧
    longLineLines.getLast? = some "a=2".toList ∧
    conformOption (keyText "a=2".toList) = some "a".toList ∧
    conformOption (valueText "a=2".toList) = some "2".toList ∧
    NewConfigurationFromIniString (unlines ["[s]".toList, "a=1".toList, "a=2".toList])
      = .ok (parsed (unlines ["[s]".toList, "a=1".toList, "a=2".toList])) ∧
    GetString (parsed (unlines ["[s]".toList, "a=1".toList, "a=2".toList]))
      "s".toList "a".toList = .ok "2".toList := by
  have hpre : ∀ t ∈ ["[s]".toList, "a=1".toList],
      '\n' ∉ t ∧ byteLen t < MaxScanTokenSize := by decide
  have hlong : MaxScanTokenSize ≤ byteLen longComment := by
    rw [byteLen_longComment]
    decide
  have hlines := scanLines_truncated ["[s]".toList, "a=1".toList] ["a=2".toList]
    longComment hpre longComment_newline hlong
  have hparse := parse_truncated ["[s]".toList, "a=1".toList] ["a=2".toList] longComment
    (stateAfter ["[s]".toList, "a=1".toList]) hpre longComment_newline hlong (by decide)
  have hcfg : ({ (stateAfter ["[s]".toList, "a=1".toList]).config with IsLoaded := true }
      : Configuration) = parsed (unlines ["[s]".toList, "a=1".toList]) := by decide
  rw [hcfg] at hparse
  exact ⟨isIgnoredLine_longComment, byteLen_longComment, hlines, hparse, by decide, rfl,
    by decide, by decide, by decide, by decide⟩

/-! ## Options no later line writes -/

theorem stateAfter_eq (lines : List GoString) (st : LoopState)
    (h : scanLoop lines initialState = .ok st) : stateAfter lines = st := by
  simp [stateAfter, h]

/-- An option that no line of a run writes is held after the run as before. -/
theorem untouched_frame (lines : List GoString) (st stF : LoopState) (n o : GoString)
    (hu : untouched st lines n o = true) (hrun : scanLoop lines st = .ok stF) :
    held stF.config n o = held st.config n o := by
  induction lines generalizing st with
  | nil =>
    simp only [scanLoop] at hrun
    injection hrun with hrun
    rw [hrun]
  | cons t rest ih =>
    obtain ⟨s1, h1, h2⟩ := scanLoop_cons_ok t rest st stF hrun
    simp only [untouched, h1, Bool.and_eq_true, Bool.not_eq_true'] at hu
    obtain ⟨hw, hrest⟩ := hu
    simp only [writesOption, Bool.or_eq_false_iff, decide_eq_false_iff_not,
      Bool.and_eq_false_iff] at hw
    rw [ih s1 hrest h2]
    apply line_frame st s1 t n o h1 hw.1
    rintro ⟨ha, hs, hk⟩
    rcases hw.2 with (h | h) | h
    · rw [ha] at h; cases h
    · exact h hs
    · exact h hk

theorem processLine_child_header (st : LoopState) (text c p : GoString)
    (htext : TrimSpace text = '[' :: (c ++ ':' :: p ++ [']']))
    (hc : ':' ∉ c) (hp : ':' ∉ p) :
    processLine st text = .ok
      { config := MergeOptions st.config (TrimSpace c) (TrimSpace p),
        section_ := TrimSpace c } := by
  have e : '[' :: (c ++ ':' :: p ++ [']']) = '[' :: (List.intercalate [':'] [c, p] ++ [']']) := by
    simp [List.intercalate, List.intersperse]
  rw [e] at htext
  rw [processLine_cascade st text c [p] htext (by simp)]
  · rfl
  · intro n hn
    simp only [List.mem_cons, List.mem_singleton, List.not_mem_nil, or_false] at hn
    rcases hn with rfl | rfl
    · exact hc
    · exact hp

/-! ## C4: an explicit assignment against an inherited value -/

/-- C4, as stated, fails: in the document `[p]`, `k=w`, `[c:p]`, `k=v`, `k=z`
section `p` holds `k = w`, the later header `[c:p]` is followed, before any
other header, by the assignment line `k=v`, and after parsing `GetString(c, k)`
returns `z`, not `conformOption(v) = v`: a later line writes the option
again.  And in the document `[p]`, `k=w`, `[c:p]`, a comment line of 65536
bytes, `k=v` the scanner stops at the comment line: the document is read,
without error, as `[p]`, `k=w`, `[c:p]`, and `GetString(c, k)` returns `w`. -/
theorem duplicate_assignment_last_wins :
    NewConfigurationFromIniString duplicateAssignmentDocument
      = .ok (parsed duplicateAssignmentDocument) ∧
    scanLines duplicateAssignmentDocument [] 0
      = ["[p]".toList, "k=w".toList, "[c:p]".toList, "k=v".toList, "k=z".toList] ∧
    GetString (stateAfter ["[p]".toList, "k=w".toList]).config "p".toList "k".toList
      = .ok "w".toList ∧
    conformOption "v".toList = some "v".toList ∧
    GetString (parsed duplicateAssignmentDocument) "c".toList "k".toList = .ok "z".toList ∧
    GetString (parsed duplicateAssignmentDocument) "c".toList "k".toList ≠ .ok "v".toList ∧
    isIgnoredLine longComment = true ∧
    scanLines (unlines longLineCascadeLines) [] 0
      = ["[p]".toList, "k=w".toList, "[c:p]".toList] ∧
    NewConfigurationFromIniString (unlines longLineCascadeLines)
      = .ok (parsed (unlines ["[p]".toList, "k=w".toList, "[c:p]".toList])) ∧
    GetString (parsed (unlines ["[p]".toList, "k=w".toList, "[c:p]".toList]))
      "c".toList "k".toList = .ok "w".toList := by
  have hpre : ∀ t ∈ ["[p]".toList, "k=w".toList, "[c:p]".toList],
      '\n' ∉ t ∧ byteLen t < MaxScanTokenSize := by decide
  have hlong : MaxScanTokenSize ≤ byteLen longComment := by
    rw [byteLen_longComment]
    decide
  have hlines := scanLines_truncated ["[p]".toList, "k=w".toList, "[c:p]".toList]
    ["k=v".toList] longComment hpre longComment_newline hlong
  have hparse := parse_truncated ["[p]".toList, "k=w".toList, "[c:p]".toList]
    ["k=v".toList] longComment (stateAfter ["[p]".toList, "k=w".toList, "[c:p]".toList])
    hpre longComment_newline hlong (by decide)
  have hcfg : ({ (stateAfter ["[p]".toList, "k=w".toList, "[c:p]".toList]).config with
      IsLoaded := true } : Configuration)
        = parsed (unlines ["[p]".toList, "k=w".toList, "[c:p]".toList]) := by decide
  rw [hcfg] at hparse
  exact ⟨by decide, by decide, by decide, by decide, by decide, by decide,
    isIgnoredLine_longComment, hlines, hparse, by decide⟩

/-- C4, amended.  For every document that is read with success and whose lines
read (the lines the scanner yields: those before the first line of 65536 bytes
or more, if there is one) are `pre`, a header `[c : p]`, lines `b1` that are
blank, comments or assignments, an assignment line `l` of option `k`, and then
any lines `rest`:
if section `p` holds option `k` with value `w` when the header is reached, then
after parsing `GetString(c, k)` returns the conformed value of `l`, provided no
line after `l` writes option `k` of `c` again, and `GetString(p, k)` still
returns `w`, provided no line after the header writes option `k` of `p`.  A
line writes an option of a section when it is an assignment of that option met
while the section is active, or an inheritance header with the section as its
target (`writesOption`, `untouched`). -/
theorem explicit_assignment_overrides (input : GoString) (pre b1 rest : List GoString)
    (hdr c p l k w : GoString) (st : LoopState) (config : Configuration)
    (hlines : scanLines input [] 0 = pre ++ hdr :: (b1 ++ l :: rest))
    (hpre : scanLoop pre initialState = .ok st)
    (hheld : GetString st.config p k = .ok w)
    (hhdr : TrimSpace hdr = '[' :: (c ++ ':' :: p ++ [']']))
    (hc : ':' ∉ c) (hp : ':' ∉ p)
    (hb1 : ∀ t ∈ b1, isIgnoredLine t = true ∨ isAssignmentLine t = true)
    (hla : isAssignmentLine l = true)
    (hk : conformOption (keyText l) = some k)
    (hok : NewConfigurationFromIniString input = .ok config) :
    ∃ cv, conformOption (valueText l) = some cv ∧
      (untouched (stateAfter (pre ++ hdr :: (b1 ++ [l]))) rest (TrimSpace c) k = true →
        GetString config c k = .ok cv) ∧
      (untouched (stateAfter (pre ++ [hdr])) (b1 ++ l :: rest) (TrimSpace p) k = true →
        GetString config p k = .ok w) := by
  obtain ⟨stF, hrun, hconfig⟩ := parse_ok input config hok
  rw [hlines] at hrun
  obtain ⟨st0, h0, hrun⟩ := scanLoop_append_ok _ _ _ _ hrun
  rw [hpre] at h0
  injection h0 with h0
  subst h0
  obtain ⟨st1, h1, hrun1⟩ := scanLoop_cons_ok _ _ _ _ hrun
  obtain ⟨st2, h2, hrun2⟩ := scanLoop_append_ok _ _ _ _ hrun1
  obtain ⟨st3, h3, hrun3⟩ := scanLoop_cons_ok _ _ _ _ hrun2
  have hafter1 : scanLoop (pre ++ [hdr]) initialState = .ok st1 := by
    rw [scanLoop_append, hpre]
    simp only [scanLoop, h1]
  have hafter3 : scanLoop (pre ++ hdr :: (b1 ++ [l])) initialState = .ok st3 := by
    rw [scanLoop_append, hpre]
    simp only [scanLoop, h1]
    rw [scanLoop_append, h2]
    simp only [scanLoop, h3]
  rw [stateAfter_eq _ _ hafter1, stateAfter_eq _ _ hafter3]
  rw [processLine_child_header st hdr c p hhdr hc hp] at h1
  injection h1 with h1
  have hsec2 : st2.section_ = TrimSpace c := by
    rw [(block_frame b1 st1 st2 hb1 h2).1, ← h1]
  obtain ⟨ck, cv, hck, hcv, _, hheld3⟩ := processLine_assignment_ok st2 st3 l hla h3
  have hkk : ck = k := by
    rw [hk] at hck
    injection hck with hck
    exact hck.symm
  subst hkk
  refine ⟨cv, hcv, ?_, ?_⟩
  · intro hu
    rw [GetString_ok_iff, hconfig, held_loaded, untouched_frame rest st3 stF _ _ hu hrun3,
      hheld3, hsec2, TrimSpace_idem]
    simp
  · intro hu
    have hw : held st.config (TrimSpace p) ck = some w := (GetString_ok_iff _ _ _ _).mp hheld
    rw [GetString_ok_iff, hconfig, held_loaded,
      untouched_frame (b1 ++ l :: rest) st1 stF _ _ hu hrun1, ← h1]
    simp only
    rw [held_MergeOptions, TrimSpace_idem, TrimSpace_idem, hw]
    split <;> rfl

/-- An instance, the example of the package comment: `testdb` inherits `host`
from `db` and assigns it again. -/
theorem explicit_assignment_overrides_witness :
    GetString (stateAfter ((scanLines packageExample [] 0).take 7)).config
      " db ".toList "host".toList = .ok "remotehost".toList ∧
    NewConfigurationFromIniString packageExample = .ok (parsed packageExample) ∧
    GetString (parsed packageExample) "testdb ".toList "host".toList = .ok "localhost".toList ∧
    GetString (parsed packageExample) " db ".toList "host".toList
      = .ok "remotehost".toList := by
  have hheld : GetString (stateAfter ((scanLines packageExample [] 0).take 7)).config
      " db ".toList "host".toList = .ok "remotehost".toList := by decide
  have hok : NewConfigurationFromIniString packageExample = .ok (parsed packageExample) := by
    decide
  obtain ⟨cv, hcv, hchild, hparent⟩ :=
    explicit_assignment_overrides packageExample ((scanLines packageExample [] 0).take 7)
      [] ["#".toList] "[testdb : db ]".toList "testdb ".toList " db ".toList
      "host=localhost".toList "host".toList "remotehost".toList
      (stateAfter ((scanLines packageExample [] 0).take 7)) (parsed packageExample)
      (by decide) (by decide) hheld (by decide) (by decide) (by decide) (by decide)
      (by decide) (by decide) hok
  have e : conformOption (valueText "host=localhost".toList) = some "localhost".toList := by
    decide
  rw [e] at hcv
  injection hcv with hcv
  subst hcv
  exact ⟨hheld, hok, hchild (by decide), hparent (by decide)⟩

/-! ## C5: a header naming a parent that does not exist yet -/

/-- C5, as stated, fails: in the document `[c:p]`, `[p]`, `a=1`, `[c:p]` the
first header comes when no section `p` exists, the option `a` is assigned to
`p` later, `c` is never assigned `a` by an assignment line, and yet after
parsing `c` holds `a = 1`: the second header finds `p` already parsed and
merges it. -/
theorem forward_reference_merged_later :
    NewConfigurationFromIniString remergeDocument = .ok (parsed remergeDocument) ∧
    scanLines remergeDocument [] 0
      = ["[c:p]".toList, "[p]".toList, "a=1".toList, "[c:p]".toList] ∧
    GetSection initialState.config "p".toList = none ∧
    (stateAfter ["[c:p]".toList, "[p]".toList]).section_ = "p".toList ∧
    GetString (parsed remergeDocument) "p".toList "a".toList = .ok "1".toList ∧
    GetString (parsed remergeDocument) "c".toList "a".toList = .ok "1".toList := by
  decide

/-- C5, amended.  For every document whose lines `pre` leave no section `p`,
followed by a header `[c : p]`: the header is processed without failure and
makes `c` the active section; afterwards `c` is defined, every other section is
as before (so `p` is still undefined, unless it is `c` itself), and nothing has
been copied (`c` holds what it held before, nothing if it is new).  Whatever
lines follow: after them `GetString(c, o)` returns what it returned before the
header, for every option `o` of `c` that none of them writes (by an assignment
of `o` while `c` is active, or by an inheritance header with target `c`).  So
options assigned to `p` later do not reach `c` through this header. -/
theorem forward_reference_noop (pre : List GoString) (hdr c p : GoString) (st : LoopState)
    (hpre : scanLoop pre initialState = .ok st)
    (hp : GetSection st.config p = none)
    (hhdr : TrimSpace hdr = '[' :: (c ++ ':' :: p ++ [']']))
    (hc : ':' ∉ c) (hpc : ':' ∉ p) :
    ∃ st1, scanLoop (pre ++ [hdr]) initialState = .ok st1 ∧
      st1.section_ = TrimSpace c ∧
      (GetSection st1.config c).isSome = true ∧
      (∀ n, n ≠ TrimSpace c → mapGet st1.config.ConfigMap n = mapGet st.config.ConfigMap n) ∧
      (TrimSpace p ≠ TrimSpace c → GetSection st1.config p = none) ∧
      (∀ o value, GetString st1.config c o = .ok value ↔ GetString st.config c o = .ok value) ∧
      ∀ post stF o, scanLoop (pre ++ hdr :: post) initialState = .ok stF →
        untouched st1 post (TrimSpace c) o = true →
        ∀ value, GetString stF.config c o = .ok value ↔ GetString st.config c o = .ok value := by
  have hstep := processLine_child_header st hdr c p hhdr hc hpc
  have hrun1 : scanLoop (pre ++ [hdr]) initialState = .ok
      { config := MergeOptions st.config (TrimSpace c) (TrimSpace p),
        section_ := TrimSpace c } := by
    rw [scanLoop_append, hpre]
    simp only [scanLoop, hstep]
  have hpabs : ∀ o, held st.config (TrimSpace (TrimSpace p)) o = none := by
    intro o
    unfold GetSection conformSectionName at hp
    simp [held, TrimSpace_idem, hp]
  have hother : ∀ n, n ≠ TrimSpace c →
      mapGet (MergeOptions st.config (TrimSpace c) (TrimSpace p)).ConfigMap n
        = mapGet st.config.ConfigMap n := by
    intro n hn
    exact MergeOptions_get_ne _ _ _ _ (by rw [TrimSpace_idem]; exact fun e => hn e.symm)
  have hsame : ∀ o, held (MergeOptions st.config (TrimSpace c) (TrimSpace p)) (TrimSpace c) o
      = held st.config (TrimSpace c) o := by
    intro o
    rw [held_MergeOptions, TrimSpace_idem, if_pos rfl, hpabs]
  refine ⟨_, hrun1, rfl, ?_, hother, ?_, ?_, ?_⟩
  · have := MergeOptions_isSome st.config (TrimSpace c) (TrimSpace p)
    rw [TrimSpace_idem] at this
    exact this
  · intro hne
    unfold GetSection conformSectionName at hp ⊢
    rw [hother _ hne]
    exact hp
  · intro o value
    rw [GetString_ok_iff, GetString_ok_iff, hsame]
  · intro post stF o hrunF hu value
    have hcons : pre ++ hdr :: post = (pre ++ [hdr]) ++ post := by simp
    rw [hcons] at hrunF
    obtain ⟨s1, hs1, hrest⟩ := scanLoop_append_ok _ _ _ _ hrunF
    rw [hrun1] at hs1
    injection hs1 with hs1
    subst hs1
    rw [GetString_ok_iff, GetString_ok_iff, untouched_frame post _ stF _ _ hu hrest, hsame]

/-- An instance: `[c:p]` as the first line of a document that defines `p` afterwards. -/
theorem forward_reference_noop_witness :
    GetSection (stateAfter []).config "p".toList = none ∧
    NewConfigurationFromIniString forwardDocument = .ok (parsed forwardDocument) ∧
    GetString (parsed forwardDocument) "p".toList "a".toList = .ok "1".toList ∧
    GetString (parsed forwardDocument) "c".toList "x".toList = .ok "1".toList ∧
    ∃ st1, scanLoop ([] ++ ["[c:p]".toList]) initialState = .ok st1 ∧
      st1.section_ = TrimSpace "c".toList ∧
      (GetSection st1.config "c".toList).isSome = true ∧
      GetSection st1.config "p".toList = none ∧
      ∀ value, GetString (stateAfter (scanLines forwardDocument [] 0)).config
          "c".toList "a".toList = .ok value ↔
        GetString (stateAfter []).config "c".toList "a".toList = .ok value := by
  have hp : GetSection (stateAfter []).config "p".toList = none := by decide
  obtain ⟨st1, h1, h2, h3, _, h5, _, h7⟩ :=
    forward_reference_noop [] "[c:p]".toList "c".toList "p".toList (stateAfter [])
      (by decide) hp (by decide) (by decide) (by decide)
  have e1 : st1 = stateAfter ["[c:p]".toList] := by
    have : scanLoop ([] ++ ["[c:p]".toList]) initialState
        = .ok (stateAfter ["[c:p]".toList]) := by decide
    rw [this] at h1
    injection h1 with h1
    exact h1.symm
  refine ⟨hp, by decide, by decide, by decide, st1, h1, h2, h3, h5 (by decide), ?_⟩
  apply h7 ["x=1".toList, "[p]".toList, "a=1".toList]
  · decide
  · rw [e1]
    decide

/-! ## `GetStringWithDefault` away from the lone-quote failure -/

/-- When `GetString` succeeds, `GetStringWithDefault` returns the stored value
and leaves the configuration as it is. -/
theorem GetStringWithDefault_stored (config : Configuration) (s o d value : GoString)
    (h : GetString config s o = .ok value) :
    GetStringWithDefault config s o d = some (value, config) := by
  simp [GetStringWithDefault, h]

/-! ## The keys of a map -/

theorem mapGet_eq_none_iff {β : Type} (m : List (GoString × β)) (k : GoString) :
    mapGet m k = none ↔ k ∉ m.map Prod.fst := by
  induction m with
  | nil => simp [mapGet]
  | cons e t ih =>
    obtain ⟨ke, ve⟩ := e
    by_cases h : ke = k
    · subst h
      constructor
      · intro hm
        simp only [mapGet, if_true] at hm
        cases hm
      · intro hm
        exact absurd (List.mem_cons_self _ _) hm
    · have e1 : mapGet ((ke, ve) :: t) k = mapGet t k := by
        simp only [mapGet, h, if_false]
      rw [e1, ih, List.map_cons, List.mem_cons, not_or]
      constructor
      · intro hm
        exact ⟨fun e => h e.symm, hm⟩
      · intro hm
        exact hm.2

theorem mapGet_isSome_iff {β : Type} (m : List (GoString × β)) (k : GoString) :
    (mapGet m k).isSome = true ↔ k ∈ m.map Prod.fst := by
  rw [← not_iff_not, ← mapGet_eq_none_iff]
  cases mapGet m k <;> simp

theorem keys_mapSet_of_mem {β : Type} (m : List (GoString × β)) (k : GoString) (v : β)
    (h : k ∈ m.map Prod.fst) : (mapSet m k v).map Prod.fst = m.map Prod.fst := by
  induction m with
  | nil => simp at h
  | cons e t ih =>
    obtain ⟨ke, ve⟩ := e
    by_cases hk : ke = k
    · simp [mapSet, hk]
    · have hk' : ¬ k = ke := fun e => hk e.symm
      simp only [List.map_cons, List.mem_cons, hk', false_or] at h
      simp [mapSet, hk, ih h]

theorem keys_mapSet_of_not_mem {β : Type} (m : List (GoString × β)) (k : GoString) (v : β)
    (h : k ∉ m.map Prod.fst) : (mapSet m k v).map Prod.fst = m.map Prod.fst ++ [k] := by
  induction m with
  | nil => simp [mapSet]
  | cons e t ih =>
    obtain ⟨ke, ve⟩ := e
    simp only [List.map_cons, List.mem_cons, not_or] at h
    have hk : ¬ ke = k := fun e => h.1 e.symm
    simp [mapSet, hk, ih h.2]

theorem keys_mapDelete {β : Type} (m : List (GoString × β)) (k : GoString) :
    (mapDelete m k).map Prod.fst = (m.map Prod.fst).filter (fun x => decide (x ≠ k)) := by
  induction m with
  | nil => rfl
  | cons e t ih =>
    obtain ⟨ke, ve⟩ := e
    by_cases hk : ke = k
    · have e1 : mapDelete ((ke, ve) :: t) k = mapDelete t k := by
        simp only [mapDelete, hk, if_true]
      have e2 : ((ke :: t.map Prod.fst).filter (fun x => decide (x ≠ k)))
          = (t.map Prod.fst).filter (fun x => decide (x ≠ k)) :=
        List.filter_cons_of_neg (by simp [hk])
      rw [e1, List.map_cons, e2, ih]
    · have e1 : mapDelete ((ke, ve) :: t) k = (ke, ve) :: mapDelete t k := by
        simp only [mapDelete, hk, if_false]
      have e2 : ((ke :: t.map Prod.fst).filter (fun x => decide (x ≠ k)))
          = ke :: (t.map Prod.fst).filter (fun x => decide (x ≠ k)) :=
        List.filter_cons_of_pos (by simp [hk])
      rw [e1, List.map_cons, List.map_cons, e2, ih]

/-! ## `GetSectionNames` -/

theorem fillNames_eq (keys front : List GoString) (k : Nat)
    (hk : (keys.filter isNamed).length ≤ k) :
    fillNames keys (front ++ List.replicate k []) front.length =
      front ++ keys.filter isNamed ++
        List.replicate (k - (keys.filter isNamed).length) [] := by
  induction keys generalizing front k with
  | nil => simp [fillNames]
  | cons name rest ih =>
    by_cases hn : name = []
    · subst hn
      have hfil : ([] :: rest).filter isNamed = rest.filter isNamed :=
        List.filter_cons_of_neg (by simp [isNamed])
      rw [hfil] at hk ⊢
      simp only [fillNames, ne_eq, not_true_eq_false, if_false]
      exact ih front k hk
    · have hfil : (name :: rest).filter isNamed = name :: rest.filter isNamed :=
        List.filter_cons_of_pos (by simp [isNamed, hn])
      rw [hfil] at hk ⊢
      simp only [List.length_cons] at hk
      obtain ⟨k', rfl⟩ : ∃ k', k = k' + 1 := ⟨k - 1, by omega⟩
      have hset : (front ++ List.replicate (k' + 1) []).set front.length name
          = (front ++ [name]) ++ List.replicate k' [] := by
        rw [List.replicate_succ, List.set_append_right _ _ (Nat.le_refl _)]
        simp
      simp only [fillNames, ne_eq, hn, not_false_eq_true, if_true]
      rw [hset]
      have := ih (front ++ [name]) k' (by omega)
      simp only [List.length_append, List.length_singleton] at this
      rw [this]
      simp

/-- `GetSectionNames` returns the names that are not empty, followed by one
empty string for every section whose name is empty. -/
theorem GetSectionNames_eq (config : Configuration) :
    GetSectionNames config =
      (sectionKeys config).filter isNamed ++
        List.replicate ((sectionKeys config).length -
          ((sectionKeys config).filter isNamed).length) [] := by
  unfold GetSectionNames
  have h := fillNames_eq (sectionKeys config) [] (sectionKeys config).length
    (List.length_filter_le _ _)
  simp only [List.nil_append, List.length_nil] at h
  have hl : config.ConfigMap.length = (sectionKeys config).length := by
    simp [sectionKeys]
  rw [hl]
  exact h

theorem length_GetSectionNames (config : Configuration) :
    (GetSectionNames config).length = config.ConfigMap.length := by
  rw [GetSectionNames_eq]
  have := List.length_filter_le isNamed (sectionKeys config)
  simp only [List.length_append, List.length_replicate]
  have hl : config.ConfigMap.length = (sectionKeys config).length := by
    simp [sectionKeys]
  omega

theorem mem_GetSectionNames (config : Configuration) (x : GoString) :
    x ∈ GetSectionNames config ↔ x ∈ sectionKeys config := by
  rw [GetSectionNames_eq]
  by_cases hx : x = []
  · subst hx
    have hnot : [] ∉ (sectionKeys config).filter isNamed := by
      simp [List.mem_filter, isNamed]
    simp only [List.mem_append, hnot, false_or, List.mem_replicate, and_true]
    constructor
    · intro h
      by_contra hc
      apply h
      have : (sectionKeys config).filter isNamed = sectionKeys config := by
        rw [List.filter_eq_self]
        intro a ha
        have : a ≠ [] := fun e => hc (e ▸ ha)
        simpa [isNamed] using this
      rw [this]
      simp
    · intro h hz
      have hlt : ((sectionKeys config).filter isNamed).length
          < (sectionKeys config).length := by
        apply List.length_filter_lt_length_iff_exists.mpr
        exact ⟨[], h, by simp [isNamed]⟩
      omega
  · have hne : ¬ [] = x := fun e => hx e.symm
    simp [List.mem_filter, isNamed, hx, List.mem_replicate, hne]

/-! ## C13: `GetBoolWithDefault` leaves no trace -/

theorem GetString_ne_panic (config : Configuration) (s o : GoString) :
    GetString config s o ≠ .panic := by
  unfold GetString
  cases GetSection config s with
  | none => simp
  | some mm => cases h : mapGet mm o <;> simp [h]

/-- C13.  For every configuration, with `OnDefaultAddToSection` set or not, and
every `s`, `o`, `d`: `GetBoolWithDefault(s, o, d)` returns, and the
configuration it leaves is the one it was given, whole (nothing is written to
`_default` or to section `s`, and the section count is the same); when
`GetString(s, o)` fails it returns `d` and no error, and when `GetString`
succeeds it returns what `ParseBool` makes of the stored value. -/
theorem GetBoolWithDefault_frame (config : Configuration) (s o : GoString) (d : Bool) :
    ∃ r, GetBoolWithDefault config s o d = some (r, config) ∧
      ((∀ value, GetString config s o ≠ .ok value) → r = (d, none)) ∧
      (∀ value, GetString config s o = .ok value → r = ParseBool value) := by
  unfold GetBoolWithDefault
  cases h : GetString config s o with
  | ok mm =>
    refine ⟨ParseBool mm, rfl, fun hf => absurd rfl (hf mm), ?_⟩
    intro value hv
    injection hv with hv
    rw [hv]
  | error msg =>
    refine ⟨(d, none), rfl, fun _ => rfl, ?_⟩
    intro value hv
    cases hv
  | panic => exact absurd h (GetString_ne_panic config s o)

/-- An instance: a miss on the fresh store with `OnDefaultAddToSection` set;
`GetStringWithDefault` on the same miss does change the store. -/
theorem GetBoolWithDefault_frame_witness :
    (∃ r, GetBoolWithDefault (SetAddOnDefault NewConfiguration true) "begin".toList
        "flag".toList true = some (r, SetAddOnDefault NewConfiguration true) ∧
      r = (true, none)) ∧
    (GetStringWithDefault (SetAddOnDefault NewConfiguration true) "begin".toList
        "flag".toList "true".toList).map Prod.snd
      ≠ some (SetAddOnDefault NewConfiguration true) := by
  obtain ⟨r, h1, h2, _⟩ := GetBoolWithDefault_frame (SetAddOnDefault NewConfiguration true)
    "begin".toList "flag".toList true
  refine ⟨⟨r, h1, h2 ?_⟩, by decide⟩
  intro value hv
  have e : GetString (SetAddOnDefault NewConfiguration true) "begin".toList "flag".toList
      = .error (sectionNotFound "begin".toList) := by decide
  rw [e] at hv
  cases hv

/-! ## C16: the list of section names and the section with the empty name -/

/-- C16, at the failing input.  On the fresh store after `AddSection("")`, and
on the configuration read from the document `[]`, `a=1`, `GetSectionNames`
returns `_default` followed by an empty string: the list has length 2, one
more than the number of sections with a name that is not empty, and it
contains the empty string. -/
theorem GetSectionNames_empty_name :
    GetSectionNames (AddSection NewConfiguration []).1 = ["_default".toList, []] ∧
    NewConfigurationFromIniString "[]\na=1".toList = .ok (parsed "[]\na=1".toList) ∧
    GetSectionNames (parsed "[]\na=1".toList) = ["_default".toList, []] := by
  decide

/-- When no section has the empty name, `GetSectionNames` is the list of the
section names. -/
theorem GetSectionNames_of_named (config : Configuration)
    (h : [] ∉ sectionKeys config) : GetSectionNames config = sectionKeys config := by
  rw [GetSectionNames_eq]
  have : (sectionKeys config).filter isNamed = sectionKeys config := by
    rw [List.filter_eq_self]
    intro a ha
    have : a ≠ [] := fun e => h (e ▸ ha)
    simpa [isNamed] using this
  rw [this]
  simp

/-! ## C18: the existence predicates and untrimmed names -/

/-- C18, at the failing input.  On the fresh store after `AddSection(" TEST ")`
the section is found by `GetSection(" TEST ")` and `IsSection(" TEST ")` is
false; after `SetString(" s ", "o", "v")`, with `o` its own conformed form,
`IsOption(" s ", "o")` is false: `IsSection` and `IsOption` look the section
name up as given, while `AddSection`, `GetSection` and `SetString` trim it. -/
theorem IsSection_untrimmed :
    (GetSection (AddSection NewConfiguration " TEST ".toList).1 " TEST ".toList).isSome = true ∧
    IsSection (AddSection NewConfiguration " TEST ".toList).1 " TEST ".toList = false ∧
    conformOption "o".toList = some "o".toList ∧
    (SetString NewConfiguration " s ".toList "o".toList "v".toList).map
      (fun config => (IsSection config " s ".toList, IsOption config " s ".toList "o".toList))
      = some (false, false) := by
  decide

/-- For a name that is its own trimmed form, `IsSection` gives the found-flag
of `GetSection`. -/
theorem IsSection_of_trimmed (config : Configuration) (n : GoString)
    (h : TrimSpace n = n) : IsSection config n = (GetSection config n).isSome := by
  simp [IsSection, GetSection, conformSectionName, h]

/-! ## C20: the cache check at equal modification times -/

/-- C20, at the failing input.  Both stats succeed, the cache file is not
empty and the two modification times are equal: `isCacheFileNewer` returns
false, while the comment of the function says "newer or equal". -/
theorem isCacheFileNewer_equal_times :
    isCacheFileNewer (some { Size := 10, ModTime := 5 }) (some { Size := 1, ModTime := 5 })
      = false := by
  decide

/-- What `isCacheFileNewer` decides: true exactly when both stats succeed, the
cache file is not empty and it was modified strictly after the source file. -/
theorem isCacheFileNewer_iff (fileStat cacheStat : Option FileInfo) :
    isCacheFileNewer fileStat cacheStat = true ↔
      ∃ fileInfo cacheInfo, fileStat = some fileInfo ∧ cacheStat = some cacheInfo ∧
        cacheInfo.Size ≠ 0 ∧ fileInfo.ModTime < cacheInfo.ModTime := by
  unfold isCacheFileNewer
  cases fileStat with
  | none => simp
  | some f =>
    cases cacheStat with
    | none => simp
    | some c =>
      by_cases hs : c.Size = 0
      · simp [hs]
      · simp [hs]

/-! ## Counting sections -/

theorem length_mapSet {β : Type} (m : List (GoString × β)) (k : GoString) (v : β) :
    (mapSet m k v).length = if k ∈ m.map Prod.fst then m.length else m.length + 1 := by
  have h1 : (mapSet m k v).length = ((mapSet m k v).map Prod.fst).length := by simp
  have h2 : m.length = (m.map Prod.fst).length := by simp
  by_cases h : k ∈ m.map Prod.fst
  · rw [if_pos h, h1, keys_mapSet_of_mem m k v h, ← h2]
  · rw [if_neg h, h1, keys_mapSet_of_not_mem m k v h, List.length_append, ← h2]
    rfl

theorem length_mapDelete {β : Type} (m : List (GoString × β)) (k : GoString)
    (hnd : (m.map Prod.fst).Nodup) (hk : k ∈ m.map Prod.fst) :
    (mapDelete m k).length + 1 = m.length := by
  have h1 : (mapDelete m k).length = ((mapDelete m k).map Prod.fst).length := by simp
  have h2 : m.length = (m.map Prod.fst).length := by simp
  rw [h1, keys_mapDelete, h2]
  have he : (m.map Prod.fst).filter (fun x => decide (x ≠ k)) = (m.map Prod.fst).erase k := by
    rw [List.Nodup.erase_eq_filter hnd]
    congr 1
    funext x
    by_cases hx : x = k <;> simp [hx]
  rw [he, List.length_erase_of_mem hk]
  have : 0 < (m.map Prod.fst).length := List.length_pos_of_mem hk
  omega

theorem AddSection_Sections (config : Configuration) (s : GoString) :
    (AddSection config s).1.Sections =
      if (GetSection config s).isSome = true then config.Sections else config.Sections + 1 := by
  unfold AddSection GetSection
  cases h : mapGet config.ConfigMap (conformSectionName s) <;> simp [h]

theorem AddSection_length (config : Configuration) (s : GoString) :
    (AddSection config s).1.ConfigMap.length =
      if (GetSection config s).isSome = true then config.ConfigMap.length
      else config.ConfigMap.length + 1 := by
  unfold AddSection GetSection
  cases h : mapGet config.ConfigMap (conformSectionName s) with
  | some mm => simp [h]
  | none =>
    have hk := (mapGet_eq_none_iff _ _).mp h
    simp [h, length_mapSet, hk]

theorem putSection_Sections (config : Configuration) (s : GoString) (mm : ConfigOption) :
    (putSection config s mm).Sections = config.Sections := rfl

theorem putSection_length (config : Configuration) (s : GoString) (mm : ConfigOption)
    (h : (GetSection config s).isSome = true) :
    (putSection config s mm).ConfigMap.length = config.ConfigMap.length := by
  unfold putSection
  unfold GetSection at h
  simp [length_mapSet, (mapGet_isSome_iff _ _).mp h]

theorem GetSection_AddSection_self (config : Configuration) (s : GoString) :
    GetSection (AddSection config s).1 s = some ((GetSection config s).getD []) := by
  unfold GetSection conformSectionName
  rw [AddSection_get, if_pos rfl]

/-! ## C14: `MergeOptions` -/

/-- C14.  For every configuration and names `target`, `source`, after
`MergeOptions(target, source)`: the section `trim(target)` exists; if the
section `trim(source)` existed, the target holds its previous options
overridden by those of the source (the source wins where both hold an option)
and the source holds what it held; if the source was absent the target's
options are unchanged (none if it has just been created); every section other
than the target is unchanged; and the section count, like the number of
sections, grows by one exactly when the target did not exist before. -/
theorem MergeOptions_contract (config : Configuration) (t s : GoString) :
    (GetSection (MergeOptions config t s) t).isSome = true ∧
    (∀ ss, GetSection config s = some ss → ∀ o,
      held (MergeOptions config t s) (TrimSpace t) o =
        (match mapGet ss o with
          | some v => some v
          | none => held config (TrimSpace t) o) ∧
      held (MergeOptions config t s) (TrimSpace s) o = mapGet ss o) ∧
    (GetSection config s = none →
      GetSection (MergeOptions config t s) t = some ((GetSection config t).getD [])) ∧
    (∀ n, n ≠ TrimSpace t →
      mapGet (MergeOptions config t s).ConfigMap n = mapGet config.ConfigMap n) ∧
    (MergeOptions config t s).Sections =
      (if (GetSection config t).isSome = true then config.Sections
        else config.Sections + 1) ∧
    (MergeOptions config t s).ConfigMap.length =
      (if (GetSection config t).isSome = true then config.ConfigMap.length
        else config.ConfigMap.length + 1) := by
  have hexists : (GetSection (AddSection config t).1 t).isSome = true := by
    rw [GetSection_AddSection_self]
    rfl
  refine ⟨?_, ?_, ?_, ?_, ?_, ?_⟩
  · exact MergeOptions_isSome config t s
  · intro ss hss o
    have hsrc : held config (TrimSpace s) o = mapGet ss o := by
      unfold GetSection conformSectionName at hss
      simp [held, hss]
    have h1 : held (MergeOptions config t s) (TrimSpace t) o =
        (match mapGet ss o with
          | some v => some v
          | none => held config (TrimSpace t) o) := by
      rw [held_MergeOptions, if_pos rfl, hsrc]
    refine ⟨h1, ?_⟩
    by_cases hts : TrimSpace t = TrimSpace s
    · rw [← hts, h1]
      rw [← hts] at hsrc
      rw [hsrc]
      cases mapGet ss o <;> rfl
    · rw [held_MergeOptions, if_neg hts, hsrc]
  · intro hs
    unfold MergeOptions
    simp only
    by_cases hts : TrimSpace t = TrimSpace s
    · have habs : GetSection config t = none := by
        unfold GetSection conformSectionName at hs ⊢
        rw [hts]
        exact hs
      have hsrc : GetSection (AddSection config t).1 s = some [] := by
        have := GetSection_AddSection_self config t
        unfold GetSection conformSectionName at this ⊢
        rw [← hts, this]
        unfold GetSection conformSectionName at habs
        rw [habs]
        rfl
      rw [hsrc]
      simp only [List.foldr_nil]
      unfold GetSection conformSectionName
      rw [putSection_get, if_pos rfl, AddSection_snd]
    · have hsrc : GetSection (AddSection config t).1 s = none := by
        unfold GetSection conformSectionName at hs ⊢
        rw [AddSection_get, if_neg hts]
        exact hs
      rw [hsrc]
      exact GetSection_AddSection_self config t
  · intro n hn
    exact MergeOptions_get_ne config t s n (fun e => hn e.symm)
  · unfold MergeOptions
    simp only
    cases GetSection (AddSection config t).1 s with
    | none => exact AddSection_Sections config t
    | some ss =>
      rw [putSection_Sections]
      exact AddSection_Sections config t
  · unfold MergeOptions
    simp only
    cases GetSection (AddSection config t).1 s with
    | none => exact AddSection_length config t
    | some ss =>
      rw [putSection_length _ _ _ hexists]
      exact AddSection_length config t

/-- An instance, from the test suite: merging `one` into the new section
`three` of `testdata_cascade`. -/
theorem MergeOptions_contract_witness :
    GetString (MergeOptions (parsed testdata_cascade) " fresh ".toList "one".toList)
      "fresh".toList "a".toList = .ok "1".toList ∧
    (MergeOptions (parsed testdata_cascade) " fresh ".toList "one".toList).Sections = 5 := by
  have h := MergeOptions_contract (parsed testdata_cascade) " fresh ".toList "one".toList
  refine ⟨?_, ?_⟩
  · have h2 := (h.2.1 [("a".toList, "1".toList), ("b".toList, "2".toList)] (by decide)
      "a".toList).1
    rw [GetString_ok_iff]
    have e : TrimSpace "fresh".toList = TrimSpace " fresh ".toList := by decide
    rw [e, h2]
    decide
  · rw [h.2.2.2.2.1]
    decide

/-! ## C15: `DeleteSection` -/

/-- C15.  For every configuration whose keys are distinct (as in every Go map)
and whose section count equals the number of sections, and every name `n`: if
the section `trim(n)` exists, then after `DeleteSection(n)` the list returned
by `GetSectionNames` does not contain that name, the section count has
decreased by exactly one and still equals the number of sections, and every
other section is unchanged; if no section `trim(n)` exists the configuration
is unchanged.  `NewConfiguration`, `AddSection("TEST")`, `DeleteSection("TEST")`
leaves exactly the list `_default`. -/
theorem DeleteSection_contract (config : Configuration) (n : GoString)
    (hkeys : distinctKeys config)
    (hcount : config.Sections = config.ConfigMap.length) :
    ((GetSection config n).isSome = true →
      TrimSpace n ∉ GetSectionNames (DeleteSection config n) ∧
      (DeleteSection config n).Sections = config.Sections - 1 ∧
      (DeleteSection config n).Sections = (DeleteSection config n).ConfigMap.length ∧
      ∀ m, m ≠ TrimSpace n →
        mapGet (DeleteSection config n).ConfigMap m = mapGet config.ConfigMap m) ∧
    (GetSection config n = none → DeleteSection config n = config) ∧
    GetSectionNames (DeleteSection (AddSection NewConfiguration "TEST".toList).1 "TEST".toList)
      = ["_default".toList] := by
  refine ⟨?_, ?_, by decide⟩
  · intro hex
    obtain ⟨mm, hmm⟩ := Option.isSome_iff_exists.mp hex
    unfold GetSection conformSectionName at hmm
    have hdel : DeleteSection config n =
        { config with ConfigMap := mapDelete config.ConfigMap (TrimSpace n),
                      Sections := config.Sections - 1 } := by
      simp [DeleteSection, conformSectionName, hmm]
    have hk : TrimSpace n ∈ config.ConfigMap.map Prod.fst := by
      apply (mapGet_isSome_iff _ _).mp
      rw [hmm]
      rfl
    have hlen := length_mapDelete config.ConfigMap (TrimSpace n) hkeys hk
    rw [hdel]
    refine ⟨?_, rfl, ?_, ?_⟩
    · rw [mem_GetSectionNames]
      simp only [sectionKeys, keys_mapDelete, List.mem_filter, ne_eq, not_true_eq_false,
        decide_False, Bool.false_eq_true, and_false, not_false_eq_true]
    · simp only
      rw [hcount]
      omega
    · intro m hm
      simp only
      rw [mapGet_mapDelete, if_neg (fun e => hm e.symm)]
  · intro hno
    unfold GetSection conformSectionName at hno
    simp [DeleteSection, conformSectionName, hno]

/-- An instance: deleting `middle` from the configuration read from
`testdata_set1`. -/
theorem DeleteSection_contract_witness :
    distinctKeys (parsed testdata_set1) ∧
    (parsed testdata_set1).Sections = (parsed testdata_set1).ConfigMap.length ∧
    "middle".toList ∉ GetSectionNames (DeleteSection (parsed testdata_set1) " middle".toList) ∧
    (DeleteSection (parsed testdata_set1) " middle".toList).Sections = 3 := by
  have hk : distinctKeys (parsed testdata_set1) := by
    unfold distinctKeys
    decide
  have hc : (parsed testdata_set1).Sections = (parsed testdata_set1).ConfigMap.length := by
    decide
  obtain ⟨h1, h2, _, _⟩ :=
    (DeleteSection_contract (parsed testdata_set1) " middle".toList hk hc).1 (by decide)
  refine ⟨hk, hc, ?_, ?_⟩
  · have e : TrimSpace " middle".toList = "middle".toList := by decide
    rw [e] at h1
    exact h1
  · rw [h2]
    decide

/-! ## Decimal digits: `FormatInt` and `ParseInt` -/

theorem formatBits_small (u : Nat) (h : u < 10) : formatBits u u [] = [digitChar u] := by
  cases u with
  | zero => rfl
  | succ k => simp [formatBits, h]

theorem formatBits_fuel (u : Nat) : ∀ fuel acc, u ≤ fuel →
    formatBits fuel u acc = formatBits u u [] ++ acc := by
  induction u using Nat.strong_induction_on with
  | _ u ih =>
    intro fuel acc hf
    by_cases hu : u < 10
    · rw [formatBits_small u hu]
      cases fuel with
      | zero =>
        have : u = 0 := by omega
        subst this
        rfl
      | succ f => simp [formatBits, hu]
    · have hpos : 0 < u := by omega
      obtain ⟨f, rfl⟩ : ∃ f, fuel = f + 1 := ⟨fuel - 1, by omega⟩
      obtain ⟨k, hk⟩ : ∃ k, u = k + 1 := ⟨u - 1, by omega⟩
      have hdiv : u / 10 < u := Nat.div_lt_self hpos (by omega)
      have h1 : formatBits (f + 1) u acc
          = formatBits f (u / 10) (digitChar (u % 10) :: acc) := by
        simp [formatBits, hu]
      have h2 : formatBits u u [] = formatBits k (u / 10) [digitChar (u % 10)] := by
        conv_lhs => rw [hk]
        simp only [formatBits]
        rw [← hk]
        simp [hu]
      rw [h1, h2, ih (u / 10) hdiv f _ (by omega), ih (u / 10) hdiv k _ (by omega)]
      simp

theorem formatBits_step (u : Nat) (h : 10 ≤ u) :
    formatBits u u [] = formatBits (u / 10) (u / 10) [] ++ [digitChar (u % 10)] := by
  obtain ⟨k, hk⟩ : ∃ k, u = k + 1 := ⟨u - 1, by omega⟩
  have hu : ¬ u < 10 := by omega
  have h2 : formatBits u u [] = formatBits k (u / 10) [digitChar (u % 10)] := by
    conv_lhs => rw [hk]
    simp only [formatBits]
    rw [← hk]
    simp [hu]
  rw [h2, formatBits_fuel (u / 10) k _ (by omega)]

theorem digitChar_facts (d : Nat) (h : d < 10) :
    digitValue (digitChar d) = some d ∧ digitChar d ≠ '_' ∧ digitChar d ≠ '+' ∧
      digitChar d ≠ '-' ∧ isSpace (digitChar d) = false ∧ digitChar d ≠ squote ∧
      digitChar d ≠ dquote ∧ (digitChar d = '0' ↔ d = 0) := by
  interval_cases d <;> decide

theorem parseUintLoop_append (base : Nat) (xs ys : List Char) (n : Nat) (us : Bool) :
    parseUintLoop base (xs ++ ys) n us =
      match parseUintLoop base xs n us with
      | .ok r => parseUintLoop base ys r.1 r.2
      | .error e => .error e := by
  induction xs generalizing n us with
  | nil => simp [parseUintLoop]
  | cons c cs ih =>
    simp only [List.cons_append, parseUintLoop]
    by_cases hc : c = '_'
    · simp only [hc, if_true]
      exact ih n true
    · simp only [hc, if_false]
      cases digitValue c with
      | none => rfl
      | some d =>
        simp only
        split
        · rfl
        · split
          · rfl
          · split
            · rfl
            · exact ih _ us

theorem parseUintLoop_digit (n d : Nat) (hd : d < 10) (hn : n * 10 + d < 2 ^ 64) :
    parseUintLoop 10 [digitChar d] n false = .ok (n * 10 + d, false) := by
  obtain ⟨hv, hu, _⟩ := digitChar_facts d hd
  have h1 : ¬ d ≥ 10 := by omega
  have h2 : ¬ n ≥ maxUint64 / 10 + 1 := by
    unfold maxUint64
    omega
  have h3 : n * 10 % 2 ^ 64 = n * 10 := Nat.mod_eq_of_lt (by omega)
  have h4 : (n * 10 + d) % 2 ^ 64 = n * 10 + d := Nat.mod_eq_of_lt hn
  have h5 : ¬ (n * 10 + d < n * 10 ∨ n * 10 + d > maxUint64) := by
    unfold maxUint64
    omega
  simp only [parseUintLoop, hu, if_false, hv, h1, h2, h3, h4, h5]

theorem parseUintLoop_formatBits (u : Nat) : u < 2 ^ 64 →
    parseUintLoop 10 (formatBits u u []) 0 false = .ok (u, false) := by
  induction u using Nat.strong_induction_on with
  | _ u ih =>
    intro hu
    by_cases hs : u < 10
    · rw [formatBits_small u hs]
      have := parseUintLoop_digit 0 u hs (by omega)
      simpa using this
    · have hpos : 0 < u := by omega
      have hdiv : u / 10 < u := Nat.div_lt_self hpos (by omega)
      rw [formatBits_step u (by omega), parseUintLoop_append, ih (u / 10) hdiv (by omega)]
      simp only
      have := parseUintLoop_digit (u / 10) (u % 10) (Nat.mod_lt _ (by omega)) (by omega)
      rw [this]
      congr 2
      omega

theorem formatBits_head (u : Nat) : 1 ≤ u →
    ∃ d r, formatBits u u [] = digitChar d :: r ∧ 1 ≤ d ∧ d < 10 := by
  induction u using Nat.strong_induction_on with
  | _ u ih =>
    intro hu
    by_cases hs : u < 10
    · exact ⟨u, [], formatBits_small u hs, hu, hs⟩
    · have hdiv : u / 10 < u := Nat.div_lt_self (by omega) (by omega)
      obtain ⟨d, r, hr, h1, h2⟩ := ih (u / 10) hdiv (by omega)
      refine ⟨d, r ++ [digitChar (u % 10)], ?_, h1, h2⟩
      rw [formatBits_step u (by omega), hr]
      rfl

theorem formatBits_digits (u : Nat) :
    ∀ c ∈ formatBits u u [], ∃ d, d < 10 ∧ c = digitChar d := by
  induction u using Nat.strong_induction_on with
  | _ u ih =>
    intro c hc
    by_cases hs : u < 10
    · rw [formatBits_small u hs] at hc
      exact ⟨u, hs, List.mem_singleton.mp hc⟩
    · have hdiv : u / 10 < u := Nat.div_lt_self (by omega) (by omega)
      rw [formatBits_step u (by omega), List.mem_append] at hc
      rcases hc with hc | hc
      · exact ih (u / 10) hdiv c hc
      · exact ⟨u % 10, Nat.mod_lt _ (by omega), List.mem_singleton.mp hc⟩

theorem ParseUint_formatBits (u : Nat) (hu : u < 2 ^ 64) :
    ParseUint (formatBits u u []) = (u, none) := by
  by_cases h0 : u = 0
  · subst h0
    decide
  · obtain ⟨d, r, hr, h1, h2⟩ := formatBits_head u (by omega)
    have hloop := parseUintLoop_formatBits u hu
    rw [hr] at hloop
    have hne : digitChar d ≠ '0' := fun e => by
      have := ((digitChar_facts d h2).2.2.2.2.2.2.2).mp e
      omega
    rw [hr]
    simp only [ParseUint, hne, if_false, hloop]
    simp

theorem toInt64_of_range (x : Int) (h1 : -(2 ^ 63) ≤ x) (h2 : x < 2 ^ 63) : toInt64 x = x := by
  unfold toInt64
  omega

/-- Formatting an `int64` in base 10 and parsing the result with base 0 and bit
size 64 gives the number back, without error. -/
theorem ParseInt_FormatInt (n : Int) (h1 : -(2 ^ 63) ≤ n) (h2 : n < 2 ^ 63) :
    ParseInt (FormatInt n) = (n, none) := by
  unfold FormatInt
  by_cases hneg : n < 0
  · rw [if_pos hneg]
    have hu : n.natAbs < 2 ^ 64 := by omega
    have hp := ParseUint_formatBits n.natAbs hu
    simp only [ParseInt, decide_True, or_true, if_true, hp]
    have hle : ¬ (n.natAbs > 2 ^ 63) := by omega
    simp only [hle, and_false, if_false, Bool.true_eq_false, false_and]
    have hab : (n.natAbs : Int) = -n := by omega
    have e : toInt64 (-toInt64 (n.natAbs : Int)) = n := by
      rw [hab]
      unfold toInt64
      omega
    rw [e]
  · rw [if_neg hneg]
    have hu : n.natAbs < 2 ^ 64 := by omega
    have hp := ParseUint_formatBits n.natAbs hu
    have hnon : formatBits n.natAbs n.natAbs [] ≠ [] := by
      by_cases h0 : n.natAbs < 10
      · rw [formatBits_small _ h0]; simp
      · rw [formatBits_step _ (by omega)]; simp
    obtain ⟨c0, rest, hs⟩ := List.exists_cons_of_ne_nil hnon
    obtain ⟨d, hd, hcd⟩ := formatBits_digits n.natAbs c0 (by rw [hs]; exact List.mem_cons_self _ _)
    obtain ⟨_, _, hplus, hminus, _⟩ := digitChar_facts d hd
    rw [← hcd] at hplus hminus
    rw [hs] at hp ⊢
    simp only [ParseInt, hplus, hminus, or_self, if_false, decide_False, hp]
    have hlt : ¬ ((n.natAbs : Nat) ≥ 2 ^ 63) := by omega
    simp only [hlt, and_false, if_false, Bool.false_eq_true, false_and]
    have hab : (n.natAbs : Int) = n := by omega
    have e : toInt64 (n.natAbs : Int) = n := by
      rw [hab]
      unfold toInt64
      omega
    rw [e]

/-! ## Conforming a formatted number -/

theorem TrimSpace_of_no_space (s : GoString) (h : ∀ c ∈ s, isSpace c = false) :
    TrimSpace s = s := by
  rw [TrimSpace_eq]
  have h1 : s.dropWhile isSpace = s := by
    cases s with
    | nil => rfl
    | cons a r =>
      exact List.dropWhile_cons_of_neg (by simp [h a (List.mem_cons_self _ _)])
  rw [h1, List.rdropWhile_eq_self_iff]
  intro hne
  simp [h _ (List.getLast_mem hne)]

theorem conformOption_plain (s : GoString) (h : ∀ c ∈ s, isSpace c = false)
    (hq : ∀ c ∈ s.head?, c ≠ squote ∧ c ≠ dquote) : conformOption s = some s := by
  unfold conformOption
  simp only [TrimSpace_of_no_space s h]
  cases s with
  | nil => rfl
  | cons a r =>
    have := hq a (by simp)
    simp [slice_zero_one, this.1, this.2]

theorem FormatInt_chars (n : Int) :
    ∀ c ∈ FormatInt n, isSpace c = false ∧ c ≠ squote ∧ c ≠ dquote := by
  have hd : ∀ u c, c ∈ formatBits u u [] → isSpace c = false ∧ c ≠ squote ∧ c ≠ dquote := by
    intro u c hc
    obtain ⟨d, hd, rfl⟩ := formatBits_digits u c hc
    obtain ⟨_, _, _, _, h5, h6, h7, _⟩ := digitChar_facts d hd
    exact ⟨h5, h6, h7⟩
  intro c hc
  unfold FormatInt at hc
  by_cases hneg : n < 0
  · rw [if_pos hneg, List.mem_cons] at hc
    rcases hc with rfl | hc
    · decide
    · exact hd _ c hc
  · rw [if_neg hneg] at hc
    exact hd _ c hc

/-- A formatted number is its own conformed form. -/
theorem conformOption_FormatInt (n : Int) : conformOption (FormatInt n) = some (FormatInt n) := by
  apply conformOption_plain
  · intro c hc
    exact (FormatInt_chars n c hc).1
  · intro c hc
    have hm : c ∈ FormatInt n := List.mem_of_mem_head? hc
    exact (FormatInt_chars n c hm).2

/-! ## `GetStringWithDefault` on a miss -/

theorem GetStringWithDefault_of_fail (config : Configuration) (s o d : GoString)
    (hfail : ∀ value, GetString config s o ≠ .ok value) :
    GetStringWithDefault config s o d =
      match SetString config "_default".toList s o with
      | none => none
      | some config =>
        if config.OnDefaultAddToSection then
          match SetString config s o d with
          | none => none
          | some config => some (d, config)
        else some (d, config) := by
  unfold GetStringWithDefault
  cases h : GetString config s o with
  | ok value => exact absurd h (hfail value)
  | error msg => rfl
  | panic => rfl

/-- On a miss with `OnDefaultAddToSection` set, the default is written to the
section under the conformed option name, conformed. -/
theorem GetStringWithDefault_materialised (config : Configuration) (s o d cs co cd : GoString)
    (hflag : config.OnDefaultAddToSection = true)
    (hfail : ∀ value, GetString config s o ≠ .ok value)
    (hs : conformOption s = some cs) (ho : conformOption o = some co)
    (hd : conformOption d = some cd) :
    ∃ config', GetStringWithDefault config s o d = some (d, config') ∧
      GetString config' s co = .ok cd := by
  have h1 := SetString_eq config "_default".toList s o cs co hs ho
  have hflag1 := flag_SetString config _ _ _ _ h1
  have h2 := SetString_eq
    (putSection (AddSection config "_default".toList).1 "_default".toList
      (mapSet (AddSection config "_default".toList).2 cs co)) s o d co cd ho hd
  have hheld := held_SetString _ _ s o d co cd ho hd h2 (TrimSpace s) co
  rw [GetStringWithDefault_of_fail config s o d hfail, h1]
  simp only [hflag1, hflag, if_true, h2]
  refine ⟨_, rfl, ?_⟩
  rw [GetString_ok_iff, hheld]
  simp

/-- On a miss, with names that can be conformed, `GetStringWithDefault` returns
the default. -/
theorem GetStringWithDefault_returns (config : Configuration) (s o d cs co cd : GoString)
    (hfail : ∀ value, GetString config s o ≠ .ok value)
    (hs : conformOption s = some cs) (ho : conformOption o = some co)
    (hd : conformOption d = some cd) :
    ∃ config', GetStringWithDefault config s o d = some (d, config') := by
  rw [GetStringWithDefault_of_fail config s o d hfail,
    SetString_eq config "_default".toList s o cs co hs ho]
  simp only
  by_cases hf : (putSection (AddSection config "_default".toList).1 "_default".toList
      (mapSet (AddSection config "_default".toList).2 cs co)).OnDefaultAddToSection = true
  · rw [if_pos hf, SetString_eq _ s o d co cd ho hd]
    exact ⟨_, rfl⟩
  · rw [if_neg hf]
    exact ⟨_, rfl⟩

/-- On a miss, with names that can be conformed, `GetIntWithDefault` returns
the default and no error. -/
theorem GetIntWithDefault_roundtrip (config : Configuration) (s o cs co : GoString) (n : Int)
    (h1 : -(2 ^ 63) ≤ n) (h2 : n < 2 ^ 63)
    (hfail : ∀ value, GetString config s o ≠ .ok value)
    (hs : conformOption s = some cs) (ho : conformOption o = some co) :
    ∃ config', GetIntWithDefault config s o n = some ((n, none), config') := by
  obtain ⟨config', h⟩ := GetStringWithDefault_returns config s o (FormatInt n) cs co
    (FormatInt n) hfail hs ho (conformOption_FormatInt n)
  refine ⟨config', ?_⟩
  unfold GetIntWithDefault
  simp only [h, ParseInt_FormatInt n h1 h2]

/-! ## C11 and C12: defaults written to the section -/

/-- C11, as stated, fails: on the fresh store with `OnDefaultAddToSection`
set, `GetString("end", " nota")` fails, and after
`GetStringWithDefault("end", " nota", "22")` it still fails, the default having
been written under the conformed name `nota`; and after
`GetStringWithDefault("end", "nota", " 22")` the call `GetString("end",
"nota")` returns `22`, the conformed default, and not the default ` 22`. -/
theorem default_written_conformed :
    GetString (SetAddOnDefault NewConfiguration true) "end".toList " nota".toList
      = .error (sectionNotFound "end".toList) ∧
    (GetStringWithDefault (SetAddOnDefault NewConfiguration true) "end".toList " nota".toList
        "22".toList).map (fun r => (r.1, GetString r.2 "end".toList " nota".toList))
      = some ("22".toList, .error (optionNotFound " nota".toList)) ∧
    (GetStringWithDefault (SetAddOnDefault NewConfiguration true) "end".toList "nota".toList
        " 22".toList).map (fun r => (r.1, GetString r.2 "end".toList "nota".toList))
      = some (" 22".toList, .ok "22".toList) ∧
    "22".toList ≠ " 22".toList := by
  decide

/-- C11, amended.  With `OnDefaultAddToSection` set, for every configuration
and every `s`, `o`, `d` such that `GetString(s, o)` fails, where
`conformOption` returns `cs` for `s`, `co` for `o` and `cd` for `d`:
`GetStringWithDefault(s, o, d)` returns `d` and afterwards `GetString(s, co)`
succeeds and returns `cd`; and for every signed 64-bit `n`,
`GetIntWithDefault(s, o, n)` returns `n` without error and afterwards
`GetString(s, co)` succeeds and returns `FormatInt(n)`, the decimal string of
`n`.  When `o` and `d` are their own conformed forms this is the claim. -/
theorem default_materialisation (config : Configuration) (s o d cs co cd : GoString) (n : Int)
    (hflag : config.OnDefaultAddToSection = true)
    (hfail : ∀ value, GetString config s o ≠ .ok value)
    (hs : conformOption s = some cs) (ho : conformOption o = some co)
    (hd : conformOption d = some cd)
    (h1 : -(2 ^ 63) ≤ n) (h2 : n < 2 ^ 63) :
    (∃ config', GetStringWithDefault config s o d = some (d, config') ∧
      GetString config' s co = .ok cd) ∧
    (∃ config', GetIntWithDefault config s o n = some ((n, none), config') ∧
      GetString config' s co = .ok (FormatInt n)) := by
  refine ⟨GetStringWithDefault_materialised config s o d cs co cd hflag hfail hs ho hd, ?_⟩
  obtain ⟨config', h, hget⟩ := GetStringWithDefault_materialised config s o (FormatInt n) cs co
    (FormatInt n) hflag hfail hs ho (conformOption_FormatInt n)
  refine ⟨config', ?_, hget⟩
  unfold GetIntWithDefault
  simp only [h, ParseInt_FormatInt n h1 h2]

/-- An instance, the one of the test suite: on `testdata_set1` with
`OnDefaultAddToSection` set, `GetIntWithDefault("end", "nota", 22)` makes
`GetString("end", "nota")` return `22`. -/
theorem default_materialisation_witness :
    (SetAddOnDefault (parsed testdata_set1) true).OnDefaultAddToSection = true ∧
    (∀ value, GetString (SetAddOnDefault (parsed testdata_set1) true) "end".toList
      "nota".toList ≠ .ok value) ∧
    (∃ config', GetStringWithDefault (SetAddOnDefault (parsed testdata_set1) true)
        "end".toList "nota".toList "22".toList = some ("22".toList, config') ∧
      GetString config' "end".toList "nota".toList = .ok "22".toList) ∧
    (∃ config', GetIntWithDefault (SetAddOnDefault (parsed testdata_set1) true)
        "end".toList "nota".toList 22 = some ((22, none), config') ∧
      GetString config' "end".toList "nota".toList = .ok (FormatInt 22)) :=
  have hfail : ∀ value, GetString (SetAddOnDefault (parsed testdata_set1) true) "end".toList
      "nota".toList ≠ .ok value := by
    intro value h
    have e : GetString (SetAddOnDefault (parsed testdata_set1) true) "end".toList
        "nota".toList = .error (optionNotFound "nota".toList) := by decide
    rw [e] at h
    cases h
  ⟨rfl, hfail, default_materialisation (SetAddOnDefault (parsed testdata_set1) true)
    "end".toList "nota".toList "22".toList "end".toList "nota".toList "22".toList 22
    rfl hfail (by decide) (by decide) (by decide) (by decide) (by decide)⟩

/-- C12, at the failing input.  On the fresh store `GetIntWithDefault(s, "x",
22)` with `s` the one-character string made of a double quote does not return:
`GetString(s, "x")` fails (no such section), the miss is recorded with
`SetString("_default", s, "x")`, and `conformOption(s)` evaluates the slice
`option[1:0]`. -/
theorem GetIntWithDefault_lone_quote :
    GetString NewConfiguration [dquote] "x".toList = .error (sectionNotFound [dquote]) ∧
    GetIntWithDefault NewConfiguration [dquote] "x".toList 22 = none := by
  decide

/-! ## The section names an operation leaves -/

theorem mem_addName (names : List GoString) (k x : GoString) :
    x ∈ addName names k ↔ x ∈ names ∨ x = k := by
  unfold addName
  by_cases h : k ∈ names
  · rw [if_pos h]
    constructor
    · exact Or.inl
    · rintro (h1 | rfl)
      · exact h1
      · exact h
  · rw [if_neg h]
    simp

theorem nodup_addName (names : List GoString) (k : GoString) (h : names.Nodup) :
    (addName names k).Nodup := by
  unfold addName
  by_cases hk : k ∈ names
  · rw [if_pos hk]
    exact h
  · rw [if_neg hk]
    exact List.Nodup.append h (List.nodup_singleton k) (by simpa using hk)

theorem length_addName (names : List GoString) (k : GoString) :
    (addName names k).length = if k ∈ names then names.length else names.length + 1 := by
  unfold addName
  by_cases hk : k ∈ names
  · rw [if_pos hk, if_pos hk]
  · rw [if_neg hk, if_neg hk]
    simp

theorem addName_of_mem (names : List GoString) (k : GoString) (h : k ∈ names) :
    addName names k = names := by
  unfold addName
  rw [if_pos h]

theorem addName_idem (names : List GoString) (k : GoString) :
    addName (addName names k) k = addName names k :=
  addName_of_mem _ _ ((mem_addName names k k).mpr (Or.inr rfl))

theorem keys_mapSet {β : Type} (m : List (GoString × β)) (k : GoString) (v : β) :
    (mapSet m k v).map Prod.fst = addName (m.map Prod.fst) k := by
  unfold addName
  by_cases h : k ∈ m.map Prod.fst
  · rw [if_pos h, keys_mapSet_of_mem m k v h]
  · rw [if_neg h, keys_mapSet_of_not_mem m k v h]

theorem keys_AddSection (config : Configuration) (s : GoString) :
    sectionKeys (AddSection config s).1 = addName (sectionKeys config) (TrimSpace s) := by
  unfold AddSection sectionKeys conformSectionName
  cases h : mapGet config.ConfigMap (TrimSpace s) with
  | none =>
    simp only [h]
    exact keys_mapSet _ _ _
  | some mm =>
    simp only [h]
    have hk : TrimSpace s ∈ config.ConfigMap.map Prod.fst :=
      (mapGet_isSome_iff _ _).mp (by rw [h]; rfl)
    rw [addName_of_mem _ _ hk]

theorem keys_putSection (config : Configuration) (s : GoString) (mm : ConfigOption) :
    sectionKeys (putSection config s mm) = addName (sectionKeys config) (TrimSpace s) :=
  keys_mapSet _ _ _

theorem Sections_AddSection (config : Configuration) (s : GoString) :
    (AddSection config s).1.Sections =
      if TrimSpace s ∈ sectionKeys config then config.Sections else config.Sections + 1 := by
  unfold AddSection sectionKeys conformSectionName
  cases h : mapGet config.ConfigMap (TrimSpace s) with
  | none =>
    have hk : TrimSpace s ∉ config.ConfigMap.map Prod.fst := (mapGet_eq_none_iff _ _).mp h
    simp only [h]
    rw [if_neg hk]
  | some mm =>
    have hk : TrimSpace s ∈ config.ConfigMap.map Prod.fst :=
      (mapGet_isSome_iff _ _).mp (by rw [h]; rfl)
    simp only [h]
    rw [if_pos hk]

theorem keys_SetString (config config' : Configuration) (s o v : GoString)
    (h : SetString config s o v = some config') :
    sectionKeys config' = addName (sectionKeys config) (TrimSpace s) ∧
    config'.Sections = (AddSection config s).1.Sections := by
  unfold SetString at h
  cases ho : conformOption o <;> cases hv : conformOption v <;> simp [ho, hv] at h
  subst h
  rw [keys_putSection, keys_AddSection, addName_idem]
  exact ⟨rfl, rfl⟩

theorem keys_MergeOptions (config : Configuration) (t s : GoString) :
    sectionKeys (MergeOptions config t s) = addName (sectionKeys config) (TrimSpace t) ∧
    (MergeOptions config t s).Sections = (AddSection config t).1.Sections := by
  unfold MergeOptions
  simp only
  cases GetSection (AddSection config t).1 s with
  | none => exact ⟨keys_AddSection config t, rfl⟩
  | some ss =>
    simp only
    rw [keys_putSection, keys_AddSection, addName_idem]
    exact ⟨rfl, rfl⟩

theorem keys_DeleteOption (config : Configuration) (s o : GoString) :
    sectionKeys (DeleteOption config s o) = sectionKeys config := by
  unfold DeleteOption sectionKeys
  cases h : mapGet config.ConfigMap s with
  | none => rfl
  | some mm =>
    simp only
    exact keys_mapSet_of_mem _ _ _ ((mapGet_isSome_iff _ _).mp (by rw [h]; rfl))

theorem mem_keys_DeleteSection (config : Configuration) (n x : GoString)
    (hx : x ≠ TrimSpace n) (h : x ∈ sectionKeys config) :
    x ∈ sectionKeys (DeleteSection config n) := by
  unfold DeleteSection sectionKeys conformSectionName
  cases hg : mapGet config.ConfigMap (TrimSpace n) with
  | none =>
    simp only [hg]
    exact h
  | some mm =>
    simp only [hg]
    rw [keys_mapDelete, List.mem_filter]
    exact ⟨h, by simpa using hx⟩

theorem IsSection_iff (config : Configuration) (n : GoString) :
    IsSection config n = true ↔ n ∈ sectionKeys config :=
  mapGet_isSome_iff _ _

theorem keys_GetStringWithDefault (config config' : Configuration) (s o d r x : GoString)
    (h : GetStringWithDefault config s o d = some (r, config'))
    (hx : x ∈ sectionKeys config) : x ∈ sectionKeys config' := by
  unfold GetStringWithDefault at h
  have key : (match SetString config "_default".toList s o with
      | none => none
      | some config =>
        if config.OnDefaultAddToSection then
          match SetString config s o d with
          | none => none
          | some config => some (d, config)
        else some (d, config)) = some (r, config') → x ∈ sectionKeys config' := by
    intro h
    cases h1 : SetString config "_default".toList s o with
    | none => rw [h1] at h; cases h
    | some c1 =>
      rw [h1] at h
      simp only at h
      have hx1 : x ∈ sectionKeys c1 := by
        rw [(keys_SetString _ _ _ _ _ h1).1, mem_addName]
        exact Or.inl hx
      by_cases hf : c1.OnDefaultAddToSection = true
      · rw [if_pos hf] at h
        cases h2 : SetString c1 s o d with
        | none => rw [h2] at h; cases h
        | some c2 =>
          rw [h2] at h
          simp only [Option.some.injEq, Prod.mk.injEq] at h
          rw [← h.2, (keys_SetString _ _ _ _ _ h2).1, mem_addName]
          exact Or.inl hx1
      · rw [if_neg hf] at h
        simp only [Option.some.injEq, Prod.mk.injEq] at h
        rw [← h.2]
        exact hx1
  cases hg : GetString config s o with
  | ok value =>
    rw [hg] at h
    simp only [Option.some.injEq, Prod.mk.injEq] at h
    rw [← h.2]
    exact hx
  | error msg =>
    rw [hg] at h
    exact key h
  | panic =>
    rw [hg] at h
    exact key h

/-- A call that is not a `DeleteSection` of the section stored under `x`
leaves that section in place. -/
theorem keys_apply (op : Op) (config config' : Configuration) (x : GoString)
    (hop : ∀ n, op = .deleteSection n → TrimSpace n ≠ x)
    (h : op.apply config = some config') (hx : x ∈ sectionKeys config) :
    x ∈ sectionKeys config' := by
  cases op with
  | addSection n =>
    simp only [Op.apply, Option.some.injEq] at h
    rw [← h, keys_AddSection, mem_addName]
    exact Or.inl hx
  | deleteSection n =>
    simp only [Op.apply, Option.some.injEq] at h
    rw [← h]
    exact mem_keys_DeleteSection config n x (fun e => hop n rfl e.symm) hx
  | setString s o v =>
    simp only [Op.apply] at h
    rw [(keys_SetString _ _ _ _ _ h).1, mem_addName]
    exact Or.inl hx
  | deleteOption s o =>
    simp only [Op.apply, Option.some.injEq] at h
    rw [← h, keys_DeleteOption]
    exact hx
  | mergeOptions t s =>
    simp only [Op.apply, Option.some.injEq] at h
    rw [← h, (keys_MergeOptions _ _ _).1, mem_addName]
    exact Or.inl hx
  | setAddOnDefault flag =>
    simp only [Op.apply, Option.some.injEq] at h
    rw [← h]
    exact hx
  | getString s o =>
    simp only [Op.apply, Option.some.injEq] at h
    rw [← h]
    exact hx
  | getInt s o =>
    simp only [Op.apply, Option.some.injEq] at h
    rw [← h]
    exact hx
  | getBool s o =>
    simp only [Op.apply, Option.some.injEq] at h
    rw [← h]
    exact hx
  | getStringWithDefault s o d =>
    have h' : (GetStringWithDefault config s o d).map Prod.snd = some config' := h
    rw [Option.map_eq_some'] at h'
    obtain ⟨⟨r, c⟩, h1, h2⟩ := h'
    simp only at h2
    subst h2
    exact keys_GetStringWithDefault config c s o d r x h1 hx
  | getIntWithDefault s o d =>
    have h' : (GetIntWithDefault config s o d).map Prod.snd = some config' := h
    rw [Option.map_eq_some'] at h'
    obtain ⟨⟨r, c0⟩, h1, h2⟩ := h'
    simp only at h2
    subst h2
    clear h
    rename _ = some (r, _) => h
    unfold GetIntWithDefault at h
    simp only at h
    cases hg : GetStringWithDefault config s o (FormatInt d) with
    | none => rw [hg] at h; cases h
    | some p =>
      obtain ⟨mm, c⟩ := p
      rw [hg] at h
      simp only [Option.some.injEq, Prod.mk.injEq] at h
      rw [← h.2]
      exact keys_GetStringWithDefault config c s o _ mm x hg hx
  | getBoolWithDefault s o d =>
    have h' : (GetBoolWithDefault config s o d).map Prod.snd = some config' := h
    rw [Option.map_eq_some'] at h'
    obtain ⟨⟨r, c0⟩, h1, h2⟩ := h'
    simp only at h2
    subst h2
    clear h
    rename _ = some (r, _) => h
    unfold GetBoolWithDefault at h
    cases hg : GetString config s o <;> rw [hg] at h <;>
      simp only [Option.some.injEq, Prod.mk.injEq, reduceCtorEq] at h
    all_goals
      rw [← h.2]
      exact hx

theorem keys_runOps (ops : List Op) (config config' : Configuration) (x : GoString)
    (hops : ∀ n, Op.deleteSection n ∈ ops → TrimSpace n ≠ x)
    (h : runOps ops config = some config') (hx : x ∈ sectionKeys config) :
    x ∈ sectionKeys config' := by
  induction ops generalizing config with
  | nil =>
    simp only [runOps, Option.some.injEq] at h
    rw [← h]
    exact hx
  | cons op rest ih =>
    simp only [runOps] at h
    cases h1 : op.apply config with
    | none => rw [h1] at h; cases h
    | some c1 =>
      rw [h1] at h
      simp only at h
      refine ih c1 (fun n hn => hops n (List.mem_cons_of_mem _ hn)) h ?_
      exact keys_apply op config c1 x
        (fun n e => hops n (by rw [e]; exact List.mem_cons_self _ _)) h1 hx

/-! ## The sections a document creates -/

theorem counted_step (config config' : Configuration) (s : GoString)
    (hk : sectionKeys config' = addName (sectionKeys config) (TrimSpace s))
    (hs : config'.Sections = (AddSection config s).1.Sections)
    (h : sectionsCounted config) : sectionsCounted config' := by
  obtain ⟨hnd, hcount⟩ := h
  refine ⟨?_, ?_⟩
  · unfold distinctKeys
    rw [hk]
    exact nodup_addName _ _ hnd
  · rw [hs, hk, Sections_AddSection, length_addName]
    by_cases hm : TrimSpace s ∈ sectionKeys config
    · rw [if_pos hm, if_pos hm]
      exact hcount
    · rw [if_neg hm, if_neg hm, hcount]
      push_cast
      rfl

theorem cascade_keys_of_mem (tgt : GoString) (ps : List GoString) (config : Configuration)
    (hm : TrimSpace tgt ∈ sectionKeys config) :
    sectionKeys (ps.foldl (fun c p => MergeOptions c tgt (TrimSpace p)) config)
      = sectionKeys config ∧
    (ps.foldl (fun c p => MergeOptions c tgt (TrimSpace p)) config).Sections
      = config.Sections := by
  induction ps generalizing config with
  | nil => exact ⟨rfl, rfl⟩
  | cons p rest ih =>
    have h1 := keys_MergeOptions config tgt (TrimSpace p)
    rw [addName_of_mem _ _ hm, Sections_AddSection, if_pos hm] at h1
    have h2 := ih (MergeOptions config tgt (TrimSpace p)) (by rw [h1.1]; exact hm)
    rw [List.foldl_cons, h2.1, h2.2]
    exact h1

theorem cascade_keys (tgt : GoString) (ps : List GoString) (hne : ps ≠ [])
    (config : Configuration) :
    sectionKeys (ps.foldl (fun c p => MergeOptions c tgt (TrimSpace p)) config)
      = addName (sectionKeys config) (TrimSpace tgt) ∧
    (ps.foldl (fun c p => MergeOptions c tgt (TrimSpace p)) config).Sections
      = (AddSection config tgt).1.Sections := by
  cases ps with
  | nil => exact absurd rfl hne
  | cons p rest =>
    have h1 := keys_MergeOptions config tgt (TrimSpace p)
    have hm : TrimSpace tgt ∈ sectionKeys (MergeOptions config tgt (TrimSpace p)) := by
      rw [h1.1, mem_addName]
      exact Or.inr rfl
    have h2 := cascade_keys_of_mem tgt rest _ hm
    rw [List.foldl_cons, h2.1, h2.2]
    exact h1

theorem Split_tail_ne (x : GoString) (h : Contains x ':' = true) :
    ∃ rest, Split x ':' = x.takeWhile (fun c => c != ':') :: rest ∧ rest ≠ [] := by
  unfold Split List.splitOn
  induction x with
  | nil => simp [Contains] at h
  | cons a r ih =>
    rw [List.splitOnP_cons]
    by_cases ha : a = ':'
    · subst ha
      exact ⟨List.splitOnP (fun x => x == ':') r, by simp, List.splitOnP_ne_nil _ _⟩
    · have hr : Contains r ':' = true := by
        simpa [Contains, ha] using h
      obtain ⟨rest, hrest, hne⟩ := ih hr
      refine ⟨rest, ?_, hne⟩
      rw [hrest]
      have hb : (a != ':') = true := by simpa using ha
      simp [ha, List.takeWhile, hb]

theorem headerName_ignored (t : GoString) (h : isIgnoredLine t = true) :
    headerName t = none ∧ isAssignmentLine t = false := by
  unfold isIgnoredLine at h
  unfold headerName isAssignmentLine
  cases ht : TrimSpace t with
  | nil => exact ⟨rfl, rfl⟩
  | cons c r =>
    rw [ht] at h
    simp only [Bool.or_eq_true, beq_iff_eq] at h
    rcases h with h | h <;> subst h <;> simp

theorem headerName_assignment (t : GoString) (h : isAssignmentLine t = true) :
    headerName t = none := by
  unfold isAssignmentLine at h
  unfold headerName
  cases ht : TrimSpace t with
  | nil => rfl
  | cons c r =>
    rw [ht] at h
    simp only [Bool.and_eq_true, bne_iff_ne, ne_eq] at h
    simp [h.1.2]

theorem headerName_header (t body : GoString) (ht : TrimSpace t = '[' :: (body ++ [']'])) :
    headerName t = some (if Contains (TrimSpace body) ':' then
      TrimSpace ((TrimSpace body).takeWhile (fun c => c != ':')) else TrimSpace body) := by
  unfold headerName
  rw [cascadeTarget_header t body ht, ht]
  by_cases hc : Contains (TrimSpace body) ':' = true
  · simp [hc]
  · simp [hc]

/-- One line the loop survives: the section in force after it, and the
sections of the configuration after it. -/
theorem keys_processLine (st st' : LoopState) (t : GoString) (rest : List GoString)
    (h : processLine st t = .ok st')
    (hact : TrimSpace st.section_ = st.section_) (hinv : sectionsCounted st.config) :
    TrimSpace st'.section_ = st'.section_ ∧ sectionsCounted st'.config ∧
    ∃ w, sectionsWritten st.section_ (t :: rest) = w ++ sectionsWritten st'.section_ rest ∧
      ∀ x, x ∈ sectionKeys st'.config ↔ x ∈ sectionKeys st.config ∨ x ∈ w := by
  rcases line_cases st t with hi | ha | ⟨body, hb⟩ | ⟨msg, he⟩
  · rw [processLine_ignored st t hi] at h
    injection h with h
    subst h
    refine ⟨hact, hinv, [], ?_, by simp⟩
    simp [sectionsWritten, (headerName_ignored t hi).1, (headerName_ignored t hi).2]
  · rw [processLine_assignment st t ha] at h
    cases hset : SetString st.config st.section_ (keyText t) (valueText t) with
    | none => rw [hset] at h; cases h
    | some c =>
      rw [hset] at h
      injection h with h
      subst h
      have hk := keys_SetString _ _ _ _ _ hset
      refine ⟨hact, counted_step _ _ _ hk.1 hk.2 hinv, [st.section_], ?_, ?_⟩
      · simp [sectionsWritten, headerName_assignment t ha, ha]
      · intro x
        simp only
        rw [hk.1, mem_addName, hact]
        simp
  · rw [processLine_header st t body hb] at h
    by_cases hc : Contains (TrimSpace body) ':' = true
    · rw [if_pos hc] at h
      obtain ⟨ps, hps, hne⟩ := Split_tail_ne (TrimSpace body) hc
      rw [hps, cascadeLoop_zero] at h
      injection h with h
      subst h
      have hk := cascade_keys (TrimSpace (List.takeWhile (fun c => c != ':') (TrimSpace body)))
        ps hne st.config
      rw [TrimSpace_idem] at hk
      refine ⟨TrimSpace_idem _, ?_,
        [TrimSpace (List.takeWhile (fun c => c != ':') (TrimSpace body))], ?_, ?_⟩
      · refine counted_step _ _ (TrimSpace (List.takeWhile (fun c => c != ':') (TrimSpace body)))
          ?_ hk.2 hinv
        rw [TrimSpace_idem]
        exact hk.1
      · simp [sectionsWritten, headerName_header t body hb, cascadeTarget_header t body hb, hc]
      · intro x
        simp only
        rw [hk.1, mem_addName]
        simp
    · rw [if_neg hc] at h
      injection h with h
      subst h
      refine ⟨TrimSpace_idem _, hinv, [], ?_, by simp⟩
      simp [sectionsWritten, headerName_header t body hb, cascadeTarget_header t body hb, hc]
  · rw [he] at h
    cases h

/-- The lines the loop reads through: the sections of the configuration after
them are those before them and those the lines give content to. -/
theorem keys_scanLoop (lines : List GoString) (st st' : LoopState)
    (h : scanLoop lines st = .ok st')
    (hact : TrimSpace st.section_ = st.section_) (hinv : sectionsCounted st.config) :
    sectionsCounted st'.config ∧
    ∀ x, x ∈ sectionKeys st'.config ↔
      x ∈ sectionKeys st.config ∨ x ∈ sectionsWritten st.section_ lines := by
  induction lines generalizing st with
  | nil =>
    simp only [scanLoop] at h
    injection h with h
    subst h
    exact ⟨hinv, by simp [sectionsWritten]⟩
  | cons t rest ih =>
    obtain ⟨st1, h1, h2⟩ := scanLoop_cons_ok t rest st st' h
    obtain ⟨hact1, hinv1, w, hw, hmem⟩ := keys_processLine st st1 t rest h1 hact hinv
    obtain ⟨hinv', hmem'⟩ := ih st1 h2 hact1 hinv1
    refine ⟨hinv', ?_⟩
    intro x
    rw [hmem', hmem, hw, List.mem_append, or_assoc]

/-- The sections of a parsed document: `_default` and the sections the lines
read give content to, each counted once by `Sections`. -/
theorem keys_parsed (input : GoString) (config : Configuration)
    (h : NewConfigurationFromIniString input = .ok config) :
    sectionsCounted config ∧
    ∀ x, x ∈ sectionKeys config ↔
      x ∈ "_default".toList :: sectionsWritten "default".toList (scanLines input [] 0) := by
  obtain ⟨st, hst, hcfg⟩ := parse_ok input config h
  have h0 : sectionsCounted initialState.config := by
    refine ⟨?_, ?_⟩
    · unfold distinctKeys
      decide
    · decide
  obtain ⟨hinv, hmem⟩ := keys_scanLoop _ initialState st hst (by decide) h0
  subst hcfg
  refine ⟨hinv, ?_⟩
  intro x
  have e : sectionKeys { st.config with IsLoaded := true } = sectionKeys st.config := rfl
  rw [e, hmem, List.mem_cons]
  have e0 : sectionKeys initialState.config = ["_default".toList] := by decide
  rw [e0, List.mem_singleton]
  rfl

theorem length_of_counted (config : Configuration) (names : List GoString)
    (h : sectionsCounted config) (hmem : ∀ x, x ∈ sectionKeys config ↔ x ∈ names) :
    config.Sections = (names.dedup.length : Int) ∧
    (GetSectionNames config).length = names.dedup.length := by
  have hperm : (sectionKeys config).Perm names.dedup := by
    rw [List.perm_ext_iff_of_nodup h.1 (List.nodup_dedup names)]
    intro a
    rw [hmem, List.mem_dedup]
  have hlen := hperm.length_eq
  refine ⟨by rw [h.2, hlen], ?_⟩
  rw [length_GetSectionNames, ← hlen]
  unfold sectionKeys
  rw [List.length_map]

/-! ## C17: the number of sections of a parsed document -/

theorem sectionsWritten_longLineHeaderLines :
    sectionsWritten "default".toList longLineHeaderLines = ["a".toList] := by
  have h1 : headerName "[a]".toList = some "a".toList := by decide
  have h2 : cascadeTarget "[a]".toList = none := by decide
  have h3 := headerName_ignored longComment isIgnoredLine_longComment
  have h4 : headerName "x=1".toList = none := by decide
  have h5 : isAssignmentLine "x=1".toList = true := by decide
  simp only [longLineHeaderLines, sectionsWritten, h1, h2, h3.1, h3.2, h4, h5, Option.toList,
    List.nil_append, List.append_nil, if_true, Bool.false_eq_true, if_false]

/-- C17, as stated, fails.  The document `[a]` is read with success and its
one header names one section, yet the configuration has one section,
`_default`, not two: a header that no assignment follows creates nothing.  The
document `a=1` has no header and the configuration has two sections, `_default`
and `default`.  The document `[_default]`, `a=1` has one header and the
configuration has one section.  And in the document `[a]`, a comment line of
65536 bytes, `x=1` the scanner stops at the comment line: the document is
read, without error, as `[a]`, with one section, while its lines give content
to the section `a`. -/
theorem header_count_is_not_section_count :
    NewConfigurationFromIniString "[a]".toList = .ok (parsed "[a]".toList) ∧
    (headerNames (scanLines "[a]".toList [] 0)).dedup.length + 1 = 2 ∧
    (parsed "[a]".toList).Sections = 1 ∧
    GetSectionNames (parsed "[a]".toList) = ["_default".toList] ∧
    NewConfigurationFromIniString "a=1".toList = .ok (parsed "a=1".toList) ∧
    (headerNames (scanLines "a=1".toList [] 0)).dedup.length + 1 = 1 ∧
    (parsed "a=1".toList).Sections = 2 ∧
    GetSectionNames (parsed "a=1".toList) = ["_default".toList, "default".toList] ∧
    NewConfigurationFromIniString "[_default]\na=1".toList
      = .ok (parsed "[_default]\na=1".toList) ∧
    (headerNames (scanLines "[_default]\na=1".toList [] 0)).dedup.length + 1 = 2 ∧
    (parsed "[_default]\na=1".toList).Sections = 1 ∧
    GetSectionNames (parsed "[_default]\na=1".toList) = ["_default".toList] ∧
    isIgnoredLine longComment = true ∧
    scanLines (unlines longLineHeaderLines) [] 0 = ["[a]".toList] ∧
    NewConfigurationFromIniString (unlines longLineHeaderLines)
      = .ok (parsed (unlines ["[a]".toList])) ∧
    (parsed (unlines ["[a]".toList])).Sections = 1 ∧
    GetSectionNames (parsed (unlines ["[a]".toList])) = ["_default".toList] ∧
    ("_default".toList :: sectionsWritten "default".toList longLineHeaderLines).dedup.length
      = 2 := by
  have hpre : ∀ t ∈ ["[a]".toList], '\n' ∉ t ∧ byteLen t < MaxScanTokenSize := by decide
  have hlong : MaxScanTokenSize ≤ byteLen longComment := by
    rw [byteLen_longComment]
    decide
  have hlines := scanLines_truncated ["[a]".toList] ["x=1".toList] longComment hpre
    longComment_newline hlong
  have hparse := parse_truncated ["[a]".toList] ["x=1".toList] longComment
    (stateAfter ["[a]".toList]) hpre longComment_newline hlong (by decide)
  have hcfg : ({ (stateAfter ["[a]".toList]).config with IsLoaded := true } : Configuration)
      = parsed (unlines ["[a]".toList]) := by decide
  rw [hcfg] at hparse
  have hcount : ("_default".toList ::
      sectionsWritten "default".toList longLineHeaderLines).dedup.length = 2 := by
    rw [sectionsWritten_longLineHeaderLines]
    decide
  exact ⟨by decide, by decide, by decide, by decide, by decide, by decide, by decide,
    by decide, by decide, by decide, by decide, by decide, isIgnoredLine_longComment, hlines,
    hparse, by decide, by decide, hcount⟩

/-- C17, amended.  For every document that `NewConfigurationFromIniString`
parses without error, the number of sections in the resulting configuration
(its `Sections` field and the length of `GetSectionNames`) equals the number
of distinct names among `_default` and, over the lines read (the lines the
scanner yields: those before the first line of 65536 bytes or more, if there
is one), the target of every inheritance header and the section in force at
every assignment line (`default` before the first header, the name of the last
header after it); and the sections are exactly those names. -/
theorem section_count (input : GoString) (config : Configuration)
    (h : NewConfigurationFromIniString input = .ok config) :
    config.Sections =
      (("_default".toList ::
        sectionsWritten "default".toList (scanLines input [] 0)).dedup.length : Int) ∧
    (GetSectionNames config).length =
      ("_default".toList ::
        sectionsWritten "default".toList (scanLines input [] 0)).dedup.length ∧
    ∀ x, x ∈ GetSectionNames config ↔
      x ∈ "_default".toList :: sectionsWritten "default".toList (scanLines input [] 0) := by
  obtain ⟨hinv, hmem⟩ := keys_parsed input config h
  obtain ⟨h1, h2⟩ := length_of_counted config _ hinv hmem
  refine ⟨h1, h2, ?_⟩
  intro x
  rw [mem_GetSectionNames, hmem]

/-- An instance, the one of the test suite: `testdata_set1`, whose assignments
stand under the headers `begin`, `middle` and `end`, gives 4 sections. -/
theorem section_count_witness :
    NewConfigurationFromIniString testdata_set1 = .ok (parsed testdata_set1) ∧
    sectionsWritten "default".toList (scanLines testdata_set1 [] 0)
      = ["begin".toList, "begin".toList, "begin".toList, "middle".toList, "end".toList] ∧
    (parsed testdata_set1).Sections = 4 ∧
    (GetSectionNames (parsed testdata_set1)).length = 4 :=
  have hok : NewConfigurationFromIniString testdata_set1 = .ok (parsed testdata_set1) := by
    decide
  have hw : sectionsWritten "default".toList (scanLines testdata_set1 [] 0)
      = ["begin".toList, "begin".toList, "begin".toList, "middle".toList, "end".toList] := by
    decide
  have hn : ("_default".toList ::
      sectionsWritten "default".toList (scanLines testdata_set1 [] 0)).dedup.length = 4 := by
    decide
  ⟨hok, hw,
    by rw [(section_count testdata_set1 (parsed testdata_set1) hok).1, hn]; rfl,
    by rw [(section_count testdata_set1 (parsed testdata_set1) hok).2.1, hn]⟩

/-! ## C19: the section `_default` -/

/-- C19, as stated, fails: `DeleteSection("_default")` on the fresh store, and
on the configuration read from `testdata_set1`, leaves a configuration with no
section `_default`. -/
theorem DeleteSection_removes_default :
    (runOps [.deleteSection "_default".toList] NewConfiguration).map
      (fun config => (IsSection config "_default".toList, GetSectionNames config))
      = some (false, []) ∧
    NewConfigurationFromIniString testdata_set1 = .ok (parsed testdata_set1) ∧
    (runOps [.deleteSection "_default".toList] (parsed testdata_set1)).map
      (fun config => (IsSection config "_default".toList, GetSectionNames config))
      = some (false, ["begin".toList, "middle".toList, "end".toList]) := by
  decide

/-- C19, amended.  In every configuration reached from `NewConfiguration` (or
from a successful `NewConfigurationFromIniString`) by a sequence of calls of
`AddSection`, `DeleteSection`, `SetString`, `DeleteOption`, `MergeOptions`,
`SetAddOnDefault` and the typed accessors in which no `DeleteSection` is given
a name that trims to `_default`, a section named `_default` is present. -/
theorem default_section_present (input : GoString) (start config : Configuration)
    (ops : List Op)
    (hstart : start = NewConfiguration ∨ NewConfigurationFromIniString input = .ok start)
    (hops : ∀ n, Op.deleteSection n ∈ ops → TrimSpace n ≠ "_default".toList)
    (hrun : runOps ops start = some config) :
    IsSection config "_default".toList = true ∧ "_default".toList ∈ GetSectionNames config := by
  have h0 : "_default".toList ∈ sectionKeys start := by
    rcases hstart with h | h
    · rw [h]
      decide
    · rw [(keys_parsed input start h).2]
      exact List.mem_cons_self _ _
  have h1 := keys_runOps ops start config "_default".toList hops hrun h0
  exact ⟨(IsSection_iff _ _).mpr h1, (mem_GetSectionNames _ _).mpr h1⟩

/-- An instance: on the configuration read from `testdata_set1`, a miss of a
typed accessor, a deletion of section `begin`, a merge and a deletion of an
option of `_default` leave `_default` in place. -/
theorem default_section_present_witness :
    NewConfigurationFromIniString testdata_set1 = .ok (parsed testdata_set1) ∧
    (∀ n, Op.deleteSection n ∈
        [Op.getIntWithDefault "end".toList "nota".toList 22, .deleteSection " begin".toList,
          .mergeOptions "_default".toList "end".toList,
          .deleteOption "_default".toList "end".toList] →
      TrimSpace n ≠ "_default".toList) ∧
    ∃ config,
      runOps [.getIntWithDefault "end".toList "nota".toList 22, .deleteSection " begin".toList,
        .mergeOptions "_default".toList "end".toList,
        .deleteOption "_default".toList "end".toList] (parsed testdata_set1) = some config ∧
      IsSection config "_default".toList = true ∧
        "_default".toList ∈ GetSectionNames config :=
  have hok : NewConfigurationFromIniString testdata_set1 = .ok (parsed testdata_set1) := by
    decide
  have hops : ∀ n, Op.deleteSection n ∈
      [Op.getIntWithDefault "end".toList "nota".toList 22, .deleteSection " begin".toList,
        .mergeOptions "_default".toList "end".toList,
        .deleteOption "_default".toList "end".toList] →
      TrimSpace n ≠ "_default".toList := by
    intro n hn
    simp only [List.mem_cons, Op.deleteSection.injEq, reduceCtorEq, false_or,
      List.mem_nil_iff, or_false] at hn
    subst hn
    decide
  have hsome : (runOps [.getIntWithDefault "end".toList "nota".toList 22,
      .deleteSection " begin".toList, .mergeOptions "_default".toList "end".toList,
      .deleteOption "_default".toList "end".toList] (parsed testdata_set1)).isSome = true := by
    decide
  match Option.isSome_iff_exists.mp hsome with
  | ⟨config, hrun⟩ =>
    ⟨hok, hops, config, hrun,
      default_section_present testdata_set1 (parsed testdata_set1) config _ (Or.inr hok)
        hops hrun⟩

/-! ## The section count through the operations -/

theorem counted_SetString (config config' : Configuration) (s o v : GoString)
    (h : SetString config s o v = some config') (hc : sectionsCounted config) :
    sectionsCounted config' :=
  counted_step config config' s (keys_SetString _ _ _ _ _ h).1 (keys_SetString _ _ _ _ _ h).2 hc

theorem counted_AddSection (config : Configuration) (s : GoString)
    (hc : sectionsCounted config) : sectionsCounted (AddSection config s).1 :=
  counted_step config _ s (keys_AddSection config s) rfl hc

theorem counted_MergeOptions (config : Configuration) (t s : GoString)
    (hc : sectionsCounted config) : sectionsCounted (MergeOptions config t s) :=
  counted_step config _ t (keys_MergeOptions config t s).1 (keys_MergeOptions config t s).2 hc

theorem counted_DeleteOption (config : Configuration) (s o : GoString)
    (hc : sectionsCounted config) : sectionsCounted (DeleteOption config s o) := by
  refine ⟨?_, ?_⟩
  · unfold distinctKeys
    rw [keys_DeleteOption]
    exact hc.1
  · rw [keys_DeleteOption]
    have e : (DeleteOption config s o).Sections = config.Sections := by
      unfold DeleteOption
      cases h : mapGet config.ConfigMap s <;> simp [h]
    rw [e]
    exact hc.2

theorem counted_DeleteSection (config : Configuration) (n : GoString)
    (hc : sectionsCounted config) : sectionsCounted (DeleteSection config n) := by
  obtain ⟨hnd, hcount⟩ := hc
  unfold DeleteSection conformSectionName
  cases h : mapGet config.ConfigMap (TrimSpace n) with
  | none =>
    simp only [h]
    exact ⟨hnd, hcount⟩
  | some mm =>
    simp only [h]
    have hk : TrimSpace n ∈ config.ConfigMap.map Prod.fst :=
      (mapGet_isSome_iff _ _).mp (by rw [h]; rfl)
    have hlen := length_mapDelete config.ConfigMap (TrimSpace n) hnd hk
    refine ⟨?_, ?_⟩
    · unfold distinctKeys sectionKeys
      simp only
      rw [keys_mapDelete]
      exact List.Nodup.filter _ hnd
    · unfold sectionKeys at hcount ⊢
      simp only
      rw [hcount, List.length_map, List.length_map]
      omega

theorem counted_GetStringWithDefault (config config' : Configuration) (s o d r : GoString)
    (h : GetStringWithDefault config s o d = some (r, config'))
    (hc : sectionsCounted config) : sectionsCounted config' := by
  unfold GetStringWithDefault at h
  have key : (match SetString config "_default".toList s o with
      | none => none
      | some config =>
        if config.OnDefaultAddToSection then
          match SetString config s o d with
          | none => none
          | some config => some (d, config)
        else some (d, config)) = some (r, config') → sectionsCounted config' := by
    intro h
    cases h1 : SetString config "_default".toList s o with
    | none => rw [h1] at h; cases h
    | some c1 =>
      rw [h1] at h
      simp only at h
      have hc1 := counted_SetString _ _ _ _ _ h1 hc
      by_cases hf : c1.OnDefaultAddToSection = true
      · rw [if_pos hf] at h
        cases h2 : SetString c1 s o d with
        | none => rw [h2] at h; cases h
        | some c2 =>
          rw [h2] at h
          simp only [Option.some.injEq, Prod.mk.injEq] at h
          rw [← h.2]
          exact counted_SetString _ _ _ _ _ h2 hc1
      · rw [if_neg hf] at h
        simp only [Option.some.injEq, Prod.mk.injEq] at h
        rw [← h.2]
        exact hc1
  cases hg : GetString config s o with
  | ok value =>
    rw [hg] at h
    simp only [Option.some.injEq, Prod.mk.injEq] at h
    rw [← h.2]
    exact hc
  | error msg =>
    rw [hg] at h
    exact key h
  | panic =>
    rw [hg] at h
    exact key h

/-- Every call keeps the section count equal to the number of sections. -/
theorem counted_apply (op : Op) (config config' : Configuration)
    (h : op.apply config = some config') (hc : sectionsCounted config) :
    sectionsCounted config' := by
  cases op with
  | addSection n =>
    simp only [Op.apply, Option.some.injEq] at h
    rw [← h]
    exact counted_AddSection config n hc
  | deleteSection n =>
    simp only [Op.apply, Option.some.injEq] at h
    rw [← h]
    exact counted_DeleteSection config n hc
  | setString s o v =>
    simp only [Op.apply] at h
    exact counted_SetString _ _ _ _ _ h hc
  | deleteOption s o =>
    simp only [Op.apply, Option.some.injEq] at h
    rw [← h]
    exact counted_DeleteOption config s o hc
  | mergeOptions t s =>
    simp only [Op.apply, Option.some.injEq] at h
    rw [← h]
    exact counted_MergeOptions config t s hc
  | setAddOnDefault flag =>
    simp only [Op.apply, Option.some.injEq] at h
    rw [← h]
    exact hc
  | getString s o =>
    simp only [Op.apply, Option.some.injEq] at h
    rw [← h]
    exact hc
  | getInt s o =>
    simp only [Op.apply, Option.some.injEq] at h
    rw [← h]
    exact hc
  | getBool s o =>
    simp only [Op.apply, Option.some.injEq] at h
    rw [← h]
    exact hc
  | getStringWithDefault s o d =>
    have h' : (GetStringWithDefault config s o d).map Prod.snd = some config' := h
    rw [Option.map_eq_some'] at h'
    obtain ⟨⟨r, c⟩, h1, h2⟩ := h'
    simp only at h2
    subst h2
    exact counted_GetStringWithDefault config c s o d r h1 hc
  | getIntWithDefault s o d =>
    have h' : (GetIntWithDefault config s o d).map Prod.snd = some config' := h
    rw [Option.map_eq_some'] at h'
    obtain ⟨⟨r, c0⟩, h1, h2⟩ := h'
    simp only at h2
    subst h2
    unfold GetIntWithDefault at h1
    simp only at h1
    cases hg : GetStringWithDefault config s o (FormatInt d) with
    | none => rw [hg] at h1; cases h1
    | some p =>
      obtain ⟨mm, c⟩ := p
      rw [hg] at h1
      simp only [Option.some.injEq, Prod.mk.injEq] at h1
      rw [← h1.2]
      exact counted_GetStringWithDefault config c s o _ mm hg hc
  | getBoolWithDefault s o d =>
    have h' : (GetBoolWithDefault config s o d).map Prod.snd = some config' := h
    rw [Option.map_eq_some'] at h'
    obtain ⟨⟨r, c0⟩, h1, h2⟩ := h'
    simp only at h2
    subst h2
    unfold GetBoolWithDefault at h1
    cases hg : GetString config s o <;> rw [hg] at h1 <;>
      simp only [Option.some.injEq, Prod.mk.injEq, reduceCtorEq] at h1
    all_goals
      rw [← h1.2]
      exact hc

theorem counted_runOps (ops : List Op) (config config' : Configuration)
    (h : runOps ops config = some config') (hc : sectionsCounted config) :
    sectionsCounted config' := by
  induction ops generalizing config with
  | nil =>
    simp only [runOps, Option.some.injEq] at h
    rw [← h]
    exact hc
  | cons op rest ih =>
    simp only [runOps] at h
    cases h1 : op.apply config with
    | none => rw [h1] at h; cases h
    | some c1 =>
      rw [h1] at h
      simp only at h
      exact ih c1 h (counted_apply op config c1 h1 hc)

theorem counted_length (config : Configuration) (hc : sectionsCounted config) :
    config.Sections = (config.ConfigMap.length : Int) := by
  rw [hc.2]
  unfold sectionKeys
  rw [List.length_map]

theorem AddSection_of_present (config : Configuration) (n : GoString)
    (h : (GetSection config n).isSome = true) : (AddSection config n).1 = config := by
  unfold GetSection at h
  unfold AddSection
  cases hg : mapGet config.ConfigMap (conformSectionName n) with
  | none => rw [hg] at h; cases h
  | some mm => simp only [hg]

/-! ## C21: the section count -/

/-- C21.  `NewConfiguration` has one section, `_default`, and `Sections = 1`.
In every configuration reached from it, or from the configuration of a
successful `NewConfigurationFromIniString`, by a sequence of calls of
`AddSection`, `DeleteSection`, `SetString`, `DeleteOption`, `MergeOptions`,
`SetAddOnDefault` and the typed accessors, the `Sections` field equals the
number of sections present in `ConfigMap`, whose names are distinct; so it is
for the configuration of a successful parse itself; and `AddSection` on a name
whose trimmed form is an existing section leaves the configuration, hence both
numbers, unchanged. -/
theorem Sections_invariant (input : GoString) (start config : Configuration) (ops : List Op)
    (hstart : start = NewConfiguration ∨ NewConfigurationFromIniString input = .ok start)
    (hrun : runOps ops start = some config) :
    NewConfiguration.Sections = 1 ∧ GetSectionNames NewConfiguration = ["_default".toList] ∧
    start.Sections = (start.ConfigMap.length : Int) ∧
    config.Sections = (config.ConfigMap.length : Int) ∧
    config.Sections = ((GetSectionNames config).length : Int) ∧
    distinctKeys config ∧
    ∀ n, (GetSection config n).isSome = true → (AddSection config n).1 = config := by
  have h0 : sectionsCounted start := by
    rcases hstart with h | h
    · rw [h]
      refine ⟨?_, ?_⟩
      · unfold distinctKeys
        decide
      · decide
    · exact (keys_parsed input start h).1
  have h1 := counted_runOps ops start config hrun h0
  refine ⟨by decide, by decide, counted_length start h0, counted_length config h1, ?_, h1.1,
    fun n hn => AddSection_of_present config n hn⟩
  rw [length_GetSectionNames]
  exact counted_length config h1

/-- An instance: on the configuration read from `testdata_set1`, an
`AddSection` of an existing name given with blanks, a deletion, writes to a new
section, a merge into a new section and misses of the three accessors with a
default leave five sections, counted as five. -/
theorem Sections_invariant_witness :
    NewConfigurationFromIniString testdata_set1 = .ok (parsed testdata_set1) ∧
    ∃ config,
      runOps [.addSection " begin ".toList, .deleteSection "middle".toList,
        .setString "new".toList "k".toList "v".toList,
        .deleteOption "new".toList "k".toList, .mergeOptions "copy".toList "end".toList,
        .getStringWithDefault "end".toList "nota".toList "d".toList,
        .getIntWithDefault "other".toList "n".toList 22,
        .getBoolWithDefault "absent".toList "b".toList true] (parsed testdata_set1)
        = some config ∧
      config.Sections = 5 ∧ config.ConfigMap.length = 5 ∧
      config.Sections = (config.ConfigMap.length : Int) :=
  have hok : NewConfigurationFromIniString testdata_set1 = .ok (parsed testdata_set1) := by
    decide
  have hsome : ((runOps [.addSection " begin ".toList, .deleteSection "middle".toList,
      .setString "new".toList "k".toList "v".toList,
      .deleteOption "new".toList "k".toList, .mergeOptions "copy".toList "end".toList,
      .getStringWithDefault "end".toList "nota".toList "d".toList,
      .getIntWithDefault "other".toList "n".toList 22,
      .getBoolWithDefault "absent".toList "b".toList true] (parsed testdata_set1)).map
        (fun config => (config.Sections, config.ConfigMap.length))) = some (5, 5) := by
    decide
  match Option.map_eq_some'.mp hsome with
  | ⟨config, hrun, hval⟩ =>
    ⟨hok, config, hrun, (Prod.mk.inj hval).1, (Prod.mk.inj hval).2,
      (Sections_invariant testdata_set1 (parsed testdata_set1) config _ (Or.inr hok) hrun).2.2.2.1⟩

/-! ## C22: where the reader fails at run time -/

/-- `conformOption` fails at run time exactly on the texts that trim to one
quote character. -/
theorem conformOption_eq_none_iff (s : GoString) :
    conformOption s = none ↔ isLoneQuote s = true := by
  unfold isLoneQuote
  constructor
  · intro h
    by_cases h1 : TrimSpace s = [squote]
    · simp [h1]
    · by_cases h2 : TrimSpace s = [dquote]
      · simp [h2]
      · rw [conformOption_of_trim s _ rfl h1 h2] at h
        cases h
  · intro h
    simp only [Bool.or_eq_true, decide_eq_true_eq] at h
    unfold conformOption
    rcases h with h | h <;> rw [h] <;> decide

theorem conformOption_isSome_iff (s : GoString) :
    (conformOption s).isSome = true ↔ isLoneQuote s = false := by
  have h := conformOption_eq_none_iff s
  cases hc : conformOption s with
  | none =>
    rw [hc] at h
    simp [h.mp rfl]
  | some v =>
    rw [hc] at h
    cases hl : isLoneQuote s with
    | false => simp
    | true => exact absurd (h.mpr hl) (by simp)

theorem processLine_lone_quote (st : LoopState) (t : GoString) (h : hasLoneQuote t = true) :
    processLine st t = .panic := by
  unfold hasLoneQuote at h
  simp only [Bool.and_eq_true, Bool.or_eq_true] at h
  obtain ⟨ha, hq⟩ := h
  rw [processLine_assignment st t ha]
  have hnone : SetString st.config st.section_ (keyText t) (valueText t) = none := by
    have hs := SetString_isSome st.config st.section_ (keyText t) (valueText t)
    rcases hq with hq | hq
    · rw [(conformOption_eq_none_iff _).mpr hq] at hs
      simpa using hs
    · rw [(conformOption_eq_none_iff _).mpr hq] at hs
      simpa using hs
  rw [hnone]

/-- The loop over any lines: it stops at the first line that is malformed or
is an assignment with a lone quote, with the error of the malformed line, or
with the runtime failure of `conformOption`; with no such line it runs to the
end. -/
theorem scanLoop_result (lines : List GoString) (st : LoopState) :
    match lines.find? (fun l => isMalformedLine l || hasLoneQuote l) with
    | some l =>
      scanLoop lines st = if hasLoneQuote l then .panic else .error (malformedMessage l)
    | none => ∃ st', scanLoop lines st = .ok st' := by
  induction lines generalizing st with
  | nil => exact ⟨st, rfl⟩
  | cons t rest ih =>
    by_cases hq : hasLoneQuote t = true
    · simp only [List.find?, hq, Bool.or_true, scanLoop, processLine_lone_quote st t hq, if_true]
    · have hq' : hasLoneQuote t = false := by simpa using hq
      by_cases hm : isMalformedLine t = true
      · simp only [List.find?, hm, hq', Bool.true_or, scanLoop, processLine_malformed st t hm,
          Bool.false_eq_true, if_false]
      · have hm' : isMalformedLine t = false := by simpa using hm
        have hconf : isAssignmentLine t = true →
            (conformOption (keyText t)).isSome = true ∧
              (conformOption (valueText t)).isSome = true := by
          intro ha
          unfold hasLoneQuote at hq'
          rw [ha] at hq'
          simp only [Bool.true_and, Bool.or_eq_false_iff] at hq'
          exact ⟨(conformOption_isSome_iff _).mpr hq'.1, (conformOption_isSome_iff _).mpr hq'.2⟩
        obtain ⟨st1, h1⟩ := processLine_wellformed st t hm' hconf
        simp only [List.find?, hm', hq', Bool.or_false, scanLoop, h1]
        exact ih st1

/-- The outcome of `NewConfigurationFromIniString` on every input: an error for
the empty input; otherwise, over the lines read (the lines the scanner yields),
the outcome of the first line that is malformed (its error) or is an assignment
with a lone quote (the runtime failure), and a configuration when there is no
such line. -/
theorem parse_result (input : GoString) :
    if input = [] then
      NewConfigurationFromIniString input = .error "String cannot be empty".toList
    else
      match (scanLines input [] 0).find? (fun l => isMalformedLine l || hasLoneQuote l) with
      | some l =>
        NewConfigurationFromIniString input =
          if hasLoneQuote l then .panic else .error (malformedMessage l)
      | none => ∃ config, NewConfigurationFromIniString input = .ok config := by
  by_cases hne : input = []
  · rw [if_pos hne]
    simp [NewConfigurationFromIniString, hne]
  · rw [if_neg hne]
    have h := scanLoop_result (scanLines input [] 0) initialState
    have hdef : NewConfigurationFromIniString input =
        match scanLoop (scanLines input [] 0) initialState with
        | .ok st => Result.ok { st.config with IsLoaded := true }
        | .error msg => .error msg
        | .panic => .panic := by
      simp only [NewConfigurationFromIniString, hne, if_false, configFromReader]
      rfl
    cases hf : (scanLines input [] 0).find? (fun l => isMalformedLine l || hasLoneQuote l) with
    | some l =>
      rw [hf] at h
      simp only at h ⊢
      rw [hdef, h]
      by_cases hq : hasLoneQuote l = true
      · simp [hq]
      · simp [hq]
    | none =>
      rw [hf] at h
      simp only at h ⊢
      obtain ⟨st', hst⟩ := h
      exact ⟨_, by rw [hdef, hst]⟩

/-- C22, at the failing inputs.  `conformOption` of a single quote, of a double
quote, and of a single quote between blanks does not return: the trimmed text
has length 1, begins with a quote and is its own last character, so the slice
`option[1:0]` is evaluated.  The one-line documents `k = ` followed by a single
quote (a value that is a lone quote) and a double quote followed by `=v` (a key
that is a lone quote) are assignment lines and `NewConfigurationFromIniString`
returns neither a configuration nor an error on them. -/
theorem conformOption_lone_quote :
    conformOption [squote] = none ∧ conformOption [dquote] = none ∧
    conformOption (" ".toList ++ [squote] ++ " ".toList) = none ∧
    slice [squote] 1 0 = none ∧
    scanLines ("k = ".toList ++ [squote]) [] 0 = ["k = ".toList ++ [squote]] ∧
    isAssignmentLine ("k = ".toList ++ [squote]) = true ∧
    NewConfigurationFromIniString ("k = ".toList ++ [squote]) = .panic ∧
    isAssignmentLine ([dquote] ++ "=v".toList) = true ∧
    NewConfigurationFromIniString ([dquote] ++ "=v".toList) = .panic := by
  decide

end Gofig
